import Mathlib

/-!
# MemoryAlloc-Storage: cache, address translation and JBOD client

A shallow embedding of `cache.c`, `mdadm.c` and `net.c`.

* C globals become fields of explicit state records that every function
  takes and returns.
* A pointer to bytes is a function from offsets to byte values; a `NULL`
  pointer is `none`.
* `uint32_t` values are natural numbers, reduced modulo `2 ^ 32` where the
  C arithmetic can wrap; `int` values are integers.
-/

namespace Jbod

/-! ## Constants of `jbod.h`, `net.h` and `limits.h` -/

/-- Modelled from the spec: `jbod.h` is not among the sources; the array has 16 disks. -/
def JBOD_NUM_DISKS : Nat := 16

/-- Modelled from the spec: `jbod.h` is not among the sources; a block has 256 bytes. -/
def JBOD_BLOCK_SIZE : Nat := 256

/-- Modelled from the spec: `jbod.h` is not among the sources; a disk has 256 blocks. -/
def JBOD_NUM_BLOCKS_PER_DISK : Nat := 256

/-- Modelled from the spec: `jbod.h` is not among the sources; bytes per disk,
blocks-per-disk times block-size. -/
def JBOD_DISK_SIZE : Nat := 65536

/-- Modelled from the spec: `net.h` is not among the sources; the packet header is
the 4-byte opcode followed by 1 info byte. -/
def HEADER_LEN : Nat := 5

/-- Modelled from the spec: `jbod.h` is not among the sources; the operation codes
are numbered in the order in which the spec lists the recognised operations. -/
def JBOD_MOUNT : Nat := 0

/-- Modelled from the spec: see `JBOD_MOUNT`. -/
def JBOD_UNMOUNT : Nat := 1

/-- Modelled from the spec: see `JBOD_MOUNT`. -/
def JBOD_WRITE_PERMISSION : Nat := 2

/-- Modelled from the spec: see `JBOD_MOUNT`. -/
def JBOD_REVOKE_WRITE_PERMISSION : Nat := 3

/-- Modelled from the spec: see `JBOD_MOUNT`. -/
def JBOD_SEEK_TO_DISK : Nat := 4

/-- Modelled from the spec: see `JBOD_MOUNT`. -/
def JBOD_SEEK_TO_BLOCK : Nat := 5

/-- Modelled from the spec: see `JBOD_MOUNT`. -/
def JBOD_READ_BLOCK : Nat := 6

/-- Modelled from the spec: see `JBOD_MOUNT`. -/
def JBOD_WRITE_BLOCK : Nat := 7

/-- The largest `int` (`limits.h`). -/
def INT_MAX : Int := 2147483647

/-- The smallest `int` (`limits.h`). -/
def INT_MIN : Int := -2147483648

/-- The number of `uint32_t` values. -/
def UINT32_MOD : Nat := 4294967296

/-! ## Memory -/

/-- The bytes reachable from a pointer, by offset. -/
abbrev Bytes := Nat → Nat

/-- The call `memcpy(dst + d, src + s, n)`: the memory at `dst` afterwards. -/
def memcpy (dst : Bytes) (d : Nat) (src : Bytes) (s : Nat) (n : Nat) : Bytes :=
  fun o => if d ≤ o ∧ o < d + n then src (s + (o - d)) else dst o

/-- The statement `x++` on an `int`. Overflow of a signed increment is undefined in C;
the model gives it the two's-complement result, so that every stored value is an `int`. -/
def int_succ (x : Int) : Int := if x = INT_MAX then INT_MIN else x + 1

/-! ## `cache.c` -/

/-- The type `cache_entry_t`. Modelled from the spec: `cache.h` is not among the
sources; the fields are those `cache.c` uses. -/
structure cache_entry_t where
  valid : Bool
  disk_num : Int
  block_num : Int
  block : Bytes
  num_accesses : Int

/-- An entry after `memset(cache, 0, ...)`. -/
def zero_entry : cache_entry_t :=
  { valid := false, disk_num := 0, block_num := 0, block := fun _ => 0, num_accesses := 0 }

/-- The globals of `cache.c`. The field `cache` is `none` for `NULL` and otherwise the
array `cache[0 .. cache_size)`; `cache_size` is its length (see `cache_size`). -/
structure CacheGlobals where
  cache : Option (List cache_entry_t)
  num_queries : Int
  num_hits : Int

/-- The global `cache_size`: `cache_create` sets it to the number of allocated entries
and `cache_destroy` to 0, nothing else assigns it. -/
def cache_size (g : CacheGlobals) : Nat :=
  match g.cache with
  | none => 0
  | some tbl => tbl.length

/-- The globals at program start. -/
def cache_initial : CacheGlobals := { cache := none, num_queries := 0, num_hits := 0 }

/-- The function `cache_create`; `malloc_ok` says whether `malloc` returns memory. -/
def cache_create (g : CacheGlobals) (num_entries : Int) (malloc_ok : Bool) : CacheGlobals × Int :=
  if num_entries < 2 ∨ num_entries > 4096 ∨ g.cache.isSome then (g, -1)
  else if malloc_ok = false then (g, -1)
  else ({ g with cache := some (List.replicate num_entries.toNat zero_entry) }, 1)

/-- The function `cache_destroy`. -/
def cache_destroy (g : CacheGlobals) : CacheGlobals × Int :=
  match g.cache with
  | none => (g, -1)
  | some _ => ({ g with cache := none }, 1)

/-- The test `cache[i].valid && cache[i].disk_num == disk_num && cache[i].block_num == block_num`. -/
def entry_matches (e : cache_entry_t) (disk_num block_num : Int) : Bool :=
  e.valid && (decide (e.disk_num = disk_num) && decide (e.block_num = block_num))

/-- The `for` loop of `cache_lookup` over the slots not yet visited. On the first
matching slot: the output buffer after the copy, and the slots with that slot's access
count incremented. `none` when the loop runs to its end. -/
def cache_lookup_loop (disk_num block_num : Int) (buf : Bytes) :
    List cache_entry_t → Option (Bytes × List cache_entry_t)
  | [] => none
  | e :: rest =>
    if entry_matches e disk_num block_num then
      some (memcpy buf 0 e.block 0 JBOD_BLOCK_SIZE,
            { e with num_accesses := int_succ e.num_accesses } :: rest)
    else
      match cache_lookup_loop disk_num block_num buf rest with
      | none => none
      | some (out, rest1) => some (out, e :: rest1)

/-- The function `cache_lookup`: new globals, return value, and the buffer afterwards. -/
def cache_lookup (g : CacheGlobals) (disk_num block_num : Int) (buf : Option Bytes) :
    CacheGlobals × Int × Option Bytes :=
  match g.cache, buf with
  | some tbl, some out =>
    match cache_lookup_loop disk_num block_num out tbl with
    | some (out1, tbl1) =>
      ({ cache := some tbl1, num_queries := int_succ g.num_queries,
         num_hits := int_succ g.num_hits }, 1, some out1)
    | none => ({ g with num_queries := int_succ g.num_queries }, -1, buf)
  | _, _ => (g, -1, buf)

/-- The `for` loop of `cache_update` over the slots not yet visited. -/
def cache_update_loop (disk_num block_num : Int) (buf : Bytes) :
    List cache_entry_t → List cache_entry_t
  | [] => []
  | e :: rest =>
    if entry_matches e disk_num block_num then
      { e with block := memcpy e.block 0 buf 0 JBOD_BLOCK_SIZE,
               num_accesses := int_succ e.num_accesses } :: rest
    else e :: cache_update_loop disk_num block_num buf rest

/-- The function `cache_update`. -/
def cache_update (g : CacheGlobals) (disk_num block_num : Int) (buf : Bytes) : CacheGlobals :=
  match g.cache with
  | none => g
  | some tbl => { g with cache := some (cache_update_loop disk_num block_num buf tbl) }

/-- The `for` loop of `cache_insert` from index `i` over the slots not yet visited, with
the locals `lfu_index`, `min_accesses` and `earliest_insert_index`. The result is `none`
when the loop returns -1 on an existing entry, and otherwise `lfu_index` at the `break`
or at the end of the loop. -/
def cache_insert_loop (disk_num block_num : Int) :
    List cache_entry_t → Nat → Int → Int → Int → Option Int
  | [], _, lfu_index, _, _ => some lfu_index
  | e :: rest, i, lfu_index, min_accesses, earliest_insert_index =>
    if entry_matches e disk_num block_num then none
    else if e.valid = false then some (i : Int)
    else if e.num_accesses < min_accesses then
      cache_insert_loop disk_num block_num rest (i + 1) i e.num_accesses i
    else if e.num_accesses = min_accesses then
      if earliest_insert_index = -1 ∨ earliest_insert_index > (i : Int) then
        cache_insert_loop disk_num block_num rest (i + 1) i min_accesses i
      else
        cache_insert_loop disk_num block_num rest (i + 1) lfu_index min_accesses
          earliest_insert_index
    else
      cache_insert_loop disk_num block_num rest (i + 1) lfu_index min_accesses
        earliest_insert_index

/-- The five assignments to `cache[lfu_index]` that end `cache_insert`. -/
def fill_entry (disk_num block_num : Int) (buf : Bytes) (e : cache_entry_t) : cache_entry_t :=
  { valid := true, disk_num := disk_num, block_num := block_num,
    block := memcpy e.block 0 buf 0 JBOD_BLOCK_SIZE, num_accesses := 1 }

/-- The function `cache_insert`: new globals and return value. -/
def cache_insert (g : CacheGlobals) (disk_num block_num : Int) (buf : Option Bytes) :
    CacheGlobals × Int :=
  match g.cache, buf with
  | some tbl, some src =>
    if disk_num < 0 ∨ disk_num ≥ (JBOD_NUM_DISKS : Int) ∨ block_num < 0 ∨ block_num ≥ 256 then
      (g, -1)
    else
      match cache_insert_loop disk_num block_num tbl 0 (-1) INT_MAX (-1) with
      | none => (g, -1)
      | some lfu_index =>
        if lfu_index = -1 then (g, -1)
        else
          ({ g with cache := some (List.modify (fill_entry disk_num block_num src)
                lfu_index.toNat tbl) }, 1)
  | _, _ => (g, -1)

/-- The function `cache_enabled`. -/
def cache_enabled (g : CacheGlobals) : Bool :=
  g.cache.isSome && decide (cache_size g > 0)

/-! ## `net.c` and the device server -/

/-- The four bytes that `htonl(op)` leaves in memory, most significant first. -/
def htonl (op : Nat) : List Nat :=
  [op / 16777216 % 256, op / 65536 % 256, op / 256 % 256, op % 256]

/-- The `uint32_t` that `ntohl` makes of four bytes in memory. -/
def ntohl (bs : List Nat) : Nat :=
  bs.getD 0 0 * 16777216 + bs.getD 1 0 * 65536 + bs.getD 2 0 * 256 + bs.getD 3 0

/-- The `JBOD_BLOCK_SIZE` bytes of a block in stream order. -/
def block_bytes (b : Bytes) : List Nat := (List.range JBOD_BLOCK_SIZE).map b

/-- A byte sequence taken off the stream, seen as memory. -/
def bytes_of (l : List Nat) : Bytes := fun o => l.getD o 0

/-- The function `nread` at the level of whole transfers: `len` bytes from the front of
the incoming stream and the rest of the stream, or `none` when the stream ends first. -/
def nread (stream : List Nat) (len : Nat) : Option (List Nat × List Nat) :=
  if stream.length < len then none else some (stream.take len, stream.drop len)

/-- The function `send_packet`: the first `totalLength` bytes of `buffer`, which it hands
to `nwrite`. -/
def send_packet (op : Nat) (block : Option Bytes) : List Nat :=
  match block with
  | some b =>
    if op &&& 0x3F = JBOD_WRITE_BLOCK then htonl op ++ [0 ||| 0x02] ++ block_bytes b
    else htonl op ++ [0]
  | none => htonl op ++ [0]

/-- The function `recv_packet` on the incoming stream: `none` when a read fails, otherwise
the values stored through `op`, `ret` and `block`. -/
def recv_packet (stream : List Nat) (block : Bytes) : Option (Nat × Nat × Bytes) :=
  match nread stream HEADER_LEN with
  | none => none
  | some (header, rest) =>
    let op := ntohl (header.take 4)
    let ret := header.getD 4 0
    if ret &&& 0x02 ≠ 0 then
      match nread rest JBOD_BLOCK_SIZE with
      | none => none
      | some (data, _) => some (op, ret, memcpy block 0 (bytes_of data) 0 JBOD_BLOCK_SIZE)
    else some (op, ret, block)

/-- The remote device: the content of every block by disk, block and offset, and the
position of the disk/block cursor. -/
structure Server where
  store : Nat → Nat → Bytes
  cur_disk : Nat
  cur_block : Nat

/-- Modelled from the spec: the device server is an external collaborator that is not
among the sources. It decodes the request (operation in the low 6 bits of the opcode, disk
in the next 4, block in the next 8), keeps a disk/block cursor that the seek operations
set, answers read-block with the block under the cursor as payload, and stores the payload
of write-block under the cursor. With `refuse` set it reports failure (bit 0 of the info
byte) and changes nothing. -/
def jbod_server (sv : Server) (refuse : Bool) (request : List Nat) : Server × List Nat :=
  let op := ntohl (request.take 4)
  let info := request.getD 4 0
  let cmd := op % 64
  if refuse then (sv, htonl op ++ [1])
  else if cmd = JBOD_SEEK_TO_DISK then ({ sv with cur_disk := op / 64 % 16 }, htonl op ++ [0])
  else if cmd = JBOD_SEEK_TO_BLOCK then
    ({ sv with cur_block := op / 1024 % 256 }, htonl op ++ [0])
  else if cmd = JBOD_READ_BLOCK then
    (sv, htonl op ++ [2] ++ block_bytes (sv.store sv.cur_disk sv.cur_block))
  else if cmd = JBOD_WRITE_BLOCK then
    if info &&& 0x02 = 0 then (sv, htonl op ++ [1])
    else
      ({ sv with store := fun d b =>
            if d = sv.cur_disk ∧ b = sv.cur_block then bytes_of (request.drop HEADER_LEN)
            else sv.store d b },
       htonl op ++ [0])
  else (sv, htonl op ++ [0])

/-- What the socket does with one request: the bytes are written and the whole reply
arrives; or `nwrite` fails, so that `send_packet` returns false and the server sees no
request; or the request is written and only the first `k` bytes of the reply arrive before
`nread` gives up. -/
inductive Wire where
  | whole : Wire
  | send_fails : Wire
  | reply_cut (k : Nat) : Wire

/-- The return value of `send_packet`, which is that of `nwrite`. -/
def send_ok (w : Wire) : Bool :=
  match w with
  | Wire.send_fails => false
  | _ => true

/-- The bytes of the reply that `recv_packet` finds on the socket. -/
def arriving (w : Wire) (reply : List Nat) : List Nat :=
  match w with
  | Wire.reply_cut k => reply.take k
  | _ => reply

/-- The global `cli_sd` of `net.c` together with the other end of the connection: the
server, the replies it is going to refuse (one flag per request, none once the list is
used up), the opcodes with which `jbod_client_operation` has been called so far, and what
the socket is going to do with the coming requests (one entry per request, every later
request goes through whole). -/
structure Net where
  cli_sd : Int
  server : Server
  refuse : List Bool
  oplog : List Nat
  wire : List Wire := []

/-- The function `jbod_client_operation`: the connection afterwards, the return value,
and the memory at `block` afterwards. It returns -1 without a connection, when
`send_packet` fails, and when `recv_packet` fails; in the last case the server has
carried out the request. The local `temp_block` is read only after `recv_packet` has
filled it. -/
def jbod_client_operation (n : Net) (op : Nat) (block : Option Bytes) :
    Net × Int × Option Bytes :=
  if n.cli_sd = -1 then ({ n with oplog := n.oplog ++ [op] }, -1, block)
  else if send_ok (n.wire.headD Wire.whole) = false then
    ({ n with oplog := n.oplog ++ [op], wire := n.wire.tail }, -1, block)
  else
    let reply := jbod_server n.server (n.refuse.headD false) (send_packet op block)
    let n1 : Net :=
      { cli_sd := n.cli_sd, server := reply.1, refuse := n.refuse.tail,
        oplog := n.oplog ++ [op], wire := n.wire.tail }
    match recv_packet (arriving (n.wire.headD Wire.whole) reply.2) (fun _ => 0) with
    | none => (n1, -1, block)
    | some (_, ret, temp_block) =>
      (n1, if ret &&& 0x01 ≠ 0 then -1 else 0,
        if ret &&& 0x02 ≠ 0 then
          block.map (fun b => memcpy b 0 temp_block 0 JBOD_BLOCK_SIZE)
        else block)

/-! ## `mdadm.c` -/

/-- The globals of the program: `is_mounted` and `is_written` of `mdadm.c`, the globals of
`cache.c`, and the connection of `net.c`. -/
structure State where
  is_mounted : Int
  is_written : Int
  cache : CacheGlobals
  net : Net

/-- The function `mdadm_mount`. -/
def mdadm_mount (s : State) : State × Int :=
  let r := jbod_client_operation s.net JBOD_MOUNT none
  if r.2.1 = 0 then ({ s with net := r.1, is_mounted := 1 }, 1)
  else ({ s with net := r.1 }, -1)

/-- The function `mdadm_unmount`. -/
def mdadm_unmount (s : State) : State × Int :=
  let r := jbod_client_operation s.net JBOD_UNMOUNT none
  if r.2.1 = 0 then ({ s with net := r.1, is_mounted := 0 }, 1)
  else ({ s with net := r.1 }, -1)

/-- The helper `min` of `mdadm.c`. -/
def mdadm_min (a b : Int) : Int := if a < b then a else b

/-- The function `jbod_construct_opcode`; `op` is one of the operation codes. -/
def jbod_construct_opcode (op : Nat) (disk block padding : Nat) : Nat :=
  (op &&& 0x3F) ||| ((disk &&& 0xF) <<< 6) ||| ((block &&& 0xFF) <<< 10) |||
    ((padding &&& 0x3FFF) <<< 18)

/-- The function `mdadm_write_permission`. -/
def mdadm_write_permission (s : State) : State × Int :=
  let r := jbod_client_operation s.net JBOD_WRITE_PERMISSION none
  if r.2.1 = 0 then ({ s with net := r.1, is_written := 1 }, 1)
  else ({ s with net := r.1 }, -1)

/-- The function `mdadm_revoke_write_permission`. -/
def mdadm_revoke_write_permission (s : State) : State × Int :=
  let r := jbod_client_operation s.net JBOD_REVOKE_WRITE_PERMISSION none
  if r.2.1 = 0 then ({ s with net := r.1, is_written := 0 }, 1)
  else ({ s with net := r.1 }, -1)

/-- The condition
`jbod_client_operation(SEEK_TO_DISK) != 0 || jbod_client_operation(SEEK_TO_BLOCK) != 0 ||
jbod_client_operation(cmd, temp_buf) != 0` of `mdadm_read` and `mdadm_write`, evaluated
left to right with short circuit: the connection afterwards, the value of the condition,
and `temp_buf` afterwards. -/
def jbod_seek_and (n : Net) (disk_id block_id cmd : Nat) (temp_buf : Bytes) :
    Net × Bool × Bytes :=
  let r1 := jbod_client_operation n (jbod_construct_opcode JBOD_SEEK_TO_DISK disk_id 0 0) none
  if r1.2.1 ≠ 0 then (r1.1, true, temp_buf)
  else
    let r2 :=
      jbod_client_operation r1.1 (jbod_construct_opcode JBOD_SEEK_TO_BLOCK 0 block_id 0) none
    if r2.2.1 ≠ 0 then (r2.1, true, temp_buf)
    else
      let r3 := jbod_client_operation r2.1 (jbod_construct_opcode cmd 0 0 0) (some temp_buf)
      (r3.1, decide (r3.2.1 ≠ 0), r3.2.2.getD temp_buf)

/-- The value `JBOD_NUM_DISKS * JBOD_DISK_SIZE - 1` of `last_possible_addr`. -/
def last_possible_addr : Nat := JBOD_NUM_DISKS * JBOD_DISK_SIZE - 1

/-- The `uint32_t` expression `start_addr + len - 1`. -/
def last_addr (start_addr len : Nat) : Nat := (start_addr + len + (UINT32_MOD - 1)) % UINT32_MOD

/-- The `uint32_t` value `min(JBOD_BLOCK_SIZE - offset_within_block, len)` of
`bytes_to_copy`. -/
def bytes_to_copy (offset_within_block len : Nat) : Nat :=
  (mdadm_min ((JBOD_BLOCK_SIZE - offset_within_block : Nat) : Int) (len : Int)).toNat

/-- The locals of `mdadm_read` inside its loop. The pointer `read_buf` is the caller's
buffer `read_buf` together with the offset `read_pos` it has advanced to. -/
structure ReadLocals where
  read_len : Nat
  read_buf : Bytes
  read_pos : Nat
  temp_buf : Bytes
  current_block : Nat
  offset_within_block : Nat
  read : Int

/-- The first half of the loop body of `mdadm_read`: the cache lookup and, on a miss, the
three remote operations and the cache insertion. The state afterwards and `temp_buf`
afterwards, or `none` for it when the body returns -1. -/
def read_fetch (s : State) (l : ReadLocals) : State × Option Bytes :=
  let disk_id := l.current_block / JBOD_NUM_BLOCKS_PER_DISK
  let block_id := l.current_block % JBOD_NUM_BLOCKS_PER_DISK
  let lk := cache_lookup s.cache (disk_id : Int) (block_id : Int) (some l.temp_buf)
  if lk.2.1 ≠ 1 then
    let sk := jbod_seek_and s.net disk_id block_id JBOD_READ_BLOCK (lk.2.2.getD l.temp_buf)
    if sk.2.1 then ({ s with cache := lk.1, net := sk.1 }, none)
    else
      ({ s with
          cache := (cache_insert lk.1 (disk_id : Int) (block_id : Int) (some sk.2.2)).1,
          net := sk.1 },
       some sk.2.2)
  else ({ s with cache := lk.1 }, some (lk.2.2.getD l.temp_buf))

/-- The second half of the loop body of `mdadm_read`: the copy into the caller's buffer
and the updates of the locals. -/
def read_advance (l : ReadLocals) : ReadLocals :=
  let n := bytes_to_copy l.offset_within_block l.read_len
  { read_len := l.read_len - n,
    read_buf := memcpy l.read_buf l.read_pos l.temp_buf l.offset_within_block n,
    read_pos := l.read_pos + n,
    temp_buf := l.temp_buf,
    current_block := l.current_block + 1,
    offset_within_block := 0,
    read := l.read + (n : Int) }

/-- The `while (current_block <= end_block)` loop of `mdadm_read`, by the number of
blocks `end_block + 1 - current_block` still to visit (each iteration adds one to
`current_block` and nothing assigns `end_block`). The state, the value returned (-1 from
inside the loop, `read` after it) and the locals at that point. -/
def mdadm_read_loop : Nat → State → ReadLocals → State × Int × ReadLocals
  | 0, s, l => (s, l.read, l)
  | k + 1, s, l =>
    match read_fetch s l with
    | (s1, none) => (s1, -1, l)
    | (s1, some temp) => mdadm_read_loop k s1 (read_advance { l with temp_buf := temp })

/-- The locals of `mdadm_read` when its loop starts; `temp_buf` is not initialised in the
source and every path of the loop body fills it before reading it. -/
def read_locals (start_addr read_len : Nat) (buf : Bytes) : ReadLocals :=
  { read_len := read_len, read_buf := buf, read_pos := 0, temp_buf := fun _ => 0,
    current_block := start_addr / JBOD_BLOCK_SIZE,
    offset_within_block := start_addr % JBOD_BLOCK_SIZE, read := 0 }

/-- The number of iterations of the loops of `mdadm_read` and `mdadm_write`:
`end_block + 1 - current_block` at loop entry. -/
def block_span (start_addr len : Nat) : Nat :=
  last_addr start_addr len / JBOD_BLOCK_SIZE + 1 - start_addr / JBOD_BLOCK_SIZE

/-- The function `mdadm_read`: the state afterwards, the return value, and the caller's
buffer afterwards. -/
def mdadm_read (s : State) (start_addr read_len : Nat) (read_buf : Option Bytes) :
    State × Int × Option Bytes :=
  if s.is_mounted = 0 then (s, -1, read_buf)
  else if read_buf.isNone ∧ read_len > 0 then (s, -1, read_buf)
  else if read_len = 0 then (s, 0, read_buf)
  else if read_len > 1024 then (s, -1, read_buf)
  else if start_addr > last_possible_addr ∨ last_addr start_addr read_len > last_possible_addr
  then (s, -1, read_buf)
  else
    match read_buf with
    | none => (s, -1, none)
    | some buf =>
      let r := mdadm_read_loop (block_span start_addr read_len) s
        (read_locals start_addr read_len buf)
      (r.1, r.2.1, some r.2.2.read_buf)

/-- The locals of `mdadm_write` inside its loop. The pointer `write_buf` is the caller's
buffer `write_buf` together with the offset `write_pos` it has advanced to. -/
structure WriteLocals where
  write_len : Nat
  write_buf : Bytes
  write_pos : Nat
  temp_buf : Bytes
  current_block : Nat
  offset_within_block : Nat
  written : Int

/-- The first half of the loop body of `mdadm_write`: the cache lookup and, on a miss, the
three remote operations that read the block. -/
def write_fetch (s : State) (l : WriteLocals) : State × Option Bytes :=
  let disk_id := l.current_block / JBOD_NUM_BLOCKS_PER_DISK
  let block_id := l.current_block % JBOD_NUM_BLOCKS_PER_DISK
  let lk := cache_lookup s.cache (disk_id : Int) (block_id : Int) (some l.temp_buf)
  if lk.2.1 ≠ 1 then
    let sk := jbod_seek_and s.net disk_id block_id JBOD_READ_BLOCK (lk.2.2.getD l.temp_buf)
    if sk.2.1 then ({ s with cache := lk.1, net := sk.1 }, none)
    else ({ s with cache := lk.1, net := sk.1 }, some sk.2.2)
  else ({ s with cache := lk.1 }, some (lk.2.2.getD l.temp_buf))

/-- The second half of the loop body of `mdadm_write`, with `temp_buf` holding the block:
the copy from the caller's buffer, the three remote operations that write the block, the
cache update and the updates of the locals; `none` for the locals when it returns -1. -/
def write_through (s : State) (l : WriteLocals) : State × Option WriteLocals :=
  let disk_id := l.current_block / JBOD_NUM_BLOCKS_PER_DISK
  let block_id := l.current_block % JBOD_NUM_BLOCKS_PER_DISK
  let n := bytes_to_copy l.offset_within_block l.write_len
  let temp := memcpy l.temp_buf l.offset_within_block l.write_buf l.write_pos n
  let sk := jbod_seek_and s.net disk_id block_id JBOD_WRITE_BLOCK temp
  if sk.2.1 then ({ s with net := sk.1 }, none)
  else
    ({ s with net := sk.1,
              cache := cache_update s.cache (disk_id : Int) (block_id : Int) sk.2.2 },
     some
      { write_len := l.write_len - n,
        write_buf := l.write_buf,
        write_pos := l.write_pos + n,
        temp_buf := sk.2.2,
        current_block := l.current_block + 1,
        offset_within_block := 0,
        written := l.written + (n : Int) })

/-- The `while (current_block <= end_block)` loop of `mdadm_write`, by the number of
blocks still to visit, as for `mdadm_read_loop`. -/
def mdadm_write_loop : Nat → State → WriteLocals → State × Int × WriteLocals
  | 0, s, l => (s, l.written, l)
  | k + 1, s, l =>
    match write_fetch s l with
    | (s1, none) => (s1, -1, l)
    | (s1, some temp) =>
      match write_through s1 { l with temp_buf := temp } with
      | (s2, none) => (s2, -1, l)
      | (s2, some l2) => mdadm_write_loop k s2 l2

/-- The locals of `mdadm_write` when its loop starts. -/
def write_locals (start_addr write_len : Nat) (buf : Bytes) : WriteLocals :=
  { write_len := write_len, write_buf := buf, write_pos := 0, temp_buf := fun _ => 0,
    current_block := start_addr / JBOD_BLOCK_SIZE,
    offset_within_block := start_addr % JBOD_BLOCK_SIZE, written := 0 }

/-- The function `mdadm_write`: the state afterwards and the return value. -/
def mdadm_write (s : State) (start_addr write_len : Nat) (write_buf : Option Bytes) :
    State × Int :=
  if s.is_mounted = 0 ∨ s.is_written = 0 then (s, -1)
  else if write_buf.isNone ∧ write_len > 0 then (s, -1)
  else if write_len = 0 then (s, 0)
  else if write_len > 1024 then (s, -1)
  else if start_addr > last_possible_addr ∨ last_addr start_addr write_len > last_possible_addr
  then (s, -1)
  else
    match write_buf with
    | none => (s, -1)
    | some buf =>
      let r := mdadm_write_loop (block_span start_addr write_len) s
        (write_locals start_addr write_len buf)
      (r.1, r.2.1)

/-! ## Predicates on the cache table -/

/-- The slots of the cache table; none when there is no table. -/
def slots (g : CacheGlobals) : List cache_entry_t := g.cache.getD []

/-- The entry is valid and holds the block `(disk_num, block_num)`. -/
def holds_key (e : cache_entry_t) (disk_num block_num : Int) : Prop :=
  e.valid = true ∧ e.disk_num = disk_num ∧ e.block_num = block_num

/-- No two distinct slots are valid with the same `(disk_num, block_num)`. -/
def KeysUnique (tbl : List cache_entry_t) : Prop :=
  ∀ (i j : Nat) (hi : i < tbl.length) (hj : j < tbl.length),
    tbl[i].valid = true → tbl[j].valid = true →
    tbl[i].disk_num = tbl[j].disk_num → tbl[i].block_num = tbl[j].block_num → i = j

/-- The valid slots are exactly the slots before some index. -/
def ValidFront (tbl : List cache_entry_t) : Prop :=
  ∀ (i j : Nat) (hi : i < tbl.length) (hj : j < tbl.length),
    i ≤ j → tbl[j].valid = true → tbl[i].valid = true

/-- Every access count of the table is a value of type `int`. -/
def CountsInt (tbl : List cache_entry_t) : Prop :=
  ∀ e ∈ tbl, INT_MIN ≤ e.num_accesses ∧ e.num_accesses ≤ INT_MAX

/-- The states of `cache.c` reachable from a successful `cache_create` by calls of
`cache_insert`, `cache_lookup` and `cache_update` with any arguments. -/
inductive CacheReachable : CacheGlobals → Prop
  | create (g : CacheGlobals) (n : Int) (ok : Bool) :
      (cache_create g n ok).2 = 1 → CacheReachable (cache_create g n ok).1
  | insert (g : CacheGlobals) (d b : Int) (buf : Option Bytes) :
      CacheReachable g → CacheReachable (cache_insert g d b buf).1
  | lookup (g : CacheGlobals) (d b : Int) (buf : Option Bytes) :
      CacheReachable g → CacheReachable (cache_lookup g d b buf).1
  | update (g : CacheGlobals) (d b : Int) (buf : Bytes) :
      CacheReachable g → CacheReachable (cache_update g d b buf)

/-- The valid flag and the key of every slot, in slot order. -/
def keys (tbl : List cache_entry_t) : List (Bool × Int × Int) :=
  tbl.map (fun e => (e.valid, e.disk_num, e.block_num))

/-- The assignments of `cache_update` to the slot it finds. -/
def refresh_entry (buf : Bytes) (e : cache_entry_t) : cache_entry_t :=
  { e with block := memcpy e.block 0 buf 0 JBOD_BLOCK_SIZE,
           num_accesses := int_succ e.num_accesses }

/-- The assignment of `cache_lookup` to the slot it finds. -/
def touch_entry (e : cache_entry_t) : cache_entry_t :=
  { e with num_accesses := int_succ e.num_accesses }

instance (e : cache_entry_t) (d b : Int) : Decidable (holds_key e d b) := by
  unfold holds_key; infer_instance

/-- A valid entry for block `(d, b)` with access count `a` whose block holds the byte `v`
at every offset. -/
def demo_entry (d b a : Int) (v : Nat) : cache_entry_t :=
  { valid := true, disk_num := d, block_num := b, block := fun _ => v, num_accesses := a }

/-- A full table of three entries with access counts 5, 1 and 1. -/
def demo_full : CacheGlobals :=
  { cache := some [demo_entry 0 0 5 10, demo_entry 0 1 1 11, demo_entry 0 2 1 12],
    num_queries := 0, num_hits := 0 }

/-- The meaning of the locals `lfu_index`, `min_accesses` and `earliest_insert_index` of
`cache_insert` when the slots before `i` have been visited and were all valid: either
nothing has been chosen yet and every visited count exceeds `INT_MAX`, or the choice is
the lowest index among the visited slots of minimum count. -/
def LfuAcc (tbl : List cache_entry_t) (i : Nat) (lfu mn ea : Int) : Prop :=
  (lfu = -1 ∧ ea = -1 ∧ mn = INT_MAX ∧
    ∀ (j : Nat) (hj : j < tbl.length), j < i → INT_MAX < tbl[j].num_accesses) ∨
  (∃ (k : Nat) (hk : k < tbl.length), k < i ∧ lfu = (k : Int) ∧ ea = (k : Int) ∧
    mn = tbl[k].num_accesses ∧ mn ≤ INT_MAX ∧
    (∀ (j : Nat) (hj : j < tbl.length), j < i → mn ≤ tbl[j].num_accesses) ∧
    (∀ (j : Nat) (hj : j < tbl.length), j < k → mn < tbl[j].num_accesses))

/-- The slot that a successful `cache_insert` overwrites is slot `k`: the lowest-index
invalid slot when the table has an invalid slot, and otherwise the lowest-index slot among
those whose access count is the minimum over the table. -/
def IsVictim (tbl : List cache_entry_t) (k : Nat) : Prop :=
  ∃ (hk : k < tbl.length),
    ((∃ (j : Nat) (hj : j < tbl.length), tbl[j].valid = false) →
      tbl[k].valid = false ∧ ∀ (j : Nat) (hj : j < tbl.length), j < k → tbl[j].valid = true) ∧
    ((∀ (j : Nat) (hj : j < tbl.length), tbl[j].valid = true) →
      (∀ (j : Nat) (hj : j < tbl.length), tbl[k].num_accesses ≤ tbl[j].num_accesses) ∧
      (∀ (j : Nat) (hj : j < tbl.length), j < k →
        tbl[k].num_accesses < tbl[j].num_accesses))

/-- The invariant of the cache table: a table exists and is not empty, its valid slots
form a front segment, no key is held twice, and the access counts are `int` values. -/
def CacheInv (g : CacheGlobals) : Prop :=
  ∃ tbl : List cache_entry_t, g.cache = some tbl ∧ 0 < tbl.length ∧
    ValidFront tbl ∧ KeysUnique tbl ∧ CountsInt tbl

/-- A table of two slots after `cache_create(2)`, the insertion of blocks `(1, 2)` and
`(1, 3)`, a lookup of `(1, 2)` and an update of `(1, 3)`. -/
def demo_two : CacheGlobals :=
  cache_update
    (cache_lookup
      (cache_insert
        (cache_insert (cache_create cache_initial 2 true).1 1 2 (some (fun _ => 20))).1
        1 3 (some (fun _ => 30))).1
      1 2 (some (fun _ => 0))).1
    1 3 (fun _ => 31)

/-! ## Predicates on the connection and the store -/

/-- The connection is established, the server refuses no request and the socket loses
nothing: the server answers every seek, read-block and write-block faithfully. -/
def Faithful (n : Net) : Prop := n.cli_sd ≠ -1 ∧ n.refuse = [] ∧ n.wire = []

/-- The byte of the store at a logical address: disk `addr / 65536`, block
`(addr / 256) mod 256`, offset `addr mod 256`. -/
def store_byte (store : Nat → Nat → Bytes) (addr : Nat) : Nat :=
  store (addr / 65536) (addr / 256 % 256) (addr % 256)

/-- Every valid cache entry agrees with the store on the 256 bytes of its block. -/
def Coherent (tbl : List cache_entry_t) (store : Nat → Nat → Bytes) : Prop :=
  ∀ e ∈ tbl, ∀ d b : Nat, holds_key e (d : Int) (b : Int) →
    ∀ o : Nat, o < 256 → e.block o = store d b o

/-- The block that `jbod_client_operation` leaves in `temp_buf` after a read-block: the
256 bytes of the block under the cursor, and `temp_buf` as it was beyond them. -/
def fetched (store : Nat → Nat → Bytes) (d b : Nat) (temp : Bytes) : Bytes :=
  memcpy temp 0
    (memcpy (fun _ => 0) 0 (bytes_of (block_bytes (store d b))) 0 JBOD_BLOCK_SIZE) 0
    JBOD_BLOCK_SIZE

/-- The per-block byte counts as the spec states the splitting rule: over `k` blocks, the
count taken from a block is `min(block_size - current_offset, bytes_remaining)`, the first
block starts at offset `off` and every later block at offset 0. -/
def spec_block_counts : Nat → Nat → Nat → List Nat
  | 0, _, _ => []
  | k + 1, off, remaining =>
    Nat.min (256 - off) remaining ::
      spec_block_counts k 0 (remaining - Nat.min (256 - off) remaining)

/-- A server with every byte determined by its disk, block and offset, the cursor at the
origin. -/
def demo_server : Server :=
  { store := fun d b o => (d + b + o) % 256, cur_disk := 0, cur_block := 0 }

/-- A mounted and writable session on a faithful connection to `demo_server`, without a
cache. -/
def demo_session : State :=
  { is_mounted := 1, is_written := 1, cache := cache_initial,
    net := { cli_sd := 3, server := demo_server, refuse := [], oplog := [] } }

/-- Every valid cache entry for a block of the flat block sequence at or after block `cur`
agrees with the store on the 256 bytes of its block. -/
def CoherentFrom (cur : Nat) (tbl : List cache_entry_t) (store : Nat → Nat → Bytes) : Prop :=
  ∀ e ∈ tbl, ∀ d b : Nat, holds_key e (d : Int) (b : Int) → b < 256 → cur ≤ d * 256 + b →
    ∀ o : Nat, o < 256 → e.block o = store d b o

/-- The session `demo_session` with a cache of two slots that holds block 1 of disk 0, as
`cache_create` and `cache_insert` leave it. -/
def demo_cached_session : State :=
  { demo_session with
    cache := (cache_insert (cache_create cache_initial 2 true).1 0 1
      (some (demo_server.store 0 1))).1 }

/-- The 600 bytes written in the end-to-end scenario. -/
def demo_bytes : Bytes := fun i => (7 * i + 3) % 256

/-- The session `demo_session` with a server that refuses the next request. -/
def demo_refusing : State :=
  { demo_session with
    net := { cli_sd := 3, server := demo_server, refuse := [true], oplog := [] } }

/-- The session `demo_session` without a connection. -/
def demo_offline : State :=
  { demo_session with
    net := { cli_sd := -1, server := demo_server, refuse := [], oplog := [] } }

/-- Table `t2` has the valid flags and keys of table `t1`, and differs from it at most in
slots that were valid in `t1` for a key satisfying `P`. -/
def ChangedOnly (P : Int → Int → Prop) (t1 t2 : List cache_entry_t) : Prop :=
  keys t2 = keys t1 ∧
  ∀ (j : Nat) (h1 : j < t1.length) (h2 : j < t2.length),
    t2[j] = t1[j] ∨ (t1[j].valid = true ∧ P t1[j].disk_num t1[j].block_num)

/-- The table after `cache_create(2)` and the insertion of blocks `(0, 0)` and `(0, 1)`,
in this order. -/
def demo_tie_two : CacheGlobals :=
  (cache_insert
    (cache_insert (cache_create cache_initial 2 true).1 0 0 (some (fun _ => 10))).1
    0 1 (some (fun _ => 11))).1

/-- The table `demo_tie_two` after the further insertion of block `(0, 2)`. -/
def demo_tie_three : CacheGlobals :=
  (cache_insert demo_tie_two 0 2 (some (fun _ => 12))).1

/-- Exactly the slots of the table with index below `k` are valid. -/
def FrontAt (tbl : List cache_entry_t) (k : Nat) : Prop :=
  k ≤ tbl.length ∧ ∀ (j : Nat) (hj : j < tbl.length), tbl[j].valid = true ↔ j < k

/-- The cache is either absent or satisfies the invariant of the table. -/
def CacheOk (g : CacheGlobals) : Prop := g.cache = none ∨ CacheInv g

/-- The cache as the program can have it: absent (before `cache_create` or after
`cache_destroy`), or reached from a successful `cache_create` by calls of `cache_insert`,
`cache_lookup` and `cache_update`. -/
def CacheLegal (g : CacheGlobals) : Prop := g.cache = none ∨ CacheReachable g

theorem entry_matches_iff (e : cache_entry_t) (d b : Int) :
    entry_matches e d b = true ↔ holds_key e d b := by
  simp [entry_matches, holds_key]

theorem entry_matches_false_iff (e : cache_entry_t) (d b : Int) :
    entry_matches e d b = false ↔ ¬ holds_key e d b := by
  rw [← entry_matches_iff]; simp

theorem memcpy_block (dst src : Bytes) (o : Nat) (ho : o < JBOD_BLOCK_SIZE) :
    memcpy dst 0 src 0 JBOD_BLOCK_SIZE o = src o := by
  simp [memcpy, ho]

theorem int_succ_of_lt (x : Int) (h : x < INT_MAX) : int_succ x = x + 1 := by
  unfold int_succ
  rw [if_neg (by omega)]

theorem int_succ_ne (x : Int) : int_succ x ≠ x := by
  unfold int_succ INT_MAX INT_MIN
  split <;> omega

theorem int_succ_range (x : Int) (h : INT_MIN ≤ x ∧ x ≤ INT_MAX) :
    INT_MIN ≤ int_succ x ∧ int_succ x ≤ INT_MAX := by
  unfold int_succ INT_MAX INT_MIN at *
  split <;> omega

/-! ## `cache_create`, `cache_destroy`, `cache_enabled` -/

theorem cache_create_fail (g : CacheGlobals) (n : Int) (ok : Bool)
    (h : (cache_create g n ok).2 ≠ 1) :
    (cache_create g n ok).2 = -1 ∧ (cache_create g n ok).1 = g := by
  unfold cache_create at *
  split
  · simp
  · split
    · simp
    · rename_i h1 h2
      rw [if_neg h1, if_neg h2] at h
      simp at h

theorem cache_create_ok_iff (g : CacheGlobals) (n : Int) (ok : Bool) :
    (cache_create g n ok).2 = 1 ↔ (2 ≤ n ∧ n ≤ 4096 ∧ g.cache = none ∧ ok = true) := by
  unfold cache_create
  by_cases h1 : n < 2 ∨ n > 4096 ∨ g.cache.isSome = true
  · rw [if_pos h1]
    constructor
    · intro h; simp at h
    · intro h
      rw [h.2.2.1] at h1
      simp at h1
      omega
  · rw [if_neg h1]
    have h3 : g.cache = none := by
      cases hc : g.cache
      · rfl
      · exact absurd (Or.inr (Or.inr (by simp [hc]))) h1
    cases ok
    · simp
    · simp
      refine ⟨?_, ?_, h3⟩ <;> omega

theorem cache_create_ok (g : CacheGlobals) (n : Int) (ok : Bool)
    (h : (cache_create g n ok).2 = 1) :
    (cache_create g n ok).1 =
      { g with cache := some (List.replicate n.toNat zero_entry) } := by
  have h1 := (cache_create_ok_iff g n ok).1 h
  unfold cache_create
  have h2 : ¬ (n < 2 ∨ n > 4096 ∨ g.cache.isSome = true) := by
    rw [h1.2.2.1]; simp; omega
  rw [if_neg h2, if_neg (by simp [h1.2.2.2])]

/-- C9. Construct-once lifecycle: with allocation succeeding, `cache_create(n)` returns 1
exactly when `2 <= n <= 4096` and no table exists; on success the table has `n` slots, all
invalid, and `cache_enabled()` is true; on failure it returns -1 and the state is
unchanged. With a table in place `cache_create` returns -1 for every `n`, whatever
`malloc` does. `cache_destroy` returns 1 exactly when a table exists and -1 without any
change otherwise; after a successful `cache_destroy`, `cache_enabled()` is false and
`cache_create` with an in-range `n` succeeds again. -/
theorem cache_lifecycle (g : CacheGlobals) (n : Int) :
    ((cache_create g n true).2 = 1 ↔ (2 ≤ n ∧ n ≤ 4096 ∧ g.cache = none)) ∧
    ((cache_create g n true).2 = 1 →
      ((cache_size (cache_create g n true).1 : Nat) : Int) = n ∧
      (∀ e ∈ slots (cache_create g n true).1, e.valid = false) ∧
      (cache_create g n true).1.cache = some (List.replicate n.toNat zero_entry) ∧
      cache_enabled (cache_create g n true).1 = true) ∧
    ((cache_create g n true).2 ≠ 1 →
      (cache_create g n true).2 = -1 ∧ (cache_create g n true).1 = g) ∧
    (g.cache.isSome = true → ∀ (m : Int) (ok : Bool),
      (cache_create g m ok).2 = -1 ∧ (cache_create g m ok).1 = g) ∧
    ((cache_destroy g).2 = 1 ↔ g.cache.isSome = true) ∧
    ((cache_destroy g).2 ≠ 1 → (cache_destroy g).2 = -1 ∧ (cache_destroy g).1 = g) ∧
    ((cache_destroy g).2 = 1 →
      cache_enabled (cache_destroy g).1 = false ∧
      (cache_destroy g).1.cache = none ∧
      cache_size (cache_destroy g).1 = 0 ∧
      ∀ m : Int, 2 ≤ m → m ≤ 4096 → (cache_create (cache_destroy g).1 m true).2 = 1) := by
  refine ⟨?_, ?_, ?_, ?_, ?_, ?_, ?_⟩
  · rw [cache_create_ok_iff]; simp
  · intro h
    have h1 := (cache_create_ok_iff g n true).1 h
    rw [cache_create_ok g n true h]
    refine ⟨?_, ?_, rfl, ?_⟩
    · simp [cache_size]; omega
    · intro e he
      simp [slots] at he
      rw [he.2]; rfl
    · simp [cache_enabled, cache_size]; omega
  · exact cache_create_fail g n true
  · intro hs m ok
    apply cache_create_fail
    intro h
    rw [cache_create_ok_iff] at h
    rw [h.2.2.1] at hs
    simp at hs
  · unfold cache_destroy
    cases hc : g.cache <;> simp
  · unfold cache_destroy
    cases hc : g.cache <;> simp
  · intro h
    have hs : (cache_destroy g).1.cache = none := by
      unfold cache_destroy
      cases hc : g.cache <;> simp [hc]
    refine ⟨?_, hs, ?_, ?_⟩
    · simp [cache_enabled, hs]
    · simp [cache_size, hs]
    · intro m h2 h3
      rw [cache_create_ok_iff]
      exact ⟨h2, h3, hs, rfl⟩

/-! ## The scans of `cache_lookup` and `cache_update` -/

theorem cache_update_loop_miss (d b : Int) (buf : Bytes) (tbl : List cache_entry_t)
    (h : ∀ e ∈ tbl, ¬ holds_key e d b) : cache_update_loop d b buf tbl = tbl := by
  induction tbl with
  | nil => rfl
  | cons e rest ih =>
    have he : entry_matches e d b = false :=
      (entry_matches_false_iff e d b).2 (h e (List.mem_cons_self _ _))
    simp only [cache_update_loop, he]
    rw [ih (fun x hx => h x (List.mem_cons_of_mem _ hx))]
    simp

theorem cache_update_loop_hit (d b : Int) (buf : Bytes) (tbl : List cache_entry_t) (i : Nat)
    (hi : i < tbl.length) (hm : holds_key tbl[i] d b)
    (hfirst : ∀ (j : Nat) (hj : j < i), ¬ holds_key tbl[j] d b) :
    cache_update_loop d b buf tbl = tbl.set i (refresh_entry buf tbl[i]) := by
  induction tbl generalizing i with
  | nil => simp at hi
  | cons e rest ih =>
    cases i with
    | zero =>
      have he : entry_matches e d b = true := (entry_matches_iff e d b).2 hm
      simp [cache_update_loop, he, refresh_entry]
    | succ k =>
      have he : entry_matches e d b = false :=
        (entry_matches_false_iff e d b).2 (hfirst 0 (by omega))
      simp only [cache_update_loop, he, List.set_cons_succ, List.getElem_cons_succ]
      simp only [List.length_cons, Nat.add_lt_add_iff_right] at hi
      rw [ih k hi hm (fun j hj => hfirst (j + 1) (by omega))]
      simp

theorem cache_update_loop_keys (d b : Int) (buf : Bytes) (tbl : List cache_entry_t) :
    keys (cache_update_loop d b buf tbl) = keys tbl := by
  induction tbl with
  | nil => rfl
  | cons e rest ih =>
    cases he : entry_matches e d b with
    | true => simp [cache_update_loop, he, keys]
    | false =>
      simp only [keys, List.map_cons] at ih
      simp [cache_update_loop, he, keys, ih]

theorem cache_lookup_loop_none (d b : Int) (buf : Bytes) (tbl : List cache_entry_t) :
    cache_lookup_loop d b buf tbl = none ↔ ∀ e ∈ tbl, ¬ holds_key e d b := by
  induction tbl with
  | nil => simp [cache_lookup_loop]
  | cons e rest ih =>
    cases he : entry_matches e d b with
    | true =>
      have hk := (entry_matches_iff e d b).1 he
      simp [cache_lookup_loop, he, hk]
    | false =>
      have hk : ¬ holds_key e d b := (entry_matches_false_iff e d b).1 he
      cases hr : cache_lookup_loop d b buf rest with
      | none =>
        simp only [cache_lookup_loop, he, hr, List.mem_cons, forall_eq_or_imp,
          Bool.false_eq_true, if_false, true_iff]
        exact ⟨hk, ih.1 hr⟩
      | some r =>
        simp only [cache_lookup_loop, he, hr, List.mem_cons, forall_eq_or_imp,
          Bool.false_eq_true, if_false]
        constructor
        · intro hh; simp at hh
        · intro hh
          rw [ih.2 hh.2] at hr
          exact absurd hr (by simp)

theorem cache_lookup_loop_some (d b : Int) (buf : Bytes) (tbl : List cache_entry_t)
    (out : Bytes) (tbl1 : List cache_entry_t)
    (h : cache_lookup_loop d b buf tbl = some (out, tbl1)) :
    ∃ (i : Nat) (hi : i < tbl.length), holds_key tbl[i] d b ∧
      (∀ (j : Nat) (hj : j < i), ¬ holds_key tbl[j] d b) ∧
      out = memcpy buf 0 tbl[i].block 0 JBOD_BLOCK_SIZE ∧
      tbl1 = tbl.set i (touch_entry tbl[i]) := by
  induction tbl generalizing tbl1 out with
  | nil => simp [cache_lookup_loop] at h
  | cons e rest ih =>
    cases he : entry_matches e d b with
    | true =>
      simp only [cache_lookup_loop, he, if_true, Option.some.injEq, Prod.mk.injEq] at h
      refine ⟨0, by simp, (entry_matches_iff e d b).1 he, fun j hj => absurd hj (by omega), ?_, ?_⟩
      · simp [h.1]
      · simp [← h.2, touch_entry]
    | false =>
      have hk : ¬ holds_key e d b := (entry_matches_false_iff e d b).1 he
      cases hr : cache_lookup_loop d b buf rest with
      | none => simp [cache_lookup_loop, he, hr] at h
      | some r =>
        obtain ⟨o2, t2⟩ := r
        simp only [cache_lookup_loop, he, hr, Bool.false_eq_true, if_false, Option.some.injEq,
          Prod.mk.injEq] at h
        obtain ⟨i, hi, hm, hfirst, hout, htbl⟩ := ih o2 t2 hr
        refine ⟨i + 1, by simp; omega, by simpa using hm, ?_, ?_, ?_⟩
        · intro j hj
          cases j with
          | zero => simpa using hk
          | succ j2 => simpa using hfirst j2 (by omega)
        · rw [← h.1, hout]; simp
        · rw [← h.2, htbl]; simp

theorem cache_update_loop_length (d b : Int) (buf : Bytes) (tbl : List cache_entry_t) :
    (cache_update_loop d b buf tbl).length = tbl.length := by
  have h := congrArg List.length (cache_update_loop_keys d b buf tbl)
  simpa [keys] using h

/-- C8. `cache_update` is update-only. For every state of the cache, initialised or not,
the call keeps the capacity, the valid flag and key of every slot and the counters. When
no valid entry holds `(disk_num, block_num)` the whole state is unchanged. When one does,
the first such slot gets the 256 bytes of `buf` as content and its access count
incremented (by one, short of `INT_MAX`), and every other slot is unchanged. -/
theorem cache_update_only_updates (g : CacheGlobals) (d b : Int) (buf : Bytes) :
    cache_size (cache_update g d b buf) = cache_size g ∧
    (cache_update g d b buf).cache.isSome = g.cache.isSome ∧
    keys (slots (cache_update g d b buf)) = keys (slots g) ∧
    (cache_update g d b buf).num_queries = g.num_queries ∧
    (cache_update g d b buf).num_hits = g.num_hits ∧
    ((∀ e ∈ slots g, ¬ holds_key e d b) → cache_update g d b buf = g) ∧
    (∀ (tbl : List cache_entry_t) (i : Nat) (hi : i < tbl.length),
      g.cache = some tbl → holds_key tbl[i] d b →
      (∀ (j : Nat) (hj : j < i), ¬ holds_key tbl[j] d b) →
      cache_update g d b buf = { g with cache := some (tbl.set i (refresh_entry buf tbl[i])) } ∧
      (refresh_entry buf tbl[i]).valid = tbl[i].valid ∧
      (refresh_entry buf tbl[i]).disk_num = tbl[i].disk_num ∧
      (refresh_entry buf tbl[i]).block_num = tbl[i].block_num ∧
      (∀ o : Nat, o < 256 → (refresh_entry buf tbl[i]).block o = buf o) ∧
      (refresh_entry buf tbl[i]).num_accesses = int_succ tbl[i].num_accesses ∧
      (tbl[i].num_accesses < INT_MAX →
        (refresh_entry buf tbl[i]).num_accesses = tbl[i].num_accesses + 1)) := by
  refine ⟨?_, ?_, ?_, ?_, ?_, ?_, ?_⟩
  · unfold cache_update cache_size
    cases hc : g.cache <;> simp [hc, cache_update_loop_length]
  · unfold cache_update
    cases hc : g.cache <;> simp [hc]
  · unfold cache_update slots
    cases hc : g.cache <;> simp [hc, cache_update_loop_keys]
  · unfold cache_update
    cases hc : g.cache <;> simp [hc]
  · unfold cache_update
    cases hc : g.cache <;> simp [hc]
  · intro h
    unfold cache_update
    cases hc : g.cache with
    | none => simp
    | some tbl =>
      simp only
      rw [cache_update_loop_miss d b buf tbl (by simpa [slots, hc] using h), ← hc]
  · intro tbl i hi hc hm hfirst
    refine ⟨?_, rfl, rfl, rfl, ?_, rfl, ?_⟩
    · unfold cache_update
      simp only [hc]
      rw [cache_update_loop_hit d b buf tbl i hi hm hfirst]
    · intro o ho
      exact memcpy_block _ _ o ho
    · intro hlt
      exact int_succ_of_lt _ hlt

theorem cache_update_only_updates_witness :
    cache_update demo_full 3 3 (fun _ => 77) = demo_full ∧
    cache_update demo_full 0 1 (fun _ => 77) =
      { demo_full with cache := some ([demo_entry 0 0 5 10,
          refresh_entry (fun _ => 77) (demo_entry 0 1 1 11), demo_entry 0 2 1 12]) } ∧
    (refresh_entry (fun _ => 77) (demo_entry 0 1 1 11)).num_accesses = 2 :=
  ⟨(cache_update_only_updates demo_full 3 3 (fun _ => 77)).2.2.2.2.2.1 (by decide),
   ((cache_update_only_updates demo_full 0 1 (fun _ => 77)).2.2.2.2.2.2
      [demo_entry 0 0 5 10, demo_entry 0 1 1 11, demo_entry 0 2 1 12] 1 (by decide) rfl
      (by decide) (by decide)).1,
   by decide⟩

/-! ## The scan of `cache_insert` -/

theorem LfuAcc_step (tbl : List cache_entry_t) (i : Nat) (hi : i < tbl.length)
    (lfu mn ea : Int) (h : LfuAcc tbl i lfu mn ea) :
    (tbl[i].num_accesses < mn → LfuAcc tbl (i + 1) i tbl[i].num_accesses i) ∧
    (tbl[i].num_accesses = mn → (ea = -1 ∨ ea > (i : Int)) → LfuAcc tbl (i + 1) i mn i) ∧
    (tbl[i].num_accesses = mn → ¬ (ea = -1 ∨ ea > (i : Int)) → LfuAcc tbl (i + 1) lfu mn ea) ∧
    (¬ tbl[i].num_accesses < mn → ¬ tbl[i].num_accesses = mn →
      LfuAcc tbl (i + 1) lfu mn ea) := by
  rcases h with ⟨h1, h2, h3, h4⟩ | ⟨k, hk, hki, h1, h2, h3, h5, h6, h7⟩
  · refine ⟨?_, ?_, ?_, ?_⟩
    · intro hlt
      refine Or.inr ⟨i, hi, by omega, rfl, rfl, rfl, by omega, ?_, ?_⟩
      · intro j hj hji
        rcases Nat.lt_succ_iff_lt_or_eq.1 hji with h8 | h8
        · have := h4 j hj h8; omega
        · subst h8; exact le_refl _
      · intro j hj hji
        have := h4 j hj hji; omega
    · intro heq _
      refine Or.inr ⟨i, hi, by omega, rfl, rfl, heq.symm, by omega, ?_, ?_⟩
      · intro j hj hji
        rcases Nat.lt_succ_iff_lt_or_eq.1 hji with h8 | h8
        · have := h4 j hj h8; omega
        · subst h8; omega
      · intro j hj hji
        have := h4 j hj hji; omega
    · intro _ hne
      exact absurd (Or.inl h2) hne
    · intro hnlt hne
      refine Or.inl ⟨h1, h2, h3, ?_⟩
      intro j hj hji
      rcases Nat.lt_succ_iff_lt_or_eq.1 hji with h8 | h8
      · exact h4 j hj h8
      · subst h8; omega
  · refine ⟨?_, ?_, ?_, ?_⟩
    · intro hlt
      refine Or.inr ⟨i, hi, by omega, rfl, rfl, rfl, by omega, ?_, ?_⟩
      · intro j hj hji
        rcases Nat.lt_succ_iff_lt_or_eq.1 hji with h8 | h8
        · have := h6 j hj h8; omega
        · subst h8; exact le_refl _
      · intro j hj hji
        have := h6 j hj hji; omega
    · intro _ hea
      omega
    · intro heq _
      refine Or.inr ⟨k, hk, by omega, h1, h2, h3, h5, ?_, h7⟩
      intro j hj hji
      rcases Nat.lt_succ_iff_lt_or_eq.1 hji with h8 | h8
      · exact h6 j hj h8
      · subst h8; omega
    · intro hnlt hne
      refine Or.inr ⟨k, hk, by omega, h1, h2, h3, h5, ?_, h7⟩
      intro j hj hji
      rcases Nat.lt_succ_iff_lt_or_eq.1 hji with h8 | h8
      · exact h6 j hj h8
      · subst h8; omega

/-- What the scan of `cache_insert` has found when it ends without meeting the key: the
first invalid slot, before which every slot is valid with another key; or, all slots being
valid with other keys, the choice described by `LfuAcc` over the whole table. -/
theorem cache_insert_loop_spec (d b : Int) (tbl : List cache_entry_t) :
    ∀ (rest : List cache_entry_t) (i : Nat) (lfu mn ea r : Int),
      tbl.drop i = rest →
      (∀ (j : Nat) (hj : j < tbl.length), j < i →
        tbl[j].valid = true ∧ ¬ holds_key tbl[j] d b) →
      LfuAcc tbl i lfu mn ea →
      cache_insert_loop d b rest i lfu mn ea = some r →
      (∃ (k : Nat) (hk : k < tbl.length), r = (k : Int) ∧ tbl[k].valid = false ∧
        ∀ (j : Nat) (hj : j < tbl.length), j < k →
          tbl[j].valid = true ∧ ¬ holds_key tbl[j] d b) ∨
      ((∀ (j : Nat) (hj : j < tbl.length), tbl[j].valid = true ∧ ¬ holds_key tbl[j] d b) ∧
        ∃ mn1 ea1 : Int, LfuAcc tbl tbl.length r mn1 ea1) := by
  intro rest
  induction rest with
  | nil =>
    intro i lfu mn ea r hdrop hscan hacc hr
    have hlen : tbl.length ≤ i := by
      have := congrArg List.length hdrop
      simp at this; omega
    simp only [cache_insert_loop, Option.some.injEq] at hr
    subst hr
    refine Or.inr ⟨fun j hj => hscan j hj (by omega), mn, ea, ?_⟩
    rcases hacc with ⟨h1, h2, h3, h4⟩ | ⟨k, hk, hki, h1, h2, h3, h5, h6, h7⟩
    · exact Or.inl ⟨h1, h2, h3, fun j hj _ => h4 j hj (by omega)⟩
    · exact Or.inr ⟨k, hk, hk, h1, h2, h3, h5, fun j hj _ => h6 j hj (by omega), h7⟩
  | cons e rest ih =>
    intro i lfu mn ea r hdrop hscan hacc hr
    have hi : i < tbl.length := by
      have := congrArg List.length hdrop
      simp at this; omega
    rw [List.drop_eq_getElem_cons hi] at hdrop
    have he : tbl[i] = e := (List.cons.inj hdrop).1
    have hrest : tbl.drop (i + 1) = rest := (List.cons.inj hdrop).2
    cases hm : entry_matches e d b with
    | true => simp [cache_insert_loop, hm] at hr
    | false =>
      have hk : ¬ holds_key tbl[i] d b := by
        rw [he]; exact (entry_matches_false_iff e d b).1 hm
      cases hv : e.valid with
      | false =>
        simp only [cache_insert_loop, hm, hv, Bool.false_eq_true, if_false, if_true,
          Option.some.injEq] at hr
        exact Or.inl ⟨i, hi, hr.symm, by rw [he]; exact hv, hscan⟩
      | true =>
        have hscan1 : ∀ (j : Nat) (hj : j < tbl.length), j < i + 1 →
            tbl[j].valid = true ∧ ¬ holds_key tbl[j] d b := by
          intro j hj hji
          rcases Nat.lt_succ_iff_lt_or_eq.1 hji with h8 | h8
          · exact hscan j hj h8
          · subst h8; exact ⟨by rw [he]; exact hv, hk⟩
        have hstep := LfuAcc_step tbl i hi lfu mn ea hacc
        rw [he] at hstep
        simp only [cache_insert_loop, hm, hv, Bool.false_eq_true, if_false] at hr
        by_cases c1 : e.num_accesses < mn
        · rw [if_pos c1] at hr
          exact ih (i + 1) _ _ _ r hrest hscan1 (hstep.1 c1) hr
        · rw [if_neg c1] at hr
          by_cases c2 : e.num_accesses = mn
          · rw [if_pos c2] at hr
            by_cases c3 : ea = -1 ∨ ea > (i : Int)
            · rw [if_pos c3] at hr
              exact ih (i + 1) _ _ _ r hrest hscan1 (hstep.2.1 c2 c3) hr
            · rw [if_neg c3] at hr
              exact ih (i + 1) _ _ _ r hrest hscan1 (hstep.2.2.1 c2 c3) hr
          · rw [if_neg c2] at hr
            exact ih (i + 1) _ _ _ r hrest hscan1 (hstep.2.2.2 c1 c2) hr

theorem cache_insert_loop_total (d b : Int) :
    ∀ (rest : List cache_entry_t) (i : Nat) (lfu mn ea : Int),
      (∀ e ∈ rest, e.valid = true → ¬ holds_key e d b) →
      ∃ r, cache_insert_loop d b rest i lfu mn ea = some r := by
  intro rest
  induction rest with
  | nil => intro i lfu mn ea _; exact ⟨lfu, rfl⟩
  | cons e rest ih =>
    intro i lfu mn ea h
    have h2 : ∀ x ∈ rest, x.valid = true → ¬ holds_key x d b :=
      fun x hx => h x (List.mem_cons_of_mem _ hx)
    cases hv : e.valid with
    | false =>
      have hm : entry_matches e d b = false := by simp [entry_matches, hv]
      exact ⟨i, by simp [cache_insert_loop, hm, hv]⟩
    | true =>
      have hm : entry_matches e d b = false :=
        (entry_matches_false_iff e d b).2 (h e (List.mem_cons_self _ _) hv)
      simp only [cache_insert_loop, hm, hv, Bool.false_eq_true, if_false]
      by_cases c1 : e.num_accesses < mn
      · rw [if_pos c1]; exact ih _ _ _ _ h2
      · rw [if_neg c1]
        by_cases c2 : e.num_accesses = mn
        · rw [if_pos c2]
          by_cases c3 : ea = -1 ∨ ea > (i : Int)
          · rw [if_pos c3]; exact ih _ _ _ _ h2
          · rw [if_neg c3]; exact ih _ _ _ _ h2
        · rw [if_neg c2]; exact ih _ _ _ _ h2

theorem LfuAcc_initial (tbl : List cache_entry_t) : LfuAcc tbl 0 (-1) INT_MAX (-1) :=
  Or.inl ⟨rfl, rfl, rfl, fun j _ hj => absurd hj (by omega)⟩

/-- The scan of `cache_insert` over a whole table, from its initial locals. -/
theorem cache_insert_scan (d b : Int) (tbl : List cache_entry_t) (r : Int)
    (hr : cache_insert_loop d b tbl 0 (-1) INT_MAX (-1) = some r) (hne : r ≠ -1) :
    ∃ k : Nat, r = (k : Int) ∧ IsVictim tbl k ∧
      (∀ (j : Nat) (hj : j < tbl.length), j < k → ¬ holds_key tbl[j] d b) ∧
      ((∀ (j : Nat) (hj : j < tbl.length), tbl[j].valid = true) →
        ∀ (j : Nat) (hj : j < tbl.length), ¬ holds_key tbl[j] d b) := by
  have hspec := cache_insert_loop_spec d b tbl tbl 0 (-1) INT_MAX (-1) r (by simp)
    (fun j _ hj => absurd hj (by omega)) (LfuAcc_initial tbl) hr
  rcases hspec with ⟨k, hk, hrk, hinv, hbefore⟩ | ⟨hall, mn1, ea1, hacc⟩
  · refine ⟨k, hrk, ⟨hk, ?_, ?_⟩, fun j hj hjk => (hbefore j hj hjk).2, ?_⟩
    · intro _
      exact ⟨hinv, fun j hj hjk => (hbefore j hj hjk).1⟩
    · intro hallv
      rw [hallv k hk] at hinv
      exact absurd hinv (by simp)
    · intro hallv
      rw [hallv k hk] at hinv
      exact absurd hinv (by simp)
  · rcases hacc with ⟨h1, _, _, _⟩ | ⟨k, hk, _, h1, _, h3, _, h6, h7⟩
    · exact absurd h1 hne
    · refine ⟨k, h1, ⟨hk, ?_, ?_⟩, fun j hj _ => (hall j hj).2, fun _ j hj => (hall j hj).2⟩
      · rintro ⟨j, hj, hjv⟩
        rw [(hall j hj).1] at hjv
        exact absurd hjv (by simp)
      · intro _
        rw [← h3]
        exact ⟨fun j hj => h6 j hj hj, h7⟩

theorem cache_insert_fail (g : CacheGlobals) (d b : Int) (buf : Option Bytes)
    (h : (cache_insert g d b buf).2 ≠ 1) :
    (cache_insert g d b buf).2 = -1 ∧ (cache_insert g d b buf).1 = g := by
  cases hc : g.cache with
  | none => simp [cache_insert, hc]
  | some tbl =>
    cases hb : buf with
    | none => simp [cache_insert, hc, hb]
    | some src =>
      by_cases hrange : d < 0 ∨ d ≥ (JBOD_NUM_DISKS : Int) ∨ b < 0 ∨ b ≥ 256
      · simp [cache_insert, hc, hrange]
      · cases hl : cache_insert_loop d b tbl 0 (-1) INT_MAX (-1) with
        | none => simp [cache_insert, hc, hrange, hl]
        | some r =>
          by_cases hne : r = -1
          · simp [cache_insert, hc, hrange, hl, hne]
          · simp [cache_insert, hc, hb, hrange, hl, hne] at h

/-- What a successful `cache_insert` has done. -/
theorem cache_insert_ok (g : CacheGlobals) (d b : Int) (buf : Option Bytes)
    (h : (cache_insert g d b buf).2 = 1) :
    ∃ (tbl : List cache_entry_t) (src : Bytes) (k : Nat) (hk : k < tbl.length),
      g.cache = some tbl ∧ buf = some src ∧
      (0 ≤ d ∧ d < 16 ∧ 0 ≤ b ∧ b < 256) ∧
      (cache_insert g d b buf).1 =
        { g with cache := some (tbl.set k (fill_entry d b src tbl[k])) } ∧
      IsVictim tbl k ∧
      (∀ (j : Nat) (hj : j < tbl.length), j < k → ¬ holds_key tbl[j] d b) ∧
      ((∀ (j : Nat) (hj : j < tbl.length), tbl[j].valid = true) →
        ∀ (j : Nat) (hj : j < tbl.length), ¬ holds_key tbl[j] d b) := by
  cases hc : g.cache with
  | none => simp [cache_insert, hc] at h
  | some tbl =>
    cases hb : buf with
    | none => simp [cache_insert, hc, hb] at h
    | some src =>
      by_cases hrange : d < 0 ∨ d ≥ (JBOD_NUM_DISKS : Int) ∨ b < 0 ∨ b ≥ 256
      · simp [cache_insert, hc, hb, hrange] at h
      · cases hl : cache_insert_loop d b tbl 0 (-1) INT_MAX (-1) with
        | none => simp [cache_insert, hc, hb, hrange, hl] at h
        | some r =>
          by_cases hne : r = -1
          · simp [cache_insert, hc, hb, hrange, hl, hne] at h
          · obtain ⟨k, hrk, hvict, hbefore, hall⟩ := cache_insert_scan d b tbl r hl hne
            obtain ⟨hk, _⟩ := id hvict
            refine ⟨tbl, src, k, hk, rfl, rfl, ?_, ?_, hvict, hbefore, hall⟩
            · simp only [JBOD_NUM_DISKS] at hrange
              push_cast at hrange
              omega
            · have hmod : List.modify (fill_entry d b src) r.toNat tbl =
                  tbl.set k (fill_entry d b src tbl[k]) := by
                have hk2 : r.toNat = k := by omega
                rw [hk2, List.modify_eq_set_get (fill_entry d b src) hk]
                rfl
              simp only [cache_insert, hc, hb, hrange, hl, hne, if_false]
              rw [hmod]

/-! ## The invariant of the cache table -/

theorem keys_getElem (t1 t2 : List cache_entry_t) (h : keys t1 = keys t2) :
    t1.length = t2.length ∧
    ∀ (i : Nat) (h1 : i < t1.length) (h2 : i < t2.length),
      t1[i].valid = t2[i].valid ∧ t1[i].disk_num = t2[i].disk_num ∧
      t1[i].block_num = t2[i].block_num := by
  have hlen : t1.length = t2.length := by
    have := congrArg List.length h
    simpa [keys] using this
  refine ⟨hlen, ?_⟩
  intro i h1 h2
  have h3 : (keys t1)[i]? = (keys t2)[i]? := by rw [h]
  simp only [keys, List.getElem?_map, List.getElem?_eq_getElem h1,
    List.getElem?_eq_getElem h2, Option.map_some', Option.some.injEq, Prod.mk.injEq] at h3
  exact h3

theorem ValidFront_of_keys (t1 t2 : List cache_entry_t) (h : keys t1 = keys t2)
    (hv : ValidFront t1) : ValidFront t2 := by
  obtain ⟨hlen, hk⟩ := keys_getElem t1 t2 h
  intro i j hi hj hij hjv
  have hi1 : i < t1.length := by omega
  have hj1 : j < t1.length := by omega
  obtain ⟨a1, _, _⟩ := hk i hi1 hi
  obtain ⟨b1, _, _⟩ := hk j hj1 hj
  have c2 : t1[j].valid = true := by rw [b1]; exact hjv
  rw [← a1]
  exact hv i j hi1 hj1 hij c2

theorem KeysUnique_of_keys (t1 t2 : List cache_entry_t) (h : keys t1 = keys t2)
    (hv : KeysUnique t1) : KeysUnique t2 := by
  obtain ⟨hlen, hk⟩ := keys_getElem t1 t2 h
  intro i j hi hj hiv hjv hd hb
  have hi1 : i < t1.length := by omega
  have hj1 : j < t1.length := by omega
  obtain ⟨a1, a2, a3⟩ := hk i hi1 hi
  obtain ⟨b1, b2, b3⟩ := hk j hj1 hj
  have c1 : t1[i].valid = true := by rw [a1]; exact hiv
  have c2 : t1[j].valid = true := by rw [b1]; exact hjv
  have c3 : t1[i].disk_num = t1[j].disk_num := by rw [a2, b2]; exact hd
  have c4 : t1[i].block_num = t1[j].block_num := by rw [a3, b3]; exact hb
  exact hv i j hi1 hj1 c1 c2 c3 c4

theorem keys_set_touch (tbl : List cache_entry_t) (i : Nat) (hi : i < tbl.length) :
    keys (tbl.set i (touch_entry tbl[i])) = keys tbl := by
  induction tbl generalizing i with
  | nil => simp at hi
  | cons e rest ih =>
    cases i with
    | zero => simp [keys, touch_entry]
    | succ k =>
      simp only [List.length_cons, Nat.add_lt_add_iff_right] at hi
      have := ih k hi
      simp only [keys] at this
      simp [keys, this]

theorem CountsInt_set (tbl : List cache_entry_t) (i : Nat) (e : cache_entry_t)
    (h : CountsInt tbl) (he : INT_MIN ≤ e.num_accesses ∧ e.num_accesses ≤ INT_MAX) :
    CountsInt (tbl.set i e) := by
  intro x hx
  rcases List.mem_or_eq_of_mem_set hx with h1 | h1
  · exact h x h1
  · rw [h1]; exact he

theorem cache_update_loop_counts (d b : Int) (buf : Bytes) (tbl : List cache_entry_t)
    (h : CountsInt tbl) : CountsInt (cache_update_loop d b buf tbl) := by
  induction tbl with
  | nil => exact h
  | cons e rest ih =>
    have he := h e (List.mem_cons_self _ _)
    have hrest : CountsInt rest := fun x hx => h x (List.mem_cons_of_mem _ hx)
    cases hm : entry_matches e d b with
    | true =>
      simp only [cache_update_loop, hm, if_true]
      intro x hx
      rcases List.mem_cons.1 hx with h1 | h1
      · rw [h1]; exact int_succ_range _ he
      · exact hrest x h1
    | false =>
      simp only [cache_update_loop, hm, Bool.false_eq_true, if_false]
      intro x hx
      rcases List.mem_cons.1 hx with h1 | h1
      · rw [h1]; exact he
      · exact ih hrest x h1

theorem CacheInv_lookup (g : CacheGlobals) (d b : Int) (buf : Option Bytes)
    (h : CacheInv g) : CacheInv (cache_lookup g d b buf).1 := by
  obtain ⟨tbl, hc, hlen, hvf, hku, hci⟩ := h
  cases hb : buf with
  | none => simpa [cache_lookup, hc] using ⟨tbl, hc, hlen, hvf, hku, hci⟩
  | some out =>
    cases hl : cache_lookup_loop d b out tbl with
    | none =>
      simp only [cache_lookup, hc, hl]
      exact ⟨tbl, rfl, hlen, hvf, hku, hci⟩
    | some r =>
      obtain ⟨o1, t1⟩ := r
      obtain ⟨i, hi, _, _, _, ht1⟩ := cache_lookup_loop_some d b out tbl o1 t1 hl
      simp only [cache_lookup, hc, hl]
      have hk := keys_set_touch tbl i hi
      refine ⟨t1, rfl, ?_, ?_, ?_, ?_⟩
      · rw [ht1]; simpa using hlen
      · rw [ht1]; exact ValidFront_of_keys _ _ hk.symm hvf
      · rw [ht1]; exact KeysUnique_of_keys _ _ hk.symm hku
      · rw [ht1]
        exact CountsInt_set tbl i _ hci (int_succ_range _ (hci _ (List.getElem_mem hi)))

theorem CacheInv_update (g : CacheGlobals) (d b : Int) (buf : Bytes)
    (h : CacheInv g) : CacheInv (cache_update g d b buf) := by
  obtain ⟨tbl, hc, hlen, hvf, hku, hci⟩ := h
  simp only [cache_update, hc]
  have hk := cache_update_loop_keys d b buf tbl
  refine ⟨_, rfl, ?_, ValidFront_of_keys _ _ hk.symm hvf, KeysUnique_of_keys _ _ hk.symm hku,
    cache_update_loop_counts d b buf tbl hci⟩
  rw [cache_update_loop_length]; exact hlen

/-- In a table whose valid slots form a front segment, the slot chosen by `cache_insert`
is the only one that can hold the new key afterwards. -/
theorem victim_no_other_holder (d b : Int) (tbl : List cache_entry_t) (k : Nat)
    (hvf : ValidFront tbl) (hvict : IsVictim tbl k)
    (hbefore : ∀ (j : Nat) (hj : j < tbl.length), j < k → ¬ holds_key tbl[j] d b)
    (hall : (∀ (j : Nat) (hj : j < tbl.length), tbl[j].valid = true) →
      ∀ (j : Nat) (hj : j < tbl.length), ¬ holds_key tbl[j] d b) :
    ∀ (j : Nat) (hj : j < tbl.length), ¬ holds_key tbl[j] d b := by
  obtain ⟨hk, hinv, _⟩ := hvict
  by_cases hv : ∀ (j : Nat) (hj : j < tbl.length), tbl[j].valid = true
  · exact hall hv
  · have hex : ∃ (j : Nat) (hj : j < tbl.length), tbl[j].valid = false := by
      by_contra hcon
      apply hv
      intro j hj
      by_contra hjv
      exact hcon ⟨j, hj, by simpa using hjv⟩
    obtain ⟨hkv, _⟩ := hinv hex
    intro j hj hh
    by_cases hjk : j < k
    · exact hbefore j hj hjk hh
    · have := hvf k j hk hj (by omega) hh.1
      rw [hkv] at this
      exact absurd this (by simp)

theorem CacheInv_insert (g : CacheGlobals) (d b : Int) (buf : Option Bytes)
    (h : CacheInv g) : CacheInv (cache_insert g d b buf).1 := by
  by_cases hr : (cache_insert g d b buf).2 = 1
  · obtain ⟨tbl, hc, hlen, hvf, hku, hci⟩ := h
    obtain ⟨tbl2, src, k, hk, hc2, _, _, hres, hvict, hbefore, hall⟩ :=
      cache_insert_ok g d b buf hr
    have htt : tbl2 = tbl := by rw [hc] at hc2; exact (Option.some.inj hc2).symm
    subst htt
    have hnone := victim_no_other_holder d b tbl2 k hvf hvict hbefore hall
    rw [hres]
    refine ⟨_, rfl, by simpa using hlen, ?_, ?_, ?_⟩
    · intro i j hi hj hij hjv
      simp only [List.length_set] at hi hj
      simp only [List.getElem_set] at hjv ⊢
      by_cases hki : k = i
      · simp [hki, fill_entry]
      · rw [if_neg hki]
        by_cases hkj : k = j
        · obtain ⟨_, hinv, _⟩ := hvict
          by_cases hv : ∀ (j : Nat) (hj : j < tbl2.length), tbl2[j].valid = true
          · exact hv i hi
          · have hex : ∃ (j : Nat) (hj : j < tbl2.length), tbl2[j].valid = false := by
              by_contra hcon
              apply hv
              intro j hj
              by_contra hjv
              exact hcon ⟨j, hj, by simpa using hjv⟩
            exact (hinv hex).2 i hi (by omega)
        · rw [if_neg hkj] at hjv
          exact hvf i j hi hj hij hjv
    · intro i j hi hj hiv hjv hd hb
      simp only [List.length_set] at hi hj
      simp only [List.getElem_set] at hiv hjv hd hb
      by_cases hki : k = i
      · by_cases hkj : k = j
        · omega
        · rw [if_pos hki, if_neg hkj] at hd hb
          rw [if_neg hkj] at hjv
          exact absurd ⟨hjv, hd.symm, hb.symm⟩ (hnone j hj)
      · by_cases hkj : k = j
        · rw [if_neg hki, if_pos hkj] at hd hb
          rw [if_neg hki] at hiv
          exact absurd ⟨hiv, hd, hb⟩ (hnone i hi)
        · rw [if_neg hki] at hiv hd hb
          rw [if_neg hkj] at hjv hd hb
          exact hku i j hi hj hiv hjv hd hb
    · exact CountsInt_set tbl2 k _ hci (by simp [fill_entry, INT_MIN, INT_MAX])
  · rw [(cache_insert_fail g d b buf hr).2]; exact h

theorem CacheInv_create (g : CacheGlobals) (n : Int) (ok : Bool)
    (h : (cache_create g n ok).2 = 1) : CacheInv (cache_create g n ok).1 := by
  have h1 := (cache_create_ok_iff g n ok).1 h
  rw [cache_create_ok g n ok h]
  refine ⟨_, rfl, by simp; omega, ?_, ?_, ?_⟩
  · intro i j hi hj _ hjv
    simp [zero_entry] at hjv
  · intro i j hi hj hiv
    simp [zero_entry] at hiv
  · intro e he
    simp only [List.mem_replicate] at he
    rw [he.2]
    simp [zero_entry, INT_MIN, INT_MAX]

theorem CacheReachable_inv (g : CacheGlobals) (h : CacheReachable g) : CacheInv g := by
  induction h with
  | create g n ok h => exact CacheInv_create g n ok h
  | insert g d b buf _ ih => exact CacheInv_insert g d b buf ih
  | lookup g d b buf _ ih => exact CacheInv_lookup g d b buf ih
  | update g d b buf _ ih => exact CacheInv_update g d b buf ih

theorem CacheOk_unique (g : CacheGlobals) (h : CacheOk g) : KeysUnique (slots g) := by
  rcases h with h | h
  · intro i j hi
    simp [slots, h] at hi
  · obtain ⟨tbl, hc, _, _, hku, _⟩ := h
    simpa [slots, hc] using hku

theorem CacheLegal_ok (g : CacheGlobals) (h : CacheLegal g) : CacheOk g := by
  rcases h with h | h
  · exact Or.inl h
  · exact Or.inr (CacheReachable_inv g h)

/-! ## The claims on the cache -/

theorem demo_two_reachable : CacheReachable demo_two :=
  CacheReachable.update _ 1 3 _
    (CacheReachable.lookup _ 1 2 _
      (CacheReachable.insert _ 1 3 _
        (CacheReachable.insert _ 1 2 _
          (CacheReachable.create cache_initial 2 true (by decide)))))

/-- C4. Key uniqueness is an invariant of the cache: in every state reachable from a
successful `cache_create` by any sequence of `cache_insert`, `cache_lookup` and
`cache_update` calls with any arguments, no two distinct slots are both valid with the
same `(disk_num, block_num)`. -/
theorem cache_keys_unique (g : CacheGlobals) (h : CacheReachable g) :
    KeysUnique (slots g) := by
  obtain ⟨tbl, hc, _, _, hku, _⟩ := CacheReachable_inv g h
  simpa [slots, hc] using hku

theorem cache_keys_unique_witness :
    CacheReachable demo_two ∧ KeysUnique (slots demo_two) ∧
    keys (slots demo_two) = [(true, 1, 2), (true, 1, 3)] :=
  ⟨demo_two_reachable, cache_keys_unique demo_two demo_two_reachable, by decide⟩

/-- C5. Insert-then-lookup: for every state of the cache, every key and every block
content `c`, if `cache_insert(disk_num, block_num, c)` returns 1 then an immediately
following `cache_lookup(disk_num, block_num, out)` returns 1 and the 256 bytes of `out`
are those of `c`. -/
theorem cache_insert_then_lookup (g : CacheGlobals) (d b : Int) (c out : Bytes)
    (h : (cache_insert g d b (some c)).2 = 1) :
    (cache_lookup (cache_insert g d b (some c)).1 d b (some out)).2.1 = 1 ∧
    ∃ out1 : Bytes,
      (cache_lookup (cache_insert g d b (some c)).1 d b (some out)).2.2 = some out1 ∧
      ∀ o : Nat, o < 256 → out1 o = c o := by
  obtain ⟨tbl, src, k, hk, hc, hsrc, _, hres, _, hbefore, _⟩ :=
    cache_insert_ok g d b (some c) h
  have hcs : c = src := Option.some.inj hsrc
  subst hcs
  rw [hres]
  have hk2 : k < (tbl.set k (fill_entry d b c tbl[k])).length := by simpa using hk
  have hnew : (tbl.set k (fill_entry d b c tbl[k]))[k] = fill_entry d b c tbl[k] := by simp
  have hholds : holds_key (tbl.set k (fill_entry d b c tbl[k]))[k] d b := by
    rw [hnew]; exact ⟨rfl, rfl, rfl⟩
  cases hl : cache_lookup_loop d b out (tbl.set k (fill_entry d b c tbl[k])) with
  | none =>
    exact absurd hholds
      ((cache_lookup_loop_none d b out _).1 hl _ (List.getElem_mem hk2))
  | some r =>
    obtain ⟨o1, t1⟩ := r
    obtain ⟨i, hi, hm, hfirst, hout, _⟩ := cache_lookup_loop_some d b out _ o1 t1 hl
    have hik : i = k := by
      rcases Nat.lt_trichotomy i k with h1 | h1 | h1
      · have hi2 : i < tbl.length := by omega
        have : (tbl.set k (fill_entry d b c tbl[k]))[i] = tbl[i] := by
          rw [List.getElem_set]; rw [if_neg (by omega)]
        rw [this] at hm
        exact absurd hm (hbefore i hi2 h1)
      · exact h1
      · exact absurd hholds (hfirst k h1)
    subst hik
    simp only [cache_lookup, hl]
    refine ⟨trivial, o1, rfl, ?_⟩
    intro o ho
    rw [hout, hnew]
    simp [memcpy, fill_entry, JBOD_BLOCK_SIZE, ho]

theorem cache_insert_then_lookup_witness :
    (cache_insert demo_full 1 1 (some (fun o => o + 1))).2 = 1 ∧
    (cache_lookup (cache_insert demo_full 1 1 (some (fun o => o + 1))).1 1 1
      (some (fun _ => 0))).2.1 = 1 ∧
    ∃ out1 : Bytes,
      (cache_lookup (cache_insert demo_full 1 1 (some (fun o => o + 1))).1 1 1
        (some (fun _ => 0))).2.2 = some out1 ∧
      ∀ o : Nat, o < 256 → out1 o = (fun o => o + 1) o :=
  ⟨by decide, cache_insert_then_lookup demo_full 1 1 (fun o => o + 1) (fun _ => 0) (by decide)⟩

/-- C6. Victim selection of `cache_insert`. Whenever `cache_insert` returns 1, the slot
`k` it overwrites is the lowest-index invalid slot if the table has an invalid slot, and
otherwise the lowest-index slot among those whose `num_accesses` is the minimum over the
whole table. That slot becomes valid with the new key, the 256 bytes of the new content
and `num_accesses = 1`; every other slot and both counters are unchanged. -/
theorem cache_insert_victim (g : CacheGlobals) (d b : Int) (buf : Option Bytes)
    (h : (cache_insert g d b buf).2 = 1) :
    ∃ (tbl tbl1 : List cache_entry_t) (src : Bytes) (k : Nat) (hk : k < tbl.length)
      (hk1 : k < tbl1.length),
      g.cache = some tbl ∧ buf = some src ∧
      (cache_insert g d b buf).1.cache = some tbl1 ∧
      (cache_insert g d b buf).1.num_queries = g.num_queries ∧
      (cache_insert g d b buf).1.num_hits = g.num_hits ∧
      tbl1.length = tbl.length ∧
      ((∃ (j : Nat) (hj : j < tbl.length), tbl[j].valid = false) →
        tbl[k].valid = false ∧
        ∀ (j : Nat) (hj : j < tbl.length), j < k → tbl[j].valid = true) ∧
      ((∀ (j : Nat) (hj : j < tbl.length), tbl[j].valid = true) →
        (∀ (j : Nat) (hj : j < tbl.length), tbl[k].num_accesses ≤ tbl[j].num_accesses) ∧
        (∀ (j : Nat) (hj : j < tbl.length), j < k →
          tbl[k].num_accesses < tbl[j].num_accesses)) ∧
      tbl1[k].valid = true ∧ tbl1[k].disk_num = d ∧ tbl1[k].block_num = b ∧
      tbl1[k].num_accesses = 1 ∧ (∀ o : Nat, o < 256 → tbl1[k].block o = src o) ∧
      (∀ j : Nat, j ≠ k → tbl1[j]? = tbl[j]?) := by
  obtain ⟨tbl, src, k, hk, hc, hsrc, _, hres, hvict, _, _⟩ := cache_insert_ok g d b buf h
  obtain ⟨_, hv1, hv2⟩ := hvict
  have hk2 : k < (tbl.set k (fill_entry d b src tbl[k])).length := by simpa using hk
  have hnew : (tbl.set k (fill_entry d b src tbl[k]))[k] = fill_entry d b src tbl[k] := by simp
  refine ⟨tbl, tbl.set k (fill_entry d b src tbl[k]), src, k, hk, hk2, hc, hsrc,
    by rw [hres], by rw [hres], by rw [hres], by simp, hv1, hv2, ?_, ?_, ?_, ?_, ?_, ?_⟩
  · rw [hnew]; rfl
  · rw [hnew]; rfl
  · rw [hnew]; rfl
  · rw [hnew]; rfl
  · intro o ho
    rw [hnew]
    simp [memcpy, fill_entry, JBOD_BLOCK_SIZE, ho]
  · intro j hj
    rw [List.getElem?_set_ne (Ne.symm hj)]

theorem cache_insert_victim_witness :
    (cache_insert demo_full 1 1 (some (fun _ => 99))).2 = 1 ∧
    keys (slots (cache_insert demo_full 1 1 (some (fun _ => 99))).1) =
      [(true, 0, 0), (true, 1, 1), (true, 0, 2)] ∧
    (slots (cache_insert demo_full 1 1 (some (fun _ => 99))).1).map
      (fun e => (e.block 0, e.num_accesses)) = [(10, 5), (99, 1), (12, 1)] ∧
    ∃ (tbl tbl1 : List cache_entry_t) (src : Bytes) (k : Nat) (_ : k < tbl.length)
      (_ : k < tbl1.length),
      demo_full.cache = some tbl ∧ some (fun _ => 99) = some src ∧
      (cache_insert demo_full 1 1 (some (fun _ => 99))).1.cache = some tbl1 :=
  ⟨by decide, by decide, by decide,
    match cache_insert_victim demo_full 1 1 (some (fun _ => 99)) (by decide) with
    | ⟨tbl, tbl1, src, k, hk, hk1, h1, h2, h3, _⟩ => ⟨tbl, tbl1, src, k, hk, hk1, h1, h2, h3⟩⟩

theorem cache_insert_loop_chosen (d b : Int) (tbl : List cache_entry_t) (r : Int)
    (hlen : 0 < tbl.length) (hci : CountsInt tbl)
    (hr : cache_insert_loop d b tbl 0 (-1) INT_MAX (-1) = some r) : r ≠ -1 := by
  have hspec := cache_insert_loop_spec d b tbl tbl 0 (-1) INT_MAX (-1) r (by simp)
    (fun j _ hj => absurd hj (by omega)) (LfuAcc_initial tbl) hr
  rcases hspec with ⟨k, _, hrk, _, _⟩ | ⟨_, mn1, ea1, hacc⟩
  · omega
  · rcases hacc with ⟨_, _, _, h4⟩ | ⟨k, _, _, h1, _⟩
    · have h5 := h4 0 hlen hlen
      have h6 := (hci _ (List.getElem_mem hlen)).2
      omega
    · omega

/-- C7. Exact failure condition of `cache_insert`. In every state reachable from a
successful `cache_create` and for every non-absent buffer, `cache_insert(disk_num,
block_num, buf)` returns 1 if and only if `0 <= disk_num < 16`, `0 <= block_num < 256`
and no valid entry already holds `(disk_num, block_num)`; in every other case it returns
-1 and leaves the state of the cache unchanged. -/
theorem cache_insert_succeeds_iff (g : CacheGlobals) (h : CacheReachable g) (d b : Int)
    (src : Bytes) :
    ((cache_insert g d b (some src)).2 = 1 ↔
      (0 ≤ d ∧ d < 16 ∧ 0 ≤ b ∧ b < 256 ∧ ∀ e ∈ slots g, ¬ holds_key e d b)) ∧
    ((cache_insert g d b (some src)).2 ≠ 1 →
      (cache_insert g d b (some src)).2 = -1 ∧ (cache_insert g d b (some src)).1 = g) := by
  refine ⟨?_, cache_insert_fail g d b (some src)⟩
  obtain ⟨tbl, hc, hlen, hvf, _, hci⟩ := CacheReachable_inv g h
  constructor
  · intro h1
    obtain ⟨tbl2, _, k, hk, hc2, _, hrange, _, hvict, hbefore, hall⟩ :=
      cache_insert_ok g d b (some src) h1
    have htt : tbl2 = tbl := by rw [hc] at hc2; exact (Option.some.inj hc2).symm
    subst htt
    have hnone := victim_no_other_holder d b tbl2 k hvf hvict hbefore hall
    refine ⟨hrange.1, hrange.2.1, hrange.2.2.1, hrange.2.2.2, ?_⟩
    intro e he
    simp only [slots, hc, Option.getD_some] at he
    obtain ⟨j, hj, hje⟩ := List.getElem_of_mem he
    rw [← hje]
    exact hnone j hj
  · rintro ⟨h1, h2, h3, h4, h5⟩
    simp only [slots, hc, Option.getD_some] at h5
    obtain ⟨r, hr⟩ := cache_insert_loop_total d b tbl 0 (-1) INT_MAX (-1)
      (fun e he _ => h5 e he)
    have hne := cache_insert_loop_chosen d b tbl r hlen hci hr
    have hrange : ¬ (d < 0 ∨ d ≥ (JBOD_NUM_DISKS : Int) ∨ b < 0 ∨ b ≥ 256) := by
      simp only [JBOD_NUM_DISKS]
      push_cast
      omega
    simp [cache_insert, hc, hrange, hr, hne]

theorem cache_insert_succeeds_iff_witness :
    CacheReachable demo_two ∧
    (cache_insert demo_two 2 2 (some (fun _ => 5))).2 = 1 ∧
    (cache_insert demo_two 1 2 (some (fun _ => 5))).2 = -1 ∧
    (cache_insert demo_two 16 0 (some (fun _ => 5))).1 = demo_two :=
  ⟨demo_two_reachable,
   (cache_insert_succeeds_iff demo_two demo_two_reachable 2 2 (fun _ => 5)).1.2
     ⟨by decide, by decide, by decide, by decide, by decide⟩,
   ((cache_insert_succeeds_iff demo_two demo_two_reachable 1 2 (fun _ => 5)).2
     (by decide)).1,
   ((cache_insert_succeeds_iff demo_two demo_two_reachable 16 0 (fun _ => 5)).2
     (by decide)).2⟩

/-! ## Opcodes and packets -/

theorem construct_seek_disk : ∀ d : Nat, d < 16 →
    jbod_construct_opcode JBOD_SEEK_TO_DISK d 0 0 = 4 + 64 * d := by decide

set_option maxRecDepth 100000 in
theorem construct_seek_block : ∀ b : Nat, b < 256 →
    jbod_construct_opcode JBOD_SEEK_TO_BLOCK 0 b 0 = 5 + 1024 * b := by decide

theorem construct_read : jbod_construct_opcode JBOD_READ_BLOCK 0 0 0 = 6 := by decide

theorem construct_write : jbod_construct_opcode JBOD_WRITE_BLOCK 0 0 0 = 7 := by decide

theorem ntohl_htonl (op : Nat) (h : op < 4294967296) (rest : List Nat) :
    ntohl ((htonl op ++ rest).take 4) = op := by
  simp [htonl, ntohl]
  omega

theorem block_bytes_length (b : Bytes) : (block_bytes b).length = 256 := by
  simp [block_bytes, JBOD_BLOCK_SIZE]

theorem bytes_of_block_bytes (b : Bytes) (o : Nat) (ho : o < 256) :
    bytes_of (block_bytes b) o = b o := by
  simp [bytes_of, block_bytes, JBOD_BLOCK_SIZE, List.getD_eq_getElem?_getD, List.getElem?_map,
    List.getElem?_range ho]

theorem recv_packet_header (op ret : Nat) (hret : ret &&& 2 = 0) (blk : Bytes) :
    ∃ op1, recv_packet (htonl op ++ [ret]) blk = some (op1, ret, blk) := by
  simp [recv_packet, nread, htonl, HEADER_LEN, hret]

theorem nread_header (op ret : Nat) (rest : List Nat) :
    nread (htonl op ++ [ret] ++ rest) HEADER_LEN = some (htonl op ++ [ret], rest) := by
  simp [nread, htonl, HEADER_LEN]

theorem recv_packet_payload (op : Nat) (b blk : Bytes) :
    ∃ op1, recv_packet (htonl op ++ [2] ++ block_bytes b) blk =
      some (op1, 2, memcpy blk 0 (bytes_of (block_bytes b)) 0 JBOD_BLOCK_SIZE) := by
  have h2 : nread (block_bytes b) JBOD_BLOCK_SIZE = some (block_bytes b, []) := by
    have h3 : ¬ ((block_bytes b).length < 256) := by rw [block_bytes_length]; omega
    have h4 : (block_bytes b).length ≤ 256 := by rw [block_bytes_length]
    simp [nread, JBOD_BLOCK_SIZE, h3, List.take_of_length_le h4, List.drop_of_length_le h4]
  have h5 : (htonl op ++ [2]).getD 4 0 = 2 := by simp [htonl]
  have h6 : (2 &&& 2 ≠ 0) = True := by decide
  unfold recv_packet
  simp only [nread_header, h5, h6, if_true, h2]
  exact ⟨_, rfl⟩

/-- A call of `jbod_client_operation` on an established connection, when the reply is
known. -/
theorem jbod_client_operation_reply (n : Net) (hc : n.cli_sd ≠ -1)
    (hw : n.wire.headD Wire.whole = Wire.whole) (op : Nat)
    (blk : Option Bytes) (sv : Server) (resp : List Nat)
    (hs : jbod_server n.server (n.refuse.headD false) (send_packet op blk) = (sv, resp))
    (op1 ret : Nat) (tb : Bytes) (hrecv : recv_packet resp (fun _ => 0) = some (op1, ret, tb)) :
    jbod_client_operation n op blk =
      ({ cli_sd := n.cli_sd, server := sv, refuse := n.refuse.tail, oplog := n.oplog ++ [op],
         wire := n.wire.tail },
       if ret &&& 0x01 ≠ 0 then -1 else 0,
       if ret &&& 0x02 ≠ 0 then blk.map (fun b => memcpy b 0 tb 0 JBOD_BLOCK_SIZE)
       else blk) := by
  unfold jbod_client_operation
  rw [if_neg hc, hw]
  simp only [send_ok, arriving, Bool.true_eq_false, if_false, hs, hrecv]

theorem jbod_server_seek_disk (sv : Server) (d : Nat) (hd : d < 16) :
    jbod_server sv false (send_packet (4 + 64 * d) none) =
      ({ sv with cur_disk := d }, htonl (4 + 64 * d) ++ [0]) := by
  have h1 : (4 + 64 * d) % 64 = 4 := by omega
  have h2 : (4 + 64 * d) / 64 % 16 = d := by omega
  simp only [send_packet, jbod_server, ntohl_htonl (4 + 64 * d) (by omega), h1, h2,
    JBOD_SEEK_TO_DISK, Bool.false_eq_true, if_false, if_true]

theorem jbod_server_seek_block (sv : Server) (b : Nat) (hb : b < 256) :
    jbod_server sv false (send_packet (5 + 1024 * b) none) =
      ({ sv with cur_block := b }, htonl (5 + 1024 * b) ++ [0]) := by
  have h1 : (5 + 1024 * b) % 64 = 5 := by omega
  have h2 : (5 + 1024 * b) / 1024 % 256 = b := by omega
  simp [send_packet, jbod_server, ntohl_htonl (5 + 1024 * b) (by omega), h1, h2,
    JBOD_SEEK_TO_DISK, JBOD_SEEK_TO_BLOCK]

theorem jbod_server_read (sv : Server) (temp : Bytes) :
    jbod_server sv false (send_packet 6 (some temp)) =
      (sv, htonl 6 ++ [2] ++ block_bytes (sv.store sv.cur_disk sv.cur_block)) := by
  have h0 : (6 &&& 63 = JBOD_WRITE_BLOCK) = False := by decide
  simp [send_packet, jbod_server, ntohl_htonl 6 (by omega), h0,
    JBOD_SEEK_TO_DISK, JBOD_SEEK_TO_BLOCK, JBOD_READ_BLOCK]

theorem send_packet_write (temp : Bytes) :
    send_packet 7 (some temp) = htonl 7 ++ [2] ++ block_bytes temp := by
  have h0 : (7 &&& 63 = JBOD_WRITE_BLOCK) = True := by decide
  simp only [send_packet, h0, if_true]
  rfl

theorem jbod_server_write (sv : Server) (temp : Bytes) :
    jbod_server sv false (send_packet 7 (some temp)) =
      ({ sv with store := fun d b =>
            if d = sv.cur_disk ∧ b = sv.cur_block then bytes_of (block_bytes temp)
            else sv.store d b },
       htonl 7 ++ [0]) := by
  have h1 : ntohl (List.take 4 (htonl 7 ++ [2] ++ block_bytes temp)) = 7 := by
    rw [List.append_assoc]; exact ntohl_htonl 7 (by omega) _
  have h2 : (htonl 7 ++ [2] ++ block_bytes temp).getD 4 0 = 2 := by
    simp [htonl]
  have h3 : List.drop HEADER_LEN (htonl 7 ++ [2] ++ block_bytes temp) =
      block_bytes temp := by
    simp [htonl, HEADER_LEN]
  have h4 : (2 &&& 2 = 0) = False := by decide
  rw [send_packet_write]
  simp only [jbod_server, h1, h2, h3, h4, if_true, if_false,
    JBOD_SEEK_TO_DISK, JBOD_SEEK_TO_BLOCK, JBOD_READ_BLOCK, JBOD_WRITE_BLOCK,
    Bool.false_eq_true]
  simp

/-! ## The remote operations on a faithful connection -/

theorem client_seek_disk (n : Net) (hf : Faithful n) (d : Nat) (hd : d < 16) :
    jbod_client_operation n (jbod_construct_opcode JBOD_SEEK_TO_DISK d 0 0) none =
      ({ cli_sd := n.cli_sd, server := { n.server with cur_disk := d }, refuse := [],
         oplog := n.oplog ++ [4 + 64 * d] }, 0, none) := by
  obtain ⟨hc, hr, hw⟩ := hf
  rw [construct_seek_disk d hd]
  obtain ⟨op1, hrecv⟩ := recv_packet_header (4 + 64 * d) 0 (by decide) (fun _ => 0)
  rw [jbod_client_operation_reply n hc (by rw [hw]; rfl) _ none _ _
    (by rw [hr]; exact jbod_server_seek_disk n.server d hd) op1 0 _ hrecv]
  simp [hr, hw]

theorem client_seek_block (n : Net) (hf : Faithful n) (b : Nat) (hb : b < 256) :
    jbod_client_operation n (jbod_construct_opcode JBOD_SEEK_TO_BLOCK 0 b 0) none =
      ({ cli_sd := n.cli_sd, server := { n.server with cur_block := b }, refuse := [],
         oplog := n.oplog ++ [5 + 1024 * b] }, 0, none) := by
  obtain ⟨hc, hr, hw⟩ := hf
  rw [construct_seek_block b hb]
  obtain ⟨op1, hrecv⟩ := recv_packet_header (5 + 1024 * b) 0 (by decide) (fun _ => 0)
  rw [jbod_client_operation_reply n hc (by rw [hw]; rfl) _ none _ _
    (by rw [hr]; exact jbod_server_seek_block n.server b hb) op1 0 _ hrecv]
  simp [hr, hw]

theorem client_read (n : Net) (hf : Faithful n) (temp : Bytes) :
    jbod_client_operation n (jbod_construct_opcode JBOD_READ_BLOCK 0 0 0) (some temp) =
      ({ cli_sd := n.cli_sd, server := n.server, refuse := [], oplog := n.oplog ++ [6] }, 0,
       some (fetched n.server.store n.server.cur_disk n.server.cur_block temp)) := by
  obtain ⟨hc, hr, hw⟩ := hf
  rw [construct_read]
  obtain ⟨op1, hrecv⟩ := recv_packet_payload 6
    (n.server.store n.server.cur_disk n.server.cur_block) (fun _ => 0)
  rw [jbod_client_operation_reply n hc (by rw [hw]; rfl) _ (some temp) _ _
    (by rw [hr]; exact jbod_server_read n.server temp) op1 2 _ hrecv]
  have h1 : (2 &&& 1 ≠ 0) = False := by decide
  have h2 : (2 &&& 2 ≠ 0) = True := by decide
  simp only [h1, h2, if_true, if_false, hr, hw, List.tail_nil, Option.map_some', fetched]

theorem client_write (n : Net) (hf : Faithful n) (temp : Bytes) :
    jbod_client_operation n (jbod_construct_opcode JBOD_WRITE_BLOCK 0 0 0) (some temp) =
      ({ cli_sd := n.cli_sd,
         server :=
          { store := fun d b =>
              if d = n.server.cur_disk ∧ b = n.server.cur_block then
                bytes_of (block_bytes temp)
              else n.server.store d b,
            cur_disk := n.server.cur_disk, cur_block := n.server.cur_block },
         refuse := [], oplog := n.oplog ++ [7] }, 0, some temp) := by
  obtain ⟨hc, hr, hw⟩ := hf
  rw [construct_write]
  obtain ⟨op1, hrecv⟩ := recv_packet_header 7 0 (by decide) (fun _ => 0)
  rw [jbod_client_operation_reply n hc (by rw [hw]; rfl) _ (some temp) _ _
    (by rw [hr]; exact jbod_server_write n.server temp) op1 0 _ hrecv]
  simp [hr, hw]

/-- The seek-seek-read sequence on a faithful connection. -/
theorem jbod_seek_and_read (n : Net) (hf : Faithful n) (d b : Nat) (hd : d < 16)
    (hb : b < 256) (temp : Bytes) :
    jbod_seek_and n d b JBOD_READ_BLOCK temp =
      ({ cli_sd := n.cli_sd,
         server := { store := n.server.store, cur_disk := d, cur_block := b },
         refuse := [], oplog := n.oplog ++ [4 + 64 * d] ++ [5 + 1024 * b] ++ [6] },
       false, fetched n.server.store d b temp) := by
  have hf1 : Faithful
      { cli_sd := n.cli_sd, server := { n.server with cur_disk := d },
        refuse := [], oplog := n.oplog ++ [4 + 64 * d] } := ⟨hf.1, rfl, rfl⟩
  have hf2 : Faithful
      { cli_sd := n.cli_sd,
        server := { store := n.server.store, cur_disk := d, cur_block := b },
        refuse := [], oplog := n.oplog ++ [4 + 64 * d] ++ [5 + 1024 * b] } := ⟨hf.1, rfl, rfl⟩
  unfold jbod_seek_and
  simp only [client_seek_disk n hf d hd, client_seek_block _ hf1 b hb, client_read _ hf2]
  simp

/-- The seek-seek-write sequence on a faithful connection. -/
theorem jbod_seek_and_write (n : Net) (hf : Faithful n) (d b : Nat) (hd : d < 16)
    (hb : b < 256) (temp : Bytes) :
    jbod_seek_and n d b JBOD_WRITE_BLOCK temp =
      ({ cli_sd := n.cli_sd,
         server :=
          { store := fun d1 b1 =>
              if d1 = d ∧ b1 = b then bytes_of (block_bytes temp) else n.server.store d1 b1,
            cur_disk := d, cur_block := b },
         refuse := [], oplog := n.oplog ++ [4 + 64 * d] ++ [5 + 1024 * b] ++ [7] },
       false, temp) := by
  have hf1 : Faithful
      { cli_sd := n.cli_sd, server := { n.server with cur_disk := d },
        refuse := [], oplog := n.oplog ++ [4 + 64 * d] } := ⟨hf.1, rfl, rfl⟩
  have hf2 : Faithful
      { cli_sd := n.cli_sd,
        server := { store := n.server.store, cur_disk := d, cur_block := b },
        refuse := [], oplog := n.oplog ++ [4 + 64 * d] ++ [5 + 1024 * b] } := ⟨hf.1, rfl, rfl⟩
  unfold jbod_seek_and
  simp only [client_seek_disk n hf d hd, client_seek_block _ hf1 b hb, client_write _ hf2]
  simp

theorem fetched_block (store : Nat → Nat → Bytes) (d b : Nat) (temp : Bytes) (o : Nat)
    (ho : o < 256) : fetched store d b temp o = store d b o := by
  simp [fetched, memcpy, JBOD_BLOCK_SIZE, ho, bytes_of_block_bytes _ o ho]

/-! ## The cache against the store -/

theorem cache_lookup_miss (g : CacheGlobals) (d b : Int) (buf : Bytes)
    (h : (cache_lookup g d b (some buf)).2.1 ≠ 1) :
    (cache_lookup g d b (some buf)).2.2 = some buf ∧
    (cache_lookup g d b (some buf)).1.cache = g.cache ∧
    ∀ e ∈ slots g, ¬ holds_key e d b := by
  cases hc : g.cache with
  | none => simp [cache_lookup, hc, slots]
  | some tbl =>
    cases hl : cache_lookup_loop d b buf tbl with
    | none =>
      have := (cache_lookup_loop_none d b buf tbl).1 hl
      simp [cache_lookup, hc, hl, slots]
      exact this
    | some r => simp [cache_lookup, hc, hl] at h

theorem cache_lookup_hit (g : CacheGlobals) (d b : Int) (buf : Bytes)
    (h : (cache_lookup g d b (some buf)).2.1 = 1) :
    ∃ (tbl : List cache_entry_t) (i : Nat) (hi : i < tbl.length),
      g.cache = some tbl ∧ holds_key tbl[i] d b ∧
      (∀ (j : Nat) (hj : j < i), ¬ holds_key tbl[j] d b) ∧
      (cache_lookup g d b (some buf)).2.2 =
        some (memcpy buf 0 tbl[i].block 0 JBOD_BLOCK_SIZE) ∧
      (cache_lookup g d b (some buf)).1.cache = some (tbl.set i (touch_entry tbl[i])) := by
  cases hc : g.cache with
  | none => simp [cache_lookup, hc] at h
  | some tbl =>
    cases hl : cache_lookup_loop d b buf tbl with
    | none => simp [cache_lookup, hc, hl] at h
    | some r =>
      obtain ⟨o1, t1⟩ := r
      obtain ⟨i, hi, hm, hfirst, hout, ht1⟩ := cache_lookup_loop_some d b buf tbl o1 t1 hl
      refine ⟨tbl, i, hi, rfl, hm, hfirst, ?_, ?_⟩
      · simp [cache_lookup, hc, hl, hout]
      · simp [cache_lookup, hc, hl, ht1]

theorem Coherent_set (tbl : List cache_entry_t) (store : Nat → Nat → Bytes) (i : Nat)
    (e : cache_entry_t) (h : Coherent tbl store)
    (he : ∀ d b : Nat, holds_key e (d : Int) (b : Int) →
      ∀ o : Nat, o < 256 → e.block o = store d b o) :
    Coherent (tbl.set i e) store := by
  intro x hx
  rcases List.mem_or_eq_of_mem_set hx with h1 | h1
  · exact h x h1
  · rw [h1]; exact he

theorem Coherent_lookup (g : CacheGlobals) (store : Nat → Nat → Bytes) (d b : Int)
    (buf : Bytes) (h : Coherent (slots g) store) :
    Coherent (slots (cache_lookup g d b (some buf)).1) store := by
  by_cases hr : (cache_lookup g d b (some buf)).2.1 = 1
  · obtain ⟨tbl, i, hi, hc, _, _, _, hres⟩ := cache_lookup_hit g d b buf hr
    simp only [slots, hres, hc, Option.getD_some] at h ⊢
    apply Coherent_set _ _ _ _ h
    intro d1 b1 hk
    exact h _ (List.getElem_mem hi) d1 b1 hk
  · simp only [slots, (cache_lookup_miss g d b buf hr).2.1]
    exact h

theorem Coherent_insert (g : CacheGlobals) (store : Nat → Nat → Bytes) (d b : Nat)
    (src : Bytes) (h : Coherent (slots g) store)
    (hsrc : ∀ o : Nat, o < 256 → src o = store d b o) :
    Coherent (slots (cache_insert g (d : Int) (b : Int) (some src)).1) store := by
  by_cases hr : (cache_insert g (d : Int) (b : Int) (some src)).2 = 1
  · obtain ⟨tbl, src1, k, hk, hc, hs1, _, hres, _⟩ := cache_insert_ok g d b (some src) hr
    have hss : src = src1 := Option.some.inj hs1
    subst hss
    simp only [slots, hres, hc, Option.getD_some] at h ⊢
    apply Coherent_set _ _ _ _ h
    intro d1 b1 hk1 o ho
    obtain ⟨_, h2, h3⟩ := hk1
    simp only [fill_entry] at h2 h3
    have h4 : d1 = d := by omega
    have h5 : b1 = b := by omega
    rw [h4, h5, ← hsrc o ho]
    simp [fill_entry, memcpy, JBOD_BLOCK_SIZE, ho]
  · rw [(cache_insert_fail g d b (some src) hr).2]; exact h

theorem read_fetch_hit (s : State) (l : ReadLocals)
    (hr : (cache_lookup s.cache ((l.current_block / 256 : Nat) : Int)
      ((l.current_block % 256 : Nat) : Int) (some l.temp_buf)).2.1 = 1) :
    read_fetch s l =
      ({ s with cache := (cache_lookup s.cache ((l.current_block / 256 : Nat) : Int)
            ((l.current_block % 256 : Nat) : Int) (some l.temp_buf)).1 },
       some ((cache_lookup s.cache ((l.current_block / 256 : Nat) : Int)
            ((l.current_block % 256 : Nat) : Int) (some l.temp_buf)).2.2.getD l.temp_buf)) := by
  simp only [read_fetch, JBOD_NUM_BLOCKS_PER_DISK, hr, ne_eq, not_true_eq_false, if_false]

theorem read_fetch_miss (s : State) (l : ReadLocals) (hf : Faithful s.net)
    (hcur : l.current_block < 4096)
    (hr : (cache_lookup s.cache ((l.current_block / 256 : Nat) : Int)
      ((l.current_block % 256 : Nat) : Int) (some l.temp_buf)).2.1 ≠ 1) :
    read_fetch s l =
      ({ s with
          cache := (cache_insert (cache_lookup s.cache ((l.current_block / 256 : Nat) : Int)
            ((l.current_block % 256 : Nat) : Int) (some l.temp_buf)).1
            ((l.current_block / 256 : Nat) : Int) ((l.current_block % 256 : Nat) : Int)
            (some (fetched s.net.server.store (l.current_block / 256) (l.current_block % 256)
              l.temp_buf))).1,
          net :=
            { cli_sd := s.net.cli_sd,
              server := { store := s.net.server.store, cur_disk := l.current_block / 256,
                          cur_block := l.current_block % 256 },
              refuse := [],
              oplog := s.net.oplog ++ [4 + 64 * (l.current_block / 256)] ++
                [5 + 1024 * (l.current_block % 256)] ++ [6] } },
       some (fetched s.net.server.store (l.current_block / 256) (l.current_block % 256)
          l.temp_buf)) := by
  have hd : l.current_block / 256 < 16 := by omega
  have hb : l.current_block % 256 < 256 := by omega
  have hbuf := (cache_lookup_miss _ _ _ _ hr).1
  simp only [read_fetch, JBOD_NUM_BLOCKS_PER_DISK, hr, ne_eq, not_false_eq_true, if_true,
    jbod_seek_and_read s.net hf _ _ hd hb, Bool.false_eq_true, if_false, hbuf,
    Option.getD_some]

/-- The first half of the loop body of `mdadm_read` on a faithful connection and a
coherent cache: it never fails, `temp_buf` then holds the block of the store, the store is
unchanged, and the cache is coherent again. -/
theorem read_fetch_spec (s : State) (l : ReadLocals) (hf : Faithful s.net)
    (hco : Coherent (slots s.cache) s.net.server.store) (hcur : l.current_block < 4096) :
    ∃ temp : Bytes, (read_fetch s l).2 = some temp ∧
      (∀ o : Nat, o < 256 →
        temp o = s.net.server.store (l.current_block / 256) (l.current_block % 256) o) ∧
      Faithful (read_fetch s l).1.net ∧
      (read_fetch s l).1.net.server.store = s.net.server.store ∧
      Coherent (slots (read_fetch s l).1.cache) s.net.server.store ∧
      (read_fetch s l).1.is_mounted = s.is_mounted ∧
      (read_fetch s l).1.is_written = s.is_written := by
  by_cases hr : (cache_lookup s.cache ((l.current_block / 256 : Nat) : Int)
      ((l.current_block % 256 : Nat) : Int) (some l.temp_buf)).2.1 = 1
  · obtain ⟨tbl, i, hi, hc, hk, _, hout, _⟩ := cache_lookup_hit _ _ _ _ hr
    rw [read_fetch_hit s l hr]
    refine ⟨_, rfl, ?_, hf, rfl, Coherent_lookup _ _ _ _ _ hco, rfl, rfl⟩
    intro o ho
    rw [hout]
    simp only [Option.getD_some]
    rw [memcpy_block _ _ o (by simpa [JBOD_BLOCK_SIZE] using ho)]
    have hmem : tbl[i] ∈ slots s.cache := by
      simp only [slots, hc, Option.getD_some]; exact List.getElem_mem hi
    exact hco _ hmem _ _ hk o ho
  · rw [read_fetch_miss s l hf hcur hr]
    refine ⟨_, rfl, fun o ho => fetched_block _ _ _ _ o ho, ⟨hf.1, rfl, rfl⟩, rfl, ?_, rfl, rfl⟩
    apply Coherent_insert
    · exact Coherent_lookup _ _ _ _ _ hco
    · intro o ho
      exact fetched_block _ _ _ _ o ho

/-! ## The loop of `mdadm_read` -/

theorem bytes_to_copy_eq (off len : Nat) :
    bytes_to_copy off len = if 256 - off < len then 256 - off else len := by
  unfold bytes_to_copy mdadm_min JBOD_BLOCK_SIZE
  by_cases h : 256 - off < len
  · have h2 : ((256 - off : Nat) : Int) < (len : Int) := by omega
    rw [if_pos h, if_pos h2]
    simp
  · have h2 : ¬ ((256 - off : Nat) : Int) < (len : Int) := by omega
    rw [if_neg h, if_neg h2]
    simp

theorem store_byte_block (store : Nat → Nat → Bytes) (cur x : Nat) (hx : x < 256) :
    store_byte store (cur * 256 + x) = store (cur / 256) (cur % 256) x := by
  unfold store_byte
  have h1 : (cur * 256 + x) / 65536 = cur / 256 := by omega
  have h2 : (cur * 256 + x) / 256 % 256 = cur % 256 := by omega
  have h3 : (cur * 256 + x) % 256 = x := by omega
  rw [h1, h2, h3]

/-- One copy of `mdadm_read` into the caller's buffer, followed by the rest of the
transfer, gives the same bytes as the transfer from the current position. -/
theorem read_step_bytes (st : Nat → Nat → Bytes) (buf temp : Bytes)
    (cur off len pos n o : Nat) (hoff : off < 256)
    (hn : n = if 256 - off < len then 256 - off else len)
    (hblock : ∀ x : Nat, x < 256 → temp x = st (cur / 256) (cur % 256) x) :
    (if pos + n ≤ o ∧ o < pos + n + (len - n) then
        store_byte st ((cur + 1) * 256 + 0 + (o - (pos + n)))
      else memcpy buf pos temp off n o) =
    (if pos ≤ o ∧ o < pos + len then store_byte st (cur * 256 + off + (o - pos))
      else buf o) := by
  by_cases c2 : pos ≤ o ∧ o < pos + len
  · rw [if_pos c2]
    by_cases c3 : pos + n ≤ o
    · have c4 : pos + n ≤ o ∧ o < pos + n + (len - n) := by
        split at hn <;> omega
      rw [if_pos c4]
      have c5 : (cur + 1) * 256 + 0 + (o - (pos + n)) = cur * 256 + off + (o - pos) := by
        split at hn <;> omega
      rw [c5]
    · have c4 : ¬ (pos + n ≤ o ∧ o < pos + n + (len - n)) := by omega
      have c5 : pos ≤ o ∧ o < pos + n := by omega
      have c6 : off + (o - pos) < 256 := by
        split at hn <;> omega
      rw [if_neg c4]
      unfold memcpy
      rw [if_pos c5, hblock _ c6, ← store_byte_block st cur _ c6]
      have c7 : cur * 256 + (off + (o - pos)) = cur * 256 + off + (o - pos) := by omega
      rw [c7]
  · have c4 : ¬ (pos + n ≤ o ∧ o < pos + n + (len - n)) := by
      split at hn <;> omega
    have c5 : ¬ (pos ≤ o ∧ o < pos + n) := by
      split at hn <;> omega
    rw [if_neg c2, if_neg c4]
    unfold memcpy
    rw [if_neg c5]

theorem mdadm_read_loop_succ (k : Nat) (s : State) (l : ReadLocals) (temp : Bytes)
    (h : (read_fetch s l).2 = some temp) :
    mdadm_read_loop (k + 1) s l =
      mdadm_read_loop k (read_fetch s l).1 (read_advance { l with temp_buf := temp }) := by
  have hrf : read_fetch s l = ((read_fetch s l).1, some temp) := Prod.ext rfl h
  rw [mdadm_read_loop, hrf]

/-- The loop of `mdadm_read` on a faithful connection and a coherent cache, from any
point of the transfer: it returns `read` plus the remaining length, ends with no length
remaining, and has copied the bytes of the store at the logical addresses from the
current position on into the caller's buffer from the current offset on. -/
theorem mdadm_read_loop_correct (k : Nat) : ∀ (s : State) (l : ReadLocals),
    Faithful s.net → Coherent (slots s.cache) s.net.server.store →
    l.offset_within_block < 256 →
    l.current_block * 256 + l.offset_within_block + l.read_len ≤ 1048576 →
    (k = 0 → l.read_len = 0) →
    (0 < k → 0 < l.read_len ∧
      (l.current_block * 256 + l.offset_within_block + l.read_len - 1) / 256 + 1
        - l.current_block = k) →
    (mdadm_read_loop k s l).2.1 = l.read + (l.read_len : Int) ∧
    (mdadm_read_loop k s l).2.2.read_len = 0 ∧
    (∀ o : Nat, (mdadm_read_loop k s l).2.2.read_buf o =
      if l.read_pos ≤ o ∧ o < l.read_pos + l.read_len then
        store_byte s.net.server.store
          (l.current_block * 256 + l.offset_within_block + (o - l.read_pos))
      else l.read_buf o) ∧
    Faithful (mdadm_read_loop k s l).1.net ∧
    (mdadm_read_loop k s l).1.net.server.store = s.net.server.store ∧
    Coherent (slots (mdadm_read_loop k s l).1.cache) s.net.server.store ∧
    (mdadm_read_loop k s l).1.is_mounted = s.is_mounted ∧
    (mdadm_read_loop k s l).1.is_written = s.is_written := by
  induction k with
  | zero =>
    intro s l hf hco _ _ h0 _
    have hz := h0 rfl
    refine ⟨?_, hz, ?_, hf, rfl, hco, rfl, rfl⟩
    · simp [mdadm_read_loop, hz]
    · intro o
      have : ¬ (l.read_pos ≤ o ∧ o < l.read_pos + l.read_len) := by omega
      rw [if_neg this]
      rfl
  | succ k ih =>
    intro s l hf hco hoff hend _ hk
    obtain ⟨hlen, hspan⟩ := hk (by omega)
    have hcur : l.current_block < 4096 := by omega
    obtain ⟨temp, htemp, hblock, hf1, hst1, hco1, hm1, hw1⟩ := read_fetch_spec s l hf hco hcur
    rw [mdadm_read_loop_succ k s l temp htemp]
    obtain ⟨n, hn0⟩ : ∃ n, n = bytes_to_copy l.offset_within_block l.read_len := ⟨_, rfl⟩
    have hn : n = if 256 - l.offset_within_block < l.read_len then
        256 - l.offset_within_block else l.read_len := by
      rw [hn0]; exact bytes_to_copy_eq _ _
    have hadv : read_advance { l with temp_buf := temp } =
        { read_len := l.read_len - n,
          read_buf := memcpy l.read_buf l.read_pos temp l.offset_within_block n,
          read_pos := l.read_pos + n,
          temp_buf := temp,
          current_block := l.current_block + 1,
          offset_within_block := 0,
          read := l.read + (n : Int) } := by
      rw [hn0]; rfl
    rw [hadv]
    have ih1 := ih (read_fetch s l).1
      { read_len := l.read_len - n,
        read_buf := memcpy l.read_buf l.read_pos temp l.offset_within_block n,
        read_pos := l.read_pos + n,
        temp_buf := temp,
        current_block := l.current_block + 1,
        offset_within_block := 0,
        read := l.read + (n : Int) } hf1
      (by rw [hst1]; exact hco1)
      (by show 0 < 256; omega)
      (by show (l.current_block + 1) * 256 + 0 + (l.read_len - n) ≤ 1048576
          split at hn <;> omega)
      (by intro hk0
          show l.read_len - n = 0
          split at hn <;> omega)
      (by intro hk0
          show 0 < l.read_len - n ∧
            ((l.current_block + 1) * 256 + 0 + (l.read_len - n) - 1) / 256 + 1
              - (l.current_block + 1) = k
          split at hn <;> omega)
    obtain ⟨r1, r2, r3, r4, r5, r6, r7, r8⟩ := ih1
    refine ⟨?_, r2, ?_, r4, by rw [r5, hst1], by rw [← hst1]; exact r6, by rw [r7, hm1],
      by rw [r8, hw1]⟩
    · rw [r1]
      show l.read + (n : Int) + ((l.read_len - n : Nat) : Int) = l.read + (l.read_len : Int)
      split at hn <;> omega
    · intro o
      rw [r3 o, hst1]
      exact read_step_bytes s.net.server.store l.read_buf temp l.current_block
        l.offset_within_block l.read_len l.read_pos n o hoff hn hblock

theorem last_addr_eq (start_addr len : Nat) (h1 : 1 ≤ len) (h2 : start_addr + len ≤ 1048576) :
    last_addr start_addr len = start_addr + len - 1 := by
  unfold last_addr UINT32_MOD
  omega

theorem spec_block_counts_sum (k : Nat) : ∀ (cur off remaining : Nat), off < 256 →
    (k = 0 → remaining = 0) →
    (0 < k → 0 < remaining ∧ (cur * 256 + off + remaining - 1) / 256 + 1 - cur = k) →
    (spec_block_counts k off remaining).sum = remaining := by
  induction k with
  | zero =>
    intro cur off remaining _ h0 _
    simp [spec_block_counts, h0 rfl]
  | succ k ih =>
    intro cur off remaining hoff _ hk
    obtain ⟨hlen, hspan⟩ := hk (by omega)
    obtain ⟨n, hn⟩ : ∃ n, n = Nat.min (256 - off) remaining := ⟨_, rfl⟩
    have hn2 : n = if 256 - off < remaining then 256 - off else remaining := by
      rw [hn]
      split
      · exact Nat.min_eq_left (by omega)
      · exact Nat.min_eq_right (by omega)
    simp only [spec_block_counts, List.sum_cons, ← hn]
    rw [ih (cur + 1) 0 (remaining - n) (by omega)
      (by intro hk0; split at hn2 <;> omega)
      (by intro hk0; split at hn2 <;> omega)]
    split at hn2 <;> omega

theorem mdadm_read_accept (s : State) (start_addr read_len : Nat) (buf : Bytes)
    (hm : s.is_mounted ≠ 0) (h1 : 1 ≤ read_len) (h2 : read_len ≤ 1024)
    (h3 : start_addr + read_len ≤ 1048576) :
    mdadm_read s start_addr read_len (some buf) =
      ((mdadm_read_loop (block_span start_addr read_len) s
          (read_locals start_addr read_len buf)).1,
       (mdadm_read_loop (block_span start_addr read_len) s
          (read_locals start_addr read_len buf)).2.1,
       some (mdadm_read_loop (block_span start_addr read_len) s
          (read_locals start_addr read_len buf)).2.2.read_buf) := by
  have hla := last_addr_eq start_addr read_len h1 h3
  have c1 : ¬ ((some buf).isNone = true ∧ read_len > 0) := by simp
  have c2 : ¬ read_len = 0 := by omega
  have c3 : ¬ read_len > 1024 := by omega
  have c4 : ¬ (start_addr > last_possible_addr ∨
      last_addr start_addr read_len > last_possible_addr) := by
    rw [hla]
    simp only [last_possible_addr, JBOD_NUM_DISKS, JBOD_DISK_SIZE]
    omega
  unfold mdadm_read
  rw [if_neg hm, if_neg c1, if_neg c2, if_neg c3, if_neg c4]

/-- The whole of an accepted `mdadm_read` on a faithful connection with a cache that
agrees with the store. -/
theorem mdadm_read_correct (s : State) (start_addr read_len : Nat) (buf : Bytes)
    (hm : s.is_mounted ≠ 0) (hf : Faithful s.net)
    (hco : Coherent (slots s.cache) s.net.server.store)
    (h1 : 1 ≤ read_len) (h2 : read_len ≤ 1024) (h3 : start_addr + read_len ≤ 1048576) :
    (mdadm_read s start_addr read_len (some buf)).2.1 = (read_len : Int) ∧
    (∃ out : Bytes, (mdadm_read s start_addr read_len (some buf)).2.2 = some out ∧
      ∀ i : Nat, i < read_len → out i = store_byte s.net.server.store (start_addr + i)) ∧
    (mdadm_read_loop (block_span start_addr read_len) s
      (read_locals start_addr read_len buf)).2.2.read_len = 0 := by
  have hla := last_addr_eq start_addr read_len h1 h3
  have hspan : block_span start_addr read_len =
      (start_addr + read_len - 1) / 256 + 1 - start_addr / 256 := by
    simp only [block_span, hla, JBOD_BLOCK_SIZE]
  have hpos : start_addr / 256 * 256 + start_addr % 256 = start_addr := by omega
  have hk : 0 < block_span start_addr read_len := by rw [hspan]; omega
  obtain ⟨r1, r2, r3, _⟩ := mdadm_read_loop_correct (block_span start_addr read_len) s
    (read_locals start_addr read_len buf) hf hco
    (by simp only [read_locals, JBOD_BLOCK_SIZE]; omega)
    (by simp only [read_locals, JBOD_BLOCK_SIZE]; omega)
    (by intro h0; omega)
    (by intro _
        simp only [read_locals, JBOD_BLOCK_SIZE]
        rw [hspan, hpos]
        omega)
  rw [mdadm_read_accept s start_addr read_len buf hm h1 h2 h3]
  refine ⟨?_, ⟨_, rfl, ?_⟩, r2⟩
  · rw [r1]; simp [read_locals]
  · intro i hi
    rw [r3 i]
    simp only [read_locals, JBOD_BLOCK_SIZE]
    rw [if_pos (by omega), hpos]
    simp

/-- C2. `mdadm_read` equals the flat-address-space reference. On a faithful connection,
with a cache whose valid entries agree with the store (or no cache), in a mounted session,
for `1 <= read_len <= 1024` and `start_addr + read_len <= 1048576`: `mdadm_read` returns
`read_len`; byte `i` of the output buffer, for `i < read_len`, is the byte of disk
`(start_addr + i) / 65536`, block `((start_addr + i) / 256) mod 256`, offset
`(start_addr + i) mod 256`; the remaining-length counter is 0 when the loop ends; and the
per-block counts `min(256 - offset, remaining)` over the blocks
`start_addr / 256 .. (start_addr + read_len - 1) / 256` sum to `read_len`. -/
theorem mdadm_read_flat (s : State) (start_addr read_len : Nat) (buf : Bytes)
    (hm : s.is_mounted ≠ 0) (hf : Faithful s.net)
    (hco : Coherent (slots s.cache) s.net.server.store)
    (h1 : 1 ≤ read_len) (h2 : read_len ≤ 1024) (h3 : start_addr + read_len ≤ 1048576) :
    (mdadm_read s start_addr read_len (some buf)).2.1 = (read_len : Int) ∧
    (∃ out : Bytes, (mdadm_read s start_addr read_len (some buf)).2.2 = some out ∧
      ∀ i : Nat, i < read_len →
        out i = s.net.server.store ((start_addr + i) / 65536) ((start_addr + i) / 256 % 256)
          ((start_addr + i) % 256)) ∧
    (mdadm_read_loop (block_span start_addr read_len) s
      (read_locals start_addr read_len buf)).2.2.read_len = 0 ∧
    (spec_block_counts ((start_addr + read_len - 1) / 256 + 1 - start_addr / 256)
      (start_addr % 256) read_len).sum = read_len := by
  have hpos : start_addr / 256 * 256 + start_addr % 256 = start_addr := by omega
  obtain ⟨r1, r2, r3⟩ := mdadm_read_correct s start_addr read_len buf hm hf hco h1 h2 h3
  refine ⟨r1, r2, r3, ?_⟩
  exact spec_block_counts_sum _ (start_addr / 256) (start_addr % 256) read_len (by omega)
    (by intro h0; omega) (by intro _; rw [hpos]; omega)

/-! ## The cache against the store under `mdadm_write` -/

theorem CoherentFrom_of_Coherent (cur : Nat) (tbl : List cache_entry_t)
    (store : Nat → Nat → Bytes) (h : Coherent tbl store) : CoherentFrom cur tbl store :=
  fun e he d b hk _ _ => h e he d b hk

theorem CoherentFrom_lookup (cur : Nat) (g : CacheGlobals) (store : Nat → Nat → Bytes)
    (d b : Int) (buf : Bytes) (h : CoherentFrom cur (slots g) store) :
    CoherentFrom cur (slots (cache_lookup g d b (some buf)).1) store := by
  by_cases hr : (cache_lookup g d b (some buf)).2.1 = 1
  · obtain ⟨tbl, i, hi, hc, _, _, _, hres⟩ := cache_lookup_hit g d b buf hr
    simp only [slots, hres, hc, Option.getD_some] at h ⊢
    intro x hx
    rcases List.mem_or_eq_of_mem_set hx with h1 | h1
    · exact h x h1
    · rw [h1]
      intro d1 b1 hk
      exact h _ (List.getElem_mem hi) d1 b1 hk
  · simp only [slots, (cache_lookup_miss g d b buf hr).2.1]
    exact h

theorem KeysUnique_lookup (g : CacheGlobals) (d b : Int) (buf : Bytes)
    (h : KeysUnique (slots g)) : KeysUnique (slots (cache_lookup g d b (some buf)).1) := by
  by_cases hr : (cache_lookup g d b (some buf)).2.1 = 1
  · obtain ⟨tbl, i, hi, hc, _, _, _, hres⟩ := cache_lookup_hit g d b buf hr
    simp only [slots, hres, hc, Option.getD_some] at h ⊢
    exact KeysUnique_of_keys _ _ (keys_set_touch tbl i hi).symm h
  · simp only [slots, (cache_lookup_miss g d b buf hr).2.1]
    exact h

theorem slots_cache_update (g : CacheGlobals) (d b : Int) (buf : Bytes) :
    slots (cache_update g d b buf) = cache_update_loop d b buf (slots g) := by
  unfold cache_update slots
  cases hc : g.cache <;> simp [hc, cache_update_loop]

theorem cache_update_loop_mem (d b : Int) (buf : Bytes) (tbl : List cache_entry_t)
    (x : cache_entry_t) (hx : x ∈ cache_update_loop d b buf tbl) :
    x ∈ tbl ∨ ∃ e ∈ tbl, holds_key e d b ∧ x = refresh_entry buf e := by
  induction tbl with
  | nil => simp [cache_update_loop] at hx
  | cons e rest ih =>
    cases hm : entry_matches e d b with
    | true =>
      simp only [cache_update_loop, hm, if_true, List.mem_cons] at hx
      rcases hx with h1 | h1
      · exact Or.inr ⟨e, List.mem_cons_self _ _, (entry_matches_iff e d b).1 hm, h1⟩
      · exact Or.inl (List.mem_cons_of_mem _ h1)
    | false =>
      simp only [cache_update_loop, hm, Bool.false_eq_true, if_false, List.mem_cons] at hx
      rcases hx with h1 | h1
      · exact Or.inl (by rw [h1]; exact List.mem_cons_self _ _)
      · rcases ih h1 with h2 | ⟨e2, he2, hk2, hx2⟩
        · exact Or.inl (List.mem_cons_of_mem _ h2)
        · exact Or.inr ⟨e2, List.mem_cons_of_mem _ he2, hk2, hx2⟩

theorem CoherentFrom_update (cur : Nat) (tbl : List cache_entry_t)
    (store store1 : Nat → Nat → Bytes) (buf : Bytes)
    (h : CoherentFrom cur tbl store)
    (hst : ∀ d b : Nat, ¬ (d = cur / 256 ∧ b = cur % 256) → store1 d b = store d b) :
    CoherentFrom (cur + 1)
      (cache_update_loop ((cur / 256 : Nat) : Int) ((cur % 256 : Nat) : Int) buf tbl)
      store1 := by
  intro x hx d b hk hb hcur o ho
  have hne : ¬ (d = cur / 256 ∧ b = cur % 256) := by omega
  rw [hst d b hne]
  rcases cache_update_loop_mem _ _ _ _ x hx with h1 | ⟨e, _, hke, hxe⟩
  · exact h x h1 d b hk hb (by omega) o ho
  · exfalso
    rw [hxe] at hk
    obtain ⟨_, h2, h3⟩ := hk
    obtain ⟨_, h4, h5⟩ := hke
    simp only [refresh_entry] at h2 h3
    omega

theorem Coherent_update (tbl : List cache_entry_t) (store store1 : Nat → Nat → Bytes)
    (d0 b0 : Nat) (buf : Bytes) (hu : KeysUnique tbl) (h : Coherent tbl store)
    (hst : ∀ d b : Nat, ¬ (d = d0 ∧ b = b0) → store1 d b = store d b)
    (hnew : ∀ o : Nat, o < 256 → store1 d0 b0 o = buf o) :
    Coherent (cache_update_loop (d0 : Int) (b0 : Int) buf tbl) store1 := by
  by_cases hex : ∀ e ∈ tbl, ¬ holds_key e (d0 : Int) (b0 : Int)
  · rw [cache_update_loop_miss _ _ _ _ hex]
    intro x hx d b hk o ho
    have hne : ¬ (d = d0 ∧ b = b0) := by
      rintro ⟨h1, h2⟩
      rw [h1, h2] at hk
      exact hex x hx hk
    rw [hst d b hne]
    exact h x hx d b hk o ho
  · have hex2 : ∃ (j : Nat) (hj : j < tbl.length), holds_key tbl[j] (d0 : Int) (b0 : Int) ∧
        ∀ (i : Nat) (hi : i < j), ¬ holds_key tbl[i] (d0 : Int) (b0 : Int) := by
      have hne : cache_lookup_loop (d0 : Int) (b0 : Int) (fun _ => 0) tbl ≠ none := by
        intro hn
        exact hex ((cache_lookup_loop_none _ _ _ _).1 hn)
      cases hl : cache_lookup_loop (d0 : Int) (b0 : Int) (fun _ => 0) tbl with
      | none => exact absurd hl hne
      | some r =>
        obtain ⟨o1, t1⟩ := r
        obtain ⟨j, hj, hm, hfirst, _, _⟩ := cache_lookup_loop_some _ _ _ _ o1 t1 hl
        exact ⟨j, hj, hm, hfirst⟩
    obtain ⟨j, hj, hm, hfirst⟩ := hex2
    rw [cache_update_loop_hit _ _ buf tbl j hj hm hfirst]
    intro x hx d b hk o ho
    obtain ⟨i, hi, hxi⟩ := List.getElem_of_mem hx
    have hi2 : i < tbl.length := by simpa using hi
    rw [List.getElem_set] at hxi
    by_cases hji : j = i
    · rw [if_pos hji] at hxi
      rw [← hxi] at hk ⊢
      obtain ⟨_, h2, h3⟩ := hk
      obtain ⟨_, h4, h5⟩ := hm
      simp only [refresh_entry] at h2 h3
      have h6 : d = d0 := by omega
      have h7 : b = b0 := by omega
      rw [h6, h7, hnew o ho]
      simp [refresh_entry, memcpy, JBOD_BLOCK_SIZE, ho]
    · rw [if_neg hji] at hxi
      rw [← hxi] at hk ⊢
      have hne : ¬ (d = d0 ∧ b = b0) := by
        rintro ⟨h1, h2⟩
        rw [h1, h2] at hk
        exact hji (hu j i hj hi2 hm.1 hk.1 (by rw [hm.2.1, hk.2.1]) (by rw [hm.2.2, hk.2.2]))
      rw [hst d b hne]
      exact h _ (List.getElem_mem hi2) d b hk o ho

/-! ## The loop of `mdadm_write` -/

theorem write_fetch_hit (s : State) (l : WriteLocals)
    (hr : (cache_lookup s.cache ((l.current_block / 256 : Nat) : Int)
      ((l.current_block % 256 : Nat) : Int) (some l.temp_buf)).2.1 = 1) :
    write_fetch s l =
      ({ s with cache := (cache_lookup s.cache ((l.current_block / 256 : Nat) : Int)
            ((l.current_block % 256 : Nat) : Int) (some l.temp_buf)).1 },
       some ((cache_lookup s.cache ((l.current_block / 256 : Nat) : Int)
            ((l.current_block % 256 : Nat) : Int) (some l.temp_buf)).2.2.getD l.temp_buf)) := by
  simp only [write_fetch, JBOD_NUM_BLOCKS_PER_DISK, hr, ne_eq, not_true_eq_false, if_false]

theorem write_fetch_miss (s : State) (l : WriteLocals) (hf : Faithful s.net)
    (hcur : l.current_block < 4096)
    (hr : (cache_lookup s.cache ((l.current_block / 256 : Nat) : Int)
      ((l.current_block % 256 : Nat) : Int) (some l.temp_buf)).2.1 ≠ 1) :
    write_fetch s l =
      ({ s with
          cache := (cache_lookup s.cache ((l.current_block / 256 : Nat) : Int)
            ((l.current_block % 256 : Nat) : Int) (some l.temp_buf)).1,
          net :=
            { cli_sd := s.net.cli_sd,
              server := { store := s.net.server.store, cur_disk := l.current_block / 256,
                          cur_block := l.current_block % 256 },
              refuse := [],
              oplog := s.net.oplog ++ [4 + 64 * (l.current_block / 256)] ++
                [5 + 1024 * (l.current_block % 256)] ++ [6] } },
       some (fetched s.net.server.store (l.current_block / 256) (l.current_block % 256)
          l.temp_buf)) := by
  have hd : l.current_block / 256 < 16 := by omega
  have hb : l.current_block % 256 < 256 := by omega
  have hbuf := (cache_lookup_miss _ _ _ _ hr).1
  simp only [write_fetch, JBOD_NUM_BLOCKS_PER_DISK, hr, ne_eq, not_false_eq_true, if_true,
    jbod_seek_and_read s.net hf _ _ hd hb, Bool.false_eq_true, if_false, hbuf,
    Option.getD_some]

/-- The first half of the loop body of `mdadm_write` on a faithful connection, with a
cache that agrees with the store on the current block: it never fails, `temp_buf` then
holds the block of the store, and only the lookup has touched the cache. -/
theorem write_fetch_spec (s : State) (l : WriteLocals) (hf : Faithful s.net)
    (hco : CoherentFrom l.current_block (slots s.cache) s.net.server.store)
    (hcur : l.current_block < 4096) :
    ∃ temp : Bytes, (write_fetch s l).2 = some temp ∧
      (∀ o : Nat, o < 256 →
        temp o = s.net.server.store (l.current_block / 256) (l.current_block % 256) o) ∧
      Faithful (write_fetch s l).1.net ∧
      (write_fetch s l).1.net.server.store = s.net.server.store ∧
      (write_fetch s l).1.cache =
        (cache_lookup s.cache ((l.current_block / 256 : Nat) : Int)
          ((l.current_block % 256 : Nat) : Int) (some l.temp_buf)).1 ∧
      (write_fetch s l).1.is_mounted = s.is_mounted ∧
      (write_fetch s l).1.is_written = s.is_written := by
  by_cases hr : (cache_lookup s.cache ((l.current_block / 256 : Nat) : Int)
      ((l.current_block % 256 : Nat) : Int) (some l.temp_buf)).2.1 = 1
  · obtain ⟨tbl, i, hi, hc, hk, _, hout, _⟩ := cache_lookup_hit _ _ _ _ hr
    rw [write_fetch_hit s l hr]
    refine ⟨_, rfl, ?_, hf, rfl, rfl, rfl, rfl⟩
    intro o ho
    rw [hout]
    simp only [Option.getD_some]
    rw [memcpy_block _ _ o (by simpa [JBOD_BLOCK_SIZE] using ho)]
    have hmem : tbl[i] ∈ slots s.cache := by
      simp only [slots, hc, Option.getD_some]; exact List.getElem_mem hi
    exact hco _ hmem _ _ hk (by omega) (by omega) o ho
  · rw [write_fetch_miss s l hf hcur hr]
    exact ⟨_, rfl, fun o ho => fetched_block _ _ _ _ o ho, ⟨hf.1, rfl, rfl⟩, rfl, rfl, rfl, rfl⟩

/-- The second half of the loop body of `mdadm_write` on a faithful connection. -/
theorem write_through_eq (s : State) (l : WriteLocals) (hf : Faithful s.net)
    (hcur : l.current_block < 4096) :
    write_through s l =
      ({ s with
          net :=
            { cli_sd := s.net.cli_sd,
              server :=
                { store := fun d1 b1 =>
                    if d1 = l.current_block / 256 ∧ b1 = l.current_block % 256 then
                      bytes_of (block_bytes (memcpy l.temp_buf l.offset_within_block
                        l.write_buf l.write_pos
                        (bytes_to_copy l.offset_within_block l.write_len)))
                    else s.net.server.store d1 b1,
                  cur_disk := l.current_block / 256, cur_block := l.current_block % 256 },
              refuse := [],
              oplog := s.net.oplog ++ [4 + 64 * (l.current_block / 256)] ++
                [5 + 1024 * (l.current_block % 256)] ++ [7] },
          cache := cache_update s.cache ((l.current_block / 256 : Nat) : Int)
            ((l.current_block % 256 : Nat) : Int)
            (memcpy l.temp_buf l.offset_within_block l.write_buf l.write_pos
              (bytes_to_copy l.offset_within_block l.write_len)) },
       some
        { write_len := l.write_len - bytes_to_copy l.offset_within_block l.write_len,
          write_buf := l.write_buf,
          write_pos := l.write_pos + bytes_to_copy l.offset_within_block l.write_len,
          temp_buf := memcpy l.temp_buf l.offset_within_block l.write_buf l.write_pos
            (bytes_to_copy l.offset_within_block l.write_len),
          current_block := l.current_block + 1,
          offset_within_block := 0,
          written := l.written +
            ((bytes_to_copy l.offset_within_block l.write_len : Nat) : Int) }) := by
  have hd : l.current_block / 256 < 16 := by omega
  have hb : l.current_block % 256 < 256 := by omega
  simp only [write_through, JBOD_NUM_BLOCKS_PER_DISK,
    jbod_seek_and_write s.net hf _ _ hd hb, Bool.false_eq_true, if_false]

/-- One block written through by `mdadm_write`, followed by the rest of the transfer,
changes the store as the transfer from the current position does. -/
theorem write_step_bytes (st st1 : Nat → Nat → Bytes) (wbuf temp : Bytes)
    (cur off len pos n addr : Nat) (hoff : off < 256)
    (hn : n = if 256 - off < len then 256 - off else len)
    (hblock : ∀ x : Nat, x < 256 → temp x = st (cur / 256) (cur % 256) x)
    (hst1 : ∀ d b : Nat, st1 d b =
      if d = cur / 256 ∧ b = cur % 256 then
        bytes_of (block_bytes (memcpy temp off wbuf pos n))
      else st d b) :
    (if (cur + 1) * 256 + 0 ≤ addr ∧ addr < (cur + 1) * 256 + 0 + (len - n) then
        wbuf (pos + n + (addr - ((cur + 1) * 256 + 0)))
      else store_byte st1 addr) =
    (if cur * 256 + off ≤ addr ∧ addr < cur * 256 + off + len then
        wbuf (pos + (addr - (cur * 256 + off)))
      else store_byte st addr) := by
  by_cases c1 : (cur + 1) * 256 + 0 ≤ addr ∧ addr < (cur + 1) * 256 + 0 + (len - n)
  · have c2 : cur * 256 + off ≤ addr ∧ addr < cur * 256 + off + len := by
      split at hn <;> omega
    have c3 : pos + n + (addr - ((cur + 1) * 256 + 0)) = pos + (addr - (cur * 256 + off)) := by
      split at hn <;> omega
    rw [if_pos c1, if_pos c2, c3]
  · rw [if_neg c1]
    by_cases c4 : addr / 256 = cur
    · have c5 : addr / 65536 = cur / 256 ∧ addr / 256 % 256 = cur % 256 := by omega
      have c6 : addr % 256 < 256 := by omega
      unfold store_byte
      rw [hst1, if_pos c5, bytes_of_block_bytes _ _ c6]
      unfold memcpy
      by_cases c7 : off ≤ addr % 256 ∧ addr % 256 < off + n
      · have c2 : cur * 256 + off ≤ addr ∧ addr < cur * 256 + off + len := by
          split at hn <;> omega
        have c8 : pos + (addr % 256 - off) = pos + (addr - (cur * 256 + off)) := by omega
        rw [if_pos c7, if_pos c2, c8]
      · have c2 : ¬ (cur * 256 + off ≤ addr ∧ addr < cur * 256 + off + len) := by
          split at hn <;> omega
        rw [if_neg c7, if_neg c2, hblock _ c6, c5.1, c5.2]
    · have c5 : ¬ (addr / 65536 = cur / 256 ∧ addr / 256 % 256 = cur % 256) := by omega
      have c2 : ¬ (cur * 256 + off ≤ addr ∧ addr < cur * 256 + off + len) := by
        split at hn <;> omega
      unfold store_byte
      rw [hst1, if_neg c5, if_neg c2]

theorem mdadm_write_loop_succ (k : Nat) (s s2 : State) (l l2 : WriteLocals) (temp : Bytes)
    (h1 : (write_fetch s l).2 = some temp)
    (h2 : write_through (write_fetch s l).1 { l with temp_buf := temp } = (s2, some l2)) :
    mdadm_write_loop (k + 1) s l = mdadm_write_loop k s2 l2 := by
  have hrf : write_fetch s l = ((write_fetch s l).1, some temp) := Prod.ext rfl h1
  rw [mdadm_write_loop, hrf]
  simp only [h2]

/-- One iteration of the loop of `mdadm_write` on a faithful connection: it does not fail,
writes the block with the caller's bytes spliced in, and keeps the cache in agreement with
the store on the blocks still to come (and on all blocks when no key is held twice). -/
theorem write_body_spec (s : State) (l : WriteLocals) (hf : Faithful s.net)
    (hco : CoherentFrom l.current_block (slots s.cache) s.net.server.store)
    (hcur : l.current_block < 4096) :
    ∃ (s2 : State) (l2 : WriteLocals) (n : Nat) (temp : Bytes),
      (n = if 256 - l.offset_within_block < l.write_len then 256 - l.offset_within_block
        else l.write_len) ∧
      (∀ k : Nat, mdadm_write_loop (k + 1) s l = mdadm_write_loop k s2 l2) ∧
      l2.write_len = l.write_len - n ∧ l2.write_buf = l.write_buf ∧
      l2.write_pos = l.write_pos + n ∧ l2.current_block = l.current_block + 1 ∧
      l2.offset_within_block = 0 ∧ l2.written = l.written + (n : Int) ∧
      Faithful s2.net ∧
      (∀ x : Nat, x < 256 →
        temp x = s.net.server.store (l.current_block / 256) (l.current_block % 256) x) ∧
      (∀ d b : Nat, s2.net.server.store d b =
        if d = l.current_block / 256 ∧ b = l.current_block % 256 then
          bytes_of (block_bytes (memcpy temp l.offset_within_block l.write_buf l.write_pos n))
        else s.net.server.store d b) ∧
      CoherentFrom (l.current_block + 1) (slots s2.cache) s2.net.server.store ∧
      (KeysUnique (slots s.cache) → Coherent (slots s.cache) s.net.server.store →
        KeysUnique (slots s2.cache) ∧ Coherent (slots s2.cache) s2.net.server.store) ∧
      s2.is_mounted = s.is_mounted ∧ s2.is_written = s.is_written := by
  obtain ⟨temp, htemp, hblock, hf1, hst1, hc1, hm1, hw1⟩ := write_fetch_spec s l hf hco hcur
  have hwt := write_through_eq (write_fetch s l).1 { l with temp_buf := temp } hf1 hcur
  have hstore : ∀ d b : Nat,
      (if d = l.current_block / 256 ∧ b = l.current_block % 256 then
          bytes_of (block_bytes (memcpy temp l.offset_within_block l.write_buf l.write_pos
            (bytes_to_copy l.offset_within_block l.write_len)))
        else (write_fetch s l).1.net.server.store d b) =
      (if d = l.current_block / 256 ∧ b = l.current_block % 256 then
          bytes_of (block_bytes (memcpy temp l.offset_within_block l.write_buf l.write_pos
            (bytes_to_copy l.offset_within_block l.write_len)))
        else s.net.server.store d b) := by
    intro d b; rw [hst1]
  have hother : ∀ d b : Nat, ¬ (d = l.current_block / 256 ∧ b = l.current_block % 256) →
      (if d = l.current_block / 256 ∧ b = l.current_block % 256 then
          bytes_of (block_bytes (memcpy temp l.offset_within_block l.write_buf l.write_pos
            (bytes_to_copy l.offset_within_block l.write_len)))
        else (write_fetch s l).1.net.server.store d b) = s.net.server.store d b := by
    intro d b hne; rw [if_neg hne, hst1]
  refine ⟨_, _, bytes_to_copy l.offset_within_block l.write_len, temp, bytes_to_copy_eq _ _,
    fun k => mdadm_write_loop_succ k s _ l _ temp htemp hwt, rfl, rfl, rfl, rfl, rfl, rfl,
    ⟨hf1.1, rfl, rfl⟩, hblock, hstore, ?_, ?_, hm1, hw1⟩
  · show CoherentFrom (l.current_block + 1) (slots (cache_update _ _ _ _)) _
    rw [slots_cache_update, hc1]
    apply CoherentFrom_update l.current_block _ s.net.server.store
    · exact CoherentFrom_lookup _ _ _ _ _ _ hco
    · exact hother
  · intro hu hcoh
    constructor
    · show KeysUnique (slots (cache_update _ _ _ _))
      rw [slots_cache_update, hc1]
      exact KeysUnique_of_keys _ _ (cache_update_loop_keys _ _ _ _).symm
        (KeysUnique_lookup _ _ _ _ hu)
    · show Coherent (slots (cache_update _ _ _ _)) _
      rw [slots_cache_update, hc1]
      apply Coherent_update _ s.net.server.store
      · exact KeysUnique_lookup _ _ _ _ hu
      · exact Coherent_lookup _ _ _ _ _ hcoh
      · exact hother
      · intro o ho
        dsimp only
        rw [if_pos ⟨rfl, rfl⟩, bytes_of_block_bytes _ o ho]

/-- The loop of `mdadm_write` on a faithful connection, from any point of the transfer:
it returns `written` plus the remaining length, and afterwards the store holds the
caller's bytes at the logical addresses from the current position on and is unchanged at
every other logical address. With `U`, a cache without a key held twice that agrees with
the store is again such a cache afterwards. -/
theorem mdadm_write_loop_correct (U : Prop) (k : Nat) : ∀ (s : State) (l : WriteLocals),
    Faithful s.net →
    CoherentFrom l.current_block (slots s.cache) s.net.server.store →
    (U → KeysUnique (slots s.cache) ∧ Coherent (slots s.cache) s.net.server.store) →
    l.offset_within_block < 256 →
    l.current_block * 256 + l.offset_within_block + l.write_len ≤ 1048576 →
    (k = 0 → l.write_len = 0) →
    (0 < k → 0 < l.write_len ∧
      (l.current_block * 256 + l.offset_within_block + l.write_len - 1) / 256 + 1
        - l.current_block = k) →
    (mdadm_write_loop k s l).2.1 = l.written + (l.write_len : Int) ∧
    (∀ addr : Nat, store_byte (mdadm_write_loop k s l).1.net.server.store addr =
      if l.current_block * 256 + l.offset_within_block ≤ addr ∧
          addr < l.current_block * 256 + l.offset_within_block + l.write_len then
        l.write_buf (l.write_pos + (addr - (l.current_block * 256 + l.offset_within_block)))
      else store_byte s.net.server.store addr) ∧
    Faithful (mdadm_write_loop k s l).1.net ∧
    (U → KeysUnique (slots (mdadm_write_loop k s l).1.cache) ∧
      Coherent (slots (mdadm_write_loop k s l).1.cache)
        (mdadm_write_loop k s l).1.net.server.store) ∧
    (mdadm_write_loop k s l).1.is_mounted = s.is_mounted ∧
    (mdadm_write_loop k s l).1.is_written = s.is_written := by
  induction k with
  | zero =>
    intro s l hf _ hU _ _ h0 _
    have hz := h0 rfl
    refine ⟨?_, ?_, hf, hU, rfl, rfl⟩
    · simp [mdadm_write_loop, hz]
    · intro addr
      have : ¬ (l.current_block * 256 + l.offset_within_block ≤ addr ∧
          addr < l.current_block * 256 + l.offset_within_block + l.write_len) := by omega
      rw [if_neg this]
      rfl
  | succ k ih =>
    intro s l hf hco hU hoff hend _ hk
    obtain ⟨hlen, hspan⟩ := hk (by omega)
    have hcur : l.current_block < 4096 := by omega
    obtain ⟨s2, l2, n, temp, hn, hloop, e1, e2, e3, e4, e5, e6, hf2, hblock, hst2, hco2, hU2,
      hm2, hw2⟩ := write_body_spec s l hf hco hcur
    rw [hloop k]
    have ih1 := ih s2 l2 hf2 (by rw [e4]; exact hco2)
      (fun u => hU2 (hU u).1 (hU u).2)
      (by rw [e5]; omega)
      (by rw [e4, e5, e1]; split at hn <;> omega)
      (by intro hk0; rw [e1]; split at hn <;> omega)
      (by intro hk0; rw [e4, e5, e1]; split at hn <;> omega)
    obtain ⟨r1, r2, r3, r4, r5, r6⟩ := ih1
    refine ⟨?_, ?_, r3, r4, by rw [r5, hm2], by rw [r6, hw2]⟩
    · rw [r1, e6, e1]
      split at hn <;> omega
    · intro addr
      rw [r2 addr, e1, e2, e3, e4, e5]
      exact write_step_bytes s.net.server.store s2.net.server.store l.write_buf temp
        l.current_block l.offset_within_block l.write_len l.write_pos n addr hoff hn hblock
        hst2

theorem mdadm_write_accept (s : State) (start_addr write_len : Nat) (buf : Bytes)
    (hm : s.is_mounted ≠ 0) (hw : s.is_written ≠ 0) (h1 : 1 ≤ write_len)
    (h2 : write_len ≤ 1024) (h3 : start_addr + write_len ≤ 1048576) :
    mdadm_write s start_addr write_len (some buf) =
      ((mdadm_write_loop (block_span start_addr write_len) s
          (write_locals start_addr write_len buf)).1,
       (mdadm_write_loop (block_span start_addr write_len) s
          (write_locals start_addr write_len buf)).2.1) := by
  have hla := last_addr_eq start_addr write_len h1 h3
  have c0 : ¬ (s.is_mounted = 0 ∨ s.is_written = 0) := by
    rintro (h | h)
    · exact hm h
    · exact hw h
  have c1 : ¬ ((some buf).isNone = true ∧ write_len > 0) := by simp
  have c2 : ¬ write_len = 0 := by omega
  have c3 : ¬ write_len > 1024 := by omega
  have c4 : ¬ (start_addr > last_possible_addr ∨
      last_addr start_addr write_len > last_possible_addr) := by
    rw [hla]
    simp only [last_possible_addr, JBOD_NUM_DISKS, JBOD_DISK_SIZE]
    omega
  unfold mdadm_write
  rw [if_neg c0, if_neg c1, if_neg c2, if_neg c3, if_neg c4]

/-- The whole of an accepted `mdadm_write` on a faithful connection with a cache that
agrees with the store. -/
theorem mdadm_write_correct (U : Prop) (s : State) (start_addr write_len : Nat) (buf : Bytes)
    (hm : s.is_mounted ≠ 0) (hw : s.is_written ≠ 0) (hf : Faithful s.net)
    (hco : Coherent (slots s.cache) s.net.server.store)
    (hU : U → KeysUnique (slots s.cache))
    (h1 : 1 ≤ write_len) (h2 : write_len ≤ 1024) (h3 : start_addr + write_len ≤ 1048576) :
    (mdadm_write s start_addr write_len (some buf)).2 = (write_len : Int) ∧
    (∀ addr : Nat,
      store_byte (mdadm_write s start_addr write_len (some buf)).1.net.server.store addr =
        if start_addr ≤ addr ∧ addr < start_addr + write_len then buf (addr - start_addr)
        else store_byte s.net.server.store addr) ∧
    Faithful (mdadm_write s start_addr write_len (some buf)).1.net ∧
    (U → KeysUnique (slots (mdadm_write s start_addr write_len (some buf)).1.cache) ∧
      Coherent (slots (mdadm_write s start_addr write_len (some buf)).1.cache)
        (mdadm_write s start_addr write_len (some buf)).1.net.server.store) ∧
    (mdadm_write s start_addr write_len (some buf)).1.is_mounted = s.is_mounted ∧
    (mdadm_write s start_addr write_len (some buf)).1.is_written = s.is_written := by
  have hla := last_addr_eq start_addr write_len h1 h3
  have hspan : block_span start_addr write_len =
      (start_addr + write_len - 1) / 256 + 1 - start_addr / 256 := by
    simp only [block_span, hla, JBOD_BLOCK_SIZE]
  have hpos : start_addr / 256 * 256 + start_addr % 256 = start_addr := by omega
  obtain ⟨r1, r2, r3, r4, r5, r6⟩ := mdadm_write_loop_correct U
    (block_span start_addr write_len) s (write_locals start_addr write_len buf) hf
    (CoherentFrom_of_Coherent _ _ _ hco) (fun u => ⟨hU u, hco⟩)
    (by simp only [write_locals, JBOD_BLOCK_SIZE]; omega)
    (by simp only [write_locals, JBOD_BLOCK_SIZE]; omega)
    (by intro h0; rw [hspan] at h0; omega)
    (by intro _
        simp only [write_locals, JBOD_BLOCK_SIZE]
        rw [hspan, hpos]
        omega)
  rw [mdadm_write_accept s start_addr write_len buf hm hw h1 h2 h3]
  refine ⟨?_, ?_, r3, r4, r5, r6⟩
  · rw [r1]; simp [write_locals]
  · intro addr
    rw [r2 addr]
    simp only [write_locals, JBOD_BLOCK_SIZE]
    rw [hpos]
    simp

/-- C3. `mdadm_write` is a read-modify-write that changes only the addressed bytes of the
remote store. On a faithful connection, with a cache whose valid entries agree with the
store (or no cache), in a mounted and writable session, for `1 <= write_len <= 1024` and
`start_addr + write_len <= 1048576`: `mdadm_write` returns `write_len`; afterwards the
store byte at logical address `start_addr + i` is `buf[i]` for every `i < write_len`, and
the store byte at every logical address outside `[start_addr, start_addr + write_len)` is
the same as before the call. -/
theorem mdadm_write_frame (s : State) (start_addr write_len : Nat) (buf : Bytes)
    (hm : s.is_mounted ≠ 0) (hw : s.is_written ≠ 0) (hf : Faithful s.net)
    (hco : Coherent (slots s.cache) s.net.server.store)
    (h1 : 1 ≤ write_len) (h2 : write_len ≤ 1024) (h3 : start_addr + write_len ≤ 1048576) :
    (mdadm_write s start_addr write_len (some buf)).2 = (write_len : Int) ∧
    (∀ i : Nat, i < write_len →
      store_byte (mdadm_write s start_addr write_len (some buf)).1.net.server.store
        (start_addr + i) = buf i) ∧
    (∀ addr : Nat, ¬ (start_addr ≤ addr ∧ addr < start_addr + write_len) →
      store_byte (mdadm_write s start_addr write_len (some buf)).1.net.server.store addr =
        store_byte s.net.server.store addr) := by
  obtain ⟨r1, r2, _⟩ := mdadm_write_correct False s start_addr write_len buf hm hw hf hco
    (fun u => absurd u id) h1 h2 h3
  refine ⟨r1, ?_, ?_⟩
  · intro i hi
    rw [r2 (start_addr + i), if_pos (by omega)]
    congr 1
    omega
  · intro addr hout
    rw [r2 addr, if_neg hout]

theorem demo_cached_reachable : CacheReachable demo_cached_session.cache :=
  CacheReachable.insert _ 0 1 _ (CacheReachable.create cache_initial 2 true (by decide))

theorem demo_cached_coherent :
    Coherent (slots demo_cached_session.cache) demo_cached_session.net.server.store := by
  have h := Coherent_insert (cache_create cache_initial 2 true).1 demo_server.store 0 1
    (demo_server.store 0 1)
    (by intro e he
        simp only [slots, cache_create_ok cache_initial 2 true (by decide),
          Option.getD_some, List.mem_replicate] at he
        intro d b hk
        rw [he.2] at hk
        exact absurd hk.1 (by simp [zero_entry]))
    (fun _ _ => rfl)
  exact h

set_option maxRecDepth 100000 in
theorem mdadm_read_flat_witness :
    (mdadm_read demo_cached_session 100 600 (some (fun _ => 0))).2.1 = 600 ∧
    (∃ out : Bytes,
      (mdadm_read demo_cached_session 100 600 (some (fun _ => 0))).2.2 = some out ∧
      ∀ i : Nat, i < 600 →
        out i = demo_cached_session.net.server.store ((100 + i) / 65536)
          ((100 + i) / 256 % 256) ((100 + i) % 256)) ∧
    (mdadm_read_loop (block_span 100 600) demo_cached_session
      (read_locals 100 600 (fun _ => 0))).2.2.read_len = 0 ∧
    (spec_block_counts ((100 + 600 - 1) / 256 + 1 - 100 / 256) (100 % 256) 600).sum = 600 :=
  mdadm_read_flat demo_cached_session 100 600 (fun _ => 0) (by decide) ⟨by decide, rfl, rfl⟩
    demo_cached_coherent (by decide) (by decide) (by decide)

set_option maxRecDepth 100000 in
theorem mdadm_write_frame_witness :
    (mdadm_write demo_cached_session 100 600 (some demo_bytes)).2 = 600 ∧
    (∀ i : Nat, i < 600 →
      store_byte (mdadm_write demo_cached_session 100 600 (some demo_bytes)).1.net.server.store
        (100 + i) = demo_bytes i) ∧
    (∀ addr : Nat, ¬ (100 ≤ addr ∧ addr < 100 + 600) →
      store_byte (mdadm_write demo_cached_session 100 600 (some demo_bytes)).1.net.server.store
        addr = store_byte demo_cached_session.net.server.store addr) ∧
    store_byte (mdadm_write demo_cached_session 100 600 (some demo_bytes)).1.net.server.store
      99 = 99 ∧
    store_byte (mdadm_write demo_cached_session 100 600 (some demo_bytes)).1.net.server.store
      100 = 3 ∧
    store_byte (mdadm_write demo_cached_session 100 600 (some demo_bytes)).1.net.server.store
      699 = 100 ∧
    store_byte (mdadm_write demo_cached_session 100 600 (some demo_bytes)).1.net.server.store
      700 = 190 :=
  ⟨(mdadm_write_frame demo_cached_session 100 600 demo_bytes (by decide) (by decide)
      ⟨by decide, rfl, rfl⟩ demo_cached_coherent (by decide) (by decide) (by decide)).1,
   (mdadm_write_frame demo_cached_session 100 600 demo_bytes (by decide) (by decide)
      ⟨by decide, rfl, rfl⟩ demo_cached_coherent (by decide) (by decide) (by decide)).2.1,
   (mdadm_write_frame demo_cached_session 100 600 demo_bytes (by decide) (by decide)
      ⟨by decide, rfl, rfl⟩ demo_cached_coherent (by decide) (by decide) (by decide)).2.2,
   by decide, by decide, by decide, by decide⟩

/-! ## Write, then read -/

theorem jbod_server_revoke (sv : Server) :
    jbod_server sv false (send_packet JBOD_REVOKE_WRITE_PERMISSION none) =
      (sv, htonl 3 ++ [0]) := by
  simp [send_packet, jbod_server, JBOD_REVOKE_WRITE_PERMISSION, ntohl_htonl 3 (by omega),
    JBOD_SEEK_TO_DISK, JBOD_SEEK_TO_BLOCK, JBOD_READ_BLOCK, JBOD_WRITE_BLOCK]

/-- The function `mdadm_revoke_write_permission` on a faithful connection. -/
theorem mdadm_revoke_faithful (s : State) (hf : Faithful s.net) :
    mdadm_revoke_write_permission s =
      ({ s with
          net := { cli_sd := s.net.cli_sd, server := s.net.server, refuse := [],
                   oplog := s.net.oplog ++ [JBOD_REVOKE_WRITE_PERMISSION] },
          is_written := 0 }, 1) := by
  obtain ⟨hc, hr, hw⟩ := hf
  obtain ⟨op1, hrecv⟩ := recv_packet_header 3 0 (by decide) (fun _ => 0)
  have h := jbod_client_operation_reply s.net hc (by rw [hw]; rfl)
    JBOD_REVOKE_WRITE_PERMISSION none _ _
    (by rw [hr]; exact jbod_server_revoke s.net.server) op1 0 _ hrecv
  unfold mdadm_revoke_write_permission
  rw [h]
  simp [hr, hw]

/-- C1. Write-then-read round trip. On a faithful connection, in a mounted and writable
session, with every cache the program can have (no cache, or a table reached from a
successful `cache_create` by cache calls) whose valid entries agree with the store, for
`1 <= length <= 1024` with `start_addr + length <= 1048576` and every buffer `buf`:
`mdadm_write(start_addr, length, buf)` returns `length`, an immediately
following `mdadm_read(start_addr, length, out)` returns `length` with `out` equal to `buf`
byte for byte, and so does the read when `mdadm_revoke_write_permission` (which succeeds
and clears `is_written`) is called between the write and the read. -/
theorem mdadm_write_then_read (s : State) (start_addr length : Nat) (buf out0 : Bytes)
    (hm : s.is_mounted ≠ 0) (hw : s.is_written ≠ 0) (hf : Faithful s.net)
    (hl : CacheLegal s.cache)
    (hco : Coherent (slots s.cache) s.net.server.store)
    (h1 : 1 ≤ length) (h2 : length ≤ 1024) (h3 : start_addr + length ≤ 1048576) :
    (mdadm_write s start_addr length (some buf)).2 = (length : Int) ∧
    ((mdadm_read (mdadm_write s start_addr length (some buf)).1 start_addr length
        (some out0)).2.1 = (length : Int) ∧
      ∃ out : Bytes,
        (mdadm_read (mdadm_write s start_addr length (some buf)).1 start_addr length
          (some out0)).2.2 = some out ∧
        ∀ i : Nat, i < length → out i = buf i) ∧
    ((mdadm_revoke_write_permission (mdadm_write s start_addr length (some buf)).1).2 = 1 ∧
      (mdadm_revoke_write_permission
        (mdadm_write s start_addr length (some buf)).1).1.is_written = 0 ∧
      (mdadm_read
        (mdadm_revoke_write_permission (mdadm_write s start_addr length (some buf)).1).1
        start_addr length (some out0)).2.1 = (length : Int) ∧
      ∃ out : Bytes,
        (mdadm_read
          (mdadm_revoke_write_permission (mdadm_write s start_addr length (some buf)).1).1
          start_addr length (some out0)).2.2 = some out ∧
        ∀ i : Nat, i < length → out i = buf i) := by
  have hu : KeysUnique (slots s.cache) := CacheOk_unique _ (CacheLegal_ok _ hl)
  obtain ⟨w1, w2, w3, w4, w5, _⟩ := mdadm_write_correct True s start_addr length buf hm hw hf
    hco (fun _ => hu) h1 h2 h3
  obtain ⟨_, w4c⟩ := w4 trivial
  have hm1 : (mdadm_write s start_addr length (some buf)).1.is_mounted ≠ 0 := by
    rw [w5]; exact hm
  have hbytes : ∀ i : Nat, i < length →
      store_byte (mdadm_write s start_addr length (some buf)).1.net.server.store
        (start_addr + i) = buf i := by
    intro i hi
    rw [w2 (start_addr + i), if_pos (by omega)]
    congr 1
    omega
  refine ⟨w1, ?_, ?_⟩
  · obtain ⟨r1, ⟨out, r2, r3⟩, _⟩ := mdadm_read_correct
      (mdadm_write s start_addr length (some buf)).1 start_addr length out0 hm1 w3 w4c h1 h2 h3
    exact ⟨r1, out, r2, fun i hi => by rw [r3 i hi, hbytes i hi]⟩
  · rw [mdadm_revoke_faithful _ w3]
    obtain ⟨r1, ⟨out, r2, r3⟩, _⟩ := mdadm_read_correct
      { (mdadm_write s start_addr length (some buf)).1 with
          net :=
            { cli_sd := (mdadm_write s start_addr length (some buf)).1.net.cli_sd,
              server := (mdadm_write s start_addr length (some buf)).1.net.server,
              refuse := [],
              oplog := (mdadm_write s start_addr length (some buf)).1.net.oplog ++
                [JBOD_REVOKE_WRITE_PERMISSION] },
          is_written := 0 }
      start_addr length out0 hm1 ⟨w3.1, rfl, rfl⟩ w4c h1 h2 h3
    exact ⟨rfl, rfl, r1, out, r2, fun i hi => by rw [r3 i hi]; exact hbytes i hi⟩

set_option maxRecDepth 100000 in
theorem mdadm_write_then_read_witness :
    (mdadm_write demo_cached_session 100 600 (some demo_bytes)).2 = 600 ∧
    (mdadm_read
      (mdadm_revoke_write_permission
        (mdadm_write demo_cached_session 100 600 (some demo_bytes)).1).1
      100 600 (some (fun _ => 0))).2.1 = 600 ∧
    ∃ out : Bytes,
      (mdadm_read
        (mdadm_revoke_write_permission
          (mdadm_write demo_cached_session 100 600 (some demo_bytes)).1).1
        100 600 (some (fun _ => 0))).2.2 = some out ∧
      ∀ i : Nat, i < 600 → out i = demo_bytes i :=
  ⟨by decide,
   (mdadm_write_then_read demo_cached_session 100 600 demo_bytes (fun _ => 0) (by decide)
      (by decide) ⟨by decide, rfl, rfl⟩ (Or.inr demo_cached_reachable) demo_cached_coherent
      (by decide) (by decide) (by decide)).2.2.2.2.1,
   (mdadm_write_then_read demo_cached_session 100 600 demo_bytes (fun _ => 0) (by decide)
      (by decide) ⟨by decide, rfl, rfl⟩ (Or.inr demo_cached_reachable) demo_cached_coherent
      (by decide) (by decide) (by decide)).2.2.2.2.2⟩

/-! ## Rejected and accepted calls -/

theorem jbod_client_operation_oplog (n : Net) (op : Nat) (blk : Option Bytes) :
    (jbod_client_operation n op blk).1.oplog = n.oplog ++ [op] := by
  unfold jbod_client_operation
  dsimp only
  split
  · rfl
  · split
    · rfl
    · split <;> rfl

theorem jbod_seek_and_oplog (n : Net) (d b cmd : Nat) (temp : Bytes) :
    n.oplog.length < (jbod_seek_and n d b cmd temp).1.oplog.length := by
  unfold jbod_seek_and
  dsimp only
  split
  · simp [jbod_client_operation_oplog]
  · split
    · simp [jbod_client_operation_oplog]
    · simp [jbod_client_operation_oplog]

theorem read_fetch_oplog (s : State) (l : ReadLocals) :
    s.net.oplog.length ≤ (read_fetch s l).1.net.oplog.length ∧
    ((read_fetch s l).2 = none →
      s.net.oplog.length < (read_fetch s l).1.net.oplog.length) := by
  have h := jbod_seek_and_oplog s.net (l.current_block / JBOD_NUM_BLOCKS_PER_DISK)
    (l.current_block % JBOD_NUM_BLOCKS_PER_DISK) JBOD_READ_BLOCK
    ((cache_lookup s.cache ((l.current_block / JBOD_NUM_BLOCKS_PER_DISK : Nat) : Int)
      ((l.current_block % JBOD_NUM_BLOCKS_PER_DISK : Nat) : Int)
      (some l.temp_buf)).2.2.getD l.temp_buf)
  unfold read_fetch
  dsimp only
  split
  · split
    · exact ⟨Nat.le_of_lt h, fun _ => h⟩
    · exact ⟨Nat.le_of_lt h, fun hn => by simp at hn⟩
  · exact ⟨Nat.le_refl _, fun hn => by simp at hn⟩

theorem write_fetch_oplog (s : State) (l : WriteLocals) :
    s.net.oplog.length ≤ (write_fetch s l).1.net.oplog.length ∧
    ((write_fetch s l).2 = none →
      s.net.oplog.length < (write_fetch s l).1.net.oplog.length) := by
  have h := jbod_seek_and_oplog s.net (l.current_block / JBOD_NUM_BLOCKS_PER_DISK)
    (l.current_block % JBOD_NUM_BLOCKS_PER_DISK) JBOD_READ_BLOCK
    ((cache_lookup s.cache ((l.current_block / JBOD_NUM_BLOCKS_PER_DISK : Nat) : Int)
      ((l.current_block % JBOD_NUM_BLOCKS_PER_DISK : Nat) : Int)
      (some l.temp_buf)).2.2.getD l.temp_buf)
  unfold write_fetch
  dsimp only
  split
  · split
    · exact ⟨Nat.le_of_lt h, fun _ => h⟩
    · exact ⟨Nat.le_of_lt h, fun hn => by simp at hn⟩
  · exact ⟨Nat.le_refl _, fun hn => by simp at hn⟩

theorem write_through_oplog (s : State) (l : WriteLocals) :
    s.net.oplog.length < (write_through s l).1.net.oplog.length ∧
    ∀ l2 : WriteLocals, (write_through s l).2 = some l2 → l.written ≤ l2.written := by
  have h := jbod_seek_and_oplog s.net (l.current_block / JBOD_NUM_BLOCKS_PER_DISK)
    (l.current_block % JBOD_NUM_BLOCKS_PER_DISK) JBOD_WRITE_BLOCK
    (memcpy l.temp_buf l.offset_within_block l.write_buf l.write_pos
      (bytes_to_copy l.offset_within_block l.write_len))
  unfold write_through
  dsimp only
  split
  · exact ⟨h, fun l2 hn => by simp at hn⟩
  · refine ⟨h, fun l2 hn => ?_⟩
    simp only [Option.some.injEq] at hn
    rw [← hn]
    show l.written ≤ l.written + _
    omega

/-- A call of the loop of `mdadm_read` that returns -1 has called
`jbod_client_operation`, whatever the server and the cache do. -/
theorem mdadm_read_loop_log (k : Nat) : ∀ (s : State) (l : ReadLocals), 0 ≤ l.read →
    s.net.oplog.length ≤ (mdadm_read_loop k s l).1.net.oplog.length ∧
    ((mdadm_read_loop k s l).2.1 = -1 →
      s.net.oplog.length < (mdadm_read_loop k s l).1.net.oplog.length) := by
  induction k with
  | zero =>
    intro s l hr
    refine ⟨Nat.le_refl _, fun h => ?_⟩
    simp only [mdadm_read_loop] at h
    omega
  | succ k ih =>
    intro s l hr
    obtain ⟨h1, h2⟩ := read_fetch_oplog s l
    cases hrf : (read_fetch s l).2 with
    | none =>
      have heq : read_fetch s l = ((read_fetch s l).1, none) := Prod.ext rfl hrf
      rw [mdadm_read_loop, heq]
      exact ⟨h1, fun _ => h2 hrf⟩
    | some temp =>
      rw [mdadm_read_loop_succ k s l temp hrf]
      obtain ⟨h3, h4⟩ := ih (read_fetch s l).1 (read_advance { l with temp_buf := temp })
        (by show 0 ≤ l.read + _; omega)
      exact ⟨Nat.le_trans h1 h3, fun h => Nat.lt_of_le_of_lt h1 (h4 h)⟩

/-- A call of the loop of `mdadm_write` that returns -1 has called
`jbod_client_operation`, whatever the server and the cache do. -/
theorem mdadm_write_loop_log (k : Nat) : ∀ (s : State) (l : WriteLocals), 0 ≤ l.written →
    s.net.oplog.length ≤ (mdadm_write_loop k s l).1.net.oplog.length ∧
    ((mdadm_write_loop k s l).2.1 = -1 →
      s.net.oplog.length < (mdadm_write_loop k s l).1.net.oplog.length) := by
  induction k with
  | zero =>
    intro s l hr
    refine ⟨Nat.le_refl _, fun h => ?_⟩
    simp only [mdadm_write_loop] at h
    omega
  | succ k ih =>
    intro s l hr
    obtain ⟨h1, h2⟩ := write_fetch_oplog s l
    cases hrf : (write_fetch s l).2 with
    | none =>
      have heq : write_fetch s l = ((write_fetch s l).1, none) := Prod.ext rfl hrf
      rw [mdadm_write_loop, heq]
      exact ⟨h1, fun _ => h2 hrf⟩
    | some temp =>
      have heq : write_fetch s l = ((write_fetch s l).1, some temp) := Prod.ext rfl hrf
      obtain ⟨h5, h6⟩ := write_through_oplog (write_fetch s l).1 { l with temp_buf := temp }
      cases hwt : (write_through (write_fetch s l).1 { l with temp_buf := temp }).2 with
      | none =>
        have heq2 : write_through (write_fetch s l).1 { l with temp_buf := temp } =
            ((write_through (write_fetch s l).1 { l with temp_buf := temp }).1, none) :=
          Prod.ext rfl hwt
        rw [mdadm_write_loop, heq]
        dsimp only
        rw [heq2]
        exact ⟨Nat.le_of_lt (Nat.lt_of_le_of_lt h1 h5), fun _ => Nat.lt_of_le_of_lt h1 h5⟩
      | some l2 =>
        have heq2 : write_through (write_fetch s l).1 { l with temp_buf := temp } =
            ((write_through (write_fetch s l).1 { l with temp_buf := temp }).1, some l2) :=
          Prod.ext rfl hwt
        rw [mdadm_write_loop_succ k s _ l l2 temp hrf heq2]
        have hl2 : 0 ≤ l2.written := by
          have := h6 l2 hwt
          have h7 : ({ l with temp_buf := temp } : WriteLocals).written = l.written := rfl
          omega
        obtain ⟨h3, h4⟩ :=
          ih (write_through (write_fetch s l).1 { l with temp_buf := temp }).1 l2 hl2
        have h8 := Nat.lt_of_le_of_lt h1 h5
        exact ⟨by omega, fun h => by have := h4 h; omega⟩

theorem range_check_rejects (start_addr len : Nat) (hs : start_addr < 4294967296)
    (h1 : 1 ≤ len) (h2 : len ≤ 1024) (h3 : start_addr + len > 1048576) :
    start_addr > last_possible_addr ∨ last_addr start_addr len > last_possible_addr := by
  simp only [last_possible_addr, last_addr, JBOD_NUM_DISKS, JBOD_DISK_SIZE, UINT32_MOD]
  omega

theorem mdadm_read_reject (s : State) (start_addr len : Nat) (buf : Bytes)
    (hs : start_addr < 4294967296) (hm : s.is_mounted ≠ 0) (h1 : 1 ≤ len)
    (h : len > 1024 ∨ start_addr + len > 1048576) :
    mdadm_read s start_addr len (some buf) = (s, -1, some buf) := by
  have c1 : ¬ ((some buf).isNone = true ∧ len > 0) := by simp
  have c2 : ¬ len = 0 := by omega
  unfold mdadm_read
  rw [if_neg hm, if_neg c1, if_neg c2]
  by_cases c3 : len > 1024
  · rw [if_pos c3]
  · rw [if_neg c3, if_pos (range_check_rejects start_addr len hs h1 (by omega) (by omega))]

theorem mdadm_write_reject (s : State) (start_addr len : Nat) (buf : Bytes)
    (hs : start_addr < 4294967296) (hm : s.is_mounted ≠ 0) (hw : s.is_written ≠ 0)
    (h1 : 1 ≤ len) (h : len > 1024 ∨ start_addr + len > 1048576) :
    mdadm_write s start_addr len (some buf) = (s, -1) := by
  have c0 : ¬ (s.is_mounted = 0 ∨ s.is_written = 0) := by
    rintro (h | h)
    · exact hm h
    · exact hw h
  have c1 : ¬ ((some buf).isNone = true ∧ len > 0) := by simp
  have c2 : ¬ len = 0 := by omega
  unfold mdadm_write
  rw [if_neg c0, if_neg c1, if_neg c2]
  by_cases c3 : len > 1024
  · rw [if_pos c3]
  · rw [if_neg c3, if_pos (range_check_rejects start_addr len hs h1 (by omega) (by omega))]

/-- C10. Boundary checks of `mdadm_read` and `mdadm_write` over 32-bit unsigned
arithmetic. In a mounted (for write: mounted and writable) session, for all `uint32_t`
values `start_addr` and `len`: with length 0 the call returns 0 and changes nothing, so
issues no remote operation; with `len >= 1` and a buffer present the call is rejected
(returns -1 without a call of `jbod_client_operation` and without touching the cache) if
and only if `len > 1024` or `start_addr + len > 1048576` computed without wrap-around, and
a rejected call leaves the whole state unchanged. -/
theorem mdadm_bounds (s : State) (start_addr len : Nat) (hs : start_addr < 4294967296)
    (hl : len < 4294967296) (buf : Bytes) (nb : Option Bytes) :
    (s.is_mounted ≠ 0 →
      mdadm_read s start_addr 0 nb = (s, 0, nb) ∧
      (1 ≤ len →
        (((mdadm_read s start_addr len (some buf)).2.1 = -1 ∧
            (mdadm_read s start_addr len (some buf)).1.net.oplog = s.net.oplog ∧
            (mdadm_read s start_addr len (some buf)).1.cache = s.cache) ↔
          (len > 1024 ∨ start_addr + len > 1048576)) ∧
        ((len > 1024 ∨ start_addr + len > 1048576) →
          mdadm_read s start_addr len (some buf) = (s, -1, some buf)))) ∧
    (s.is_mounted ≠ 0 → s.is_written ≠ 0 →
      mdadm_write s start_addr 0 nb = (s, 0) ∧
      (1 ≤ len →
        (((mdadm_write s start_addr len (some buf)).2 = -1 ∧
            (mdadm_write s start_addr len (some buf)).1.net.oplog = s.net.oplog ∧
            (mdadm_write s start_addr len (some buf)).1.cache = s.cache) ↔
          (len > 1024 ∨ start_addr + len > 1048576)) ∧
        ((len > 1024 ∨ start_addr + len > 1048576) →
          mdadm_write s start_addr len (some buf) = (s, -1)))) := by
  constructor
  · intro hm
    constructor
    · unfold mdadm_read
      rw [if_neg hm, if_neg (by simp), if_pos rfl]
    · intro h1
      refine ⟨⟨?_, ?_⟩, mdadm_read_reject s start_addr len buf hs hm h1⟩
      · rintro ⟨hret, hlog, _⟩
        by_contra hin
        have h2 : len ≤ 1024 := by omega
        have h3 : start_addr + len ≤ 1048576 := by omega
        rw [mdadm_read_accept s start_addr len buf hm h1 h2 h3] at hret hlog
        have hgrow := (mdadm_read_loop_log (block_span start_addr len) s
          (read_locals start_addr len buf) (by simp [read_locals])).2 hret
        have := congrArg List.length hlog
        simp only at this
        omega
      · intro hout
        rw [mdadm_read_reject s start_addr len buf hs hm h1 hout]
        exact ⟨rfl, rfl, rfl⟩
  · intro hm hw
    constructor
    · unfold mdadm_write
      have c0 : ¬ (s.is_mounted = 0 ∨ s.is_written = 0) := by
        rintro (h | h)
        · exact hm h
        · exact hw h
      rw [if_neg c0, if_neg (by simp), if_pos rfl]
    · intro h1
      refine ⟨⟨?_, ?_⟩, mdadm_write_reject s start_addr len buf hs hm hw h1⟩
      · rintro ⟨hret, hlog, _⟩
        by_contra hin
        have h2 : len ≤ 1024 := by omega
        have h3 : start_addr + len ≤ 1048576 := by omega
        rw [mdadm_write_accept s start_addr len buf hm hw h1 h2 h3] at hret hlog
        have hgrow := (mdadm_write_loop_log (block_span start_addr len) s
          (write_locals start_addr len buf) (by simp [write_locals])).2 hret
        have := congrArg List.length hlog
        simp only at this
        omega
      · intro hout
        rw [mdadm_write_reject s start_addr len buf hs hm hw h1 hout]
        exact ⟨rfl, rfl, rfl⟩

set_option maxRecDepth 100000 in
theorem mdadm_bounds_witness :
    mdadm_read demo_session 4294967295 0 none = (demo_session, 0, none) ∧
    mdadm_read demo_session 4294967295 2 (some demo_bytes) =
      (demo_session, -1, some demo_bytes) ∧
    mdadm_read demo_session 1048575 2 (some demo_bytes) =
      (demo_session, -1, some demo_bytes) ∧
    mdadm_read demo_session 0 1025 (some demo_bytes) = (demo_session, -1, some demo_bytes) ∧
    mdadm_write demo_session 1048575 2 (some demo_bytes) = (demo_session, -1) ∧
    mdadm_write demo_session 0 1025 (some demo_bytes) = (demo_session, -1) ∧
    (mdadm_read demo_session 1048575 1 (some demo_bytes)).2.1 = 1 ∧
    (mdadm_read demo_session 1047552 1024 (some demo_bytes)).2.1 = 1024 ∧
    (mdadm_write demo_session 1048575 1 (some demo_bytes)).2 = 1 ∧
    (mdadm_write demo_session 1047552 1024 (some demo_bytes)).2 = 1024 :=
  ⟨((mdadm_bounds demo_session 4294967295 2 (by decide) (by decide) demo_bytes none).1
      (by decide)).1,
   (((mdadm_bounds demo_session 4294967295 2 (by decide) (by decide) demo_bytes none).1
      (by decide)).2 (by decide)).2 (by decide),
   (((mdadm_bounds demo_session 1048575 2 (by decide) (by decide) demo_bytes none).1
      (by decide)).2 (by decide)).2 (by decide),
   (((mdadm_bounds demo_session 0 1025 (by decide) (by decide) demo_bytes none).1
      (by decide)).2 (by decide)).2 (by decide),
   (((mdadm_bounds demo_session 1048575 2 (by decide) (by decide) demo_bytes none).2
      (by decide) (by decide)).2 (by decide)).2 (by decide),
   (((mdadm_bounds demo_session 0 1025 (by decide) (by decide) demo_bytes none).2
      (by decide) (by decide)).2 (by decide)).2 (by decide),
   by decide, by decide, by decide, by decide⟩

/-! ## The remote operations on any connection -/

/-- The replies of the server: a header with the failure bit, the server as before; a
header with no bit; or a header with the payload bit and a block, the server as before. -/
theorem jbod_server_reply (sv : Server) (rf : Bool) (req : List Nat) :
    ((jbod_server sv rf req).1 = sv ∧ ∃ o, (jbod_server sv rf req).2 = htonl o ++ [1]) ∨
    (∃ o, (jbod_server sv rf req).2 = htonl o ++ [0]) ∨
    ((jbod_server sv rf req).1 = sv ∧
      ∃ o b, (jbod_server sv rf req).2 = htonl o ++ [2] ++ block_bytes b) := by
  unfold jbod_server
  dsimp only
  split
  · exact Or.inl ⟨rfl, _, rfl⟩
  · split
    · exact Or.inr (Or.inl ⟨_, rfl⟩)
    · split
      · exact Or.inr (Or.inl ⟨_, rfl⟩)
      · split
        · exact Or.inr (Or.inr ⟨rfl, _, _, rfl⟩)
        · split
          · split
            · exact Or.inl ⟨rfl, _, rfl⟩
            · exact Or.inr (Or.inl ⟨_, rfl⟩)
          · exact Or.inr (Or.inl ⟨_, rfl⟩)

theorem jbod_server_refused (sv : Server) (req : List Nat) :
    jbod_server sv true req = (sv, htonl (ntohl (req.take 4)) ++ [1]) := by
  simp only [jbod_server, if_true]

/-- A header of which fewer than five bytes arrive makes `recv_packet` fail; otherwise the
whole header has arrived. -/
theorem recv_packet_cut_header (o r : Nat) (k : Nat) (blk : Bytes) :
    recv_packet ((htonl o ++ [r]).take k) blk = none ∨
    (htonl o ++ [r]).take k = htonl o ++ [r] := by
  by_cases hk : 5 ≤ k
  · right
    exact List.take_of_length_le (by simp [htonl]; omega)
  · left
    have hlen : ((htonl o ++ [r]).take k).length < 5 := by
      simp [htonl]; omega
    simp only [recv_packet, nread, HEADER_LEN, hlen, if_true]

/-- A reply with a block of which fewer than 261 bytes arrive makes `recv_packet` fail;
otherwise the whole reply has arrived. -/
theorem recv_packet_cut_payload (o : Nat) (b : Bytes) (k : Nat) (blk : Bytes) :
    recv_packet ((htonl o ++ [2] ++ block_bytes b).take k) blk = none ∨
    (htonl o ++ [2] ++ block_bytes b).take k = htonl o ++ [2] ++ block_bytes b := by
  by_cases hk : 261 ≤ k
  · right
    exact List.take_of_length_le (by simp [htonl, block_bytes_length]; omega)
  · left
    by_cases h5 : k < 5
    · have hlen : ((htonl o ++ [2] ++ block_bytes b).take k).length < 5 := by
        simp [htonl, block_bytes_length]; omega
      simp only [recv_packet, nread, HEADER_LEN, hlen, if_true]
    · have e : (htonl o ++ [2] ++ block_bytes b).take k =
          htonl o ++ [2] ++ (block_bytes b).take (k - 5) := by
        rw [List.take_append_eq_append_take]
        have h1 : (htonl o ++ [2]).length = 5 := by simp [htonl]
        rw [h1, List.take_of_length_le (by rw [h1]; omega)]
      have hshort : ((block_bytes b).take (k - 5)).length < JBOD_BLOCK_SIZE := by
        simp [block_bytes_length, JBOD_BLOCK_SIZE]; omega
      have h5g : (htonl o ++ [2]).getD 4 0 = 2 := by simp [htonl]
      have h6 : (2 &&& 2 ≠ 0) = True := by decide
      have h2 : nread ((block_bytes b).take (k - 5)) JBOD_BLOCK_SIZE = none := by
        simp only [nread, hshort, if_true]
      rw [e]
      unfold recv_packet
      simp only [nread_header, h5g, h6, if_true, h2]

/-- Whatever arrives of a reply of the server, `recv_packet` fails or the whole reply has
arrived. -/
theorem recv_packet_arriving (w : Wire) (sv : Server) (rf : Bool) (req : List Nat)
    (blk : Bytes) :
    recv_packet (arriving w (jbod_server sv rf req).2) blk = none ∨
    arriving w (jbod_server sv rf req).2 = (jbod_server sv rf req).2 := by
  cases w with
  | whole => exact Or.inr rfl
  | send_fails => exact Or.inr rfl
  | reply_cut k =>
    simp only [arriving]
    rcases jbod_server_reply sv rf req with ⟨_, o, e⟩ | ⟨o, e⟩ | ⟨_, o, b, e⟩
    · rw [e]; exact recv_packet_cut_header o 1 k blk
    · rw [e]; exact recv_packet_cut_header o 0 k blk
    · rw [e]; exact recv_packet_cut_payload o b k blk

theorem client_offline (n : Net) (op : Nat) (blk : Option Bytes) (hc : n.cli_sd = -1) :
    jbod_client_operation n op blk = ({ n with oplog := n.oplog ++ [op] }, -1, blk) := by
  unfold jbod_client_operation
  rw [if_pos hc]

theorem client_unsent (n : Net) (op : Nat) (blk : Option Bytes) (hc : n.cli_sd ≠ -1)
    (hs : send_ok (n.wire.headD Wire.whole) = false) :
    jbod_client_operation n op blk =
      ({ n with oplog := n.oplog ++ [op], wire := n.wire.tail }, -1, blk) := by
  unfold jbod_client_operation
  rw [if_neg hc, if_pos hs]

/-- A request whose reply does not arrive whole: the call returns -1 and leaves the
caller's block alone, and the server has carried out the request. -/
theorem client_recv_none (n : Net) (op : Nat) (blk : Option Bytes) (hc : n.cli_sd ≠ -1)
    (hs : ¬ send_ok (n.wire.headD Wire.whole) = false)
    (hnone : recv_packet (arriving (n.wire.headD Wire.whole)
      (jbod_server n.server (n.refuse.headD false) (send_packet op blk)).2) (fun _ => 0)
        = none) :
    jbod_client_operation n op blk =
      ({ cli_sd := n.cli_sd,
         server := (jbod_server n.server (n.refuse.headD false) (send_packet op blk)).1,
         refuse := n.refuse.tail, oplog := n.oplog ++ [op], wire := n.wire.tail },
       -1, blk) := by
  unfold jbod_client_operation
  rw [if_neg hc, if_neg hs]
  simp only [hnone]

theorem client_recv_some (n : Net) (op : Nat) (blk : Option Bytes) (hc : n.cli_sd ≠ -1)
    (hs : ¬ send_ok (n.wire.headD Wire.whole) = false)
    (op1 ret : Nat) (tb : Bytes)
    (hsome : recv_packet (arriving (n.wire.headD Wire.whole)
      (jbod_server n.server (n.refuse.headD false) (send_packet op blk)).2) (fun _ => 0)
        = some (op1, ret, tb)) :
    jbod_client_operation n op blk =
      ({ cli_sd := n.cli_sd,
         server := (jbod_server n.server (n.refuse.headD false) (send_packet op blk)).1,
         refuse := n.refuse.tail, oplog := n.oplog ++ [op], wire := n.wire.tail },
       if ret &&& 0x01 ≠ 0 then -1 else 0,
       if ret &&& 0x02 ≠ 0 then blk.map (fun b => memcpy b 0 tb 0 JBOD_BLOCK_SIZE)
       else blk) := by
  unfold jbod_client_operation
  rw [if_neg hc, if_neg hs]
  simp only [hsome]

/-- The value of `jbod_client_operation` is 0 or -1. -/
theorem client_result (n : Net) (op : Nat) (blk : Option Bytes) :
    (jbod_client_operation n op blk).2.1 = 0 ∨ (jbod_client_operation n op blk).2.1 = -1 := by
  by_cases hc : n.cli_sd = -1
  · rw [client_offline n op blk hc]; exact Or.inr rfl
  · by_cases hs : send_ok (n.wire.headD Wire.whole) = false
    · rw [client_unsent n op blk hc hs]; exact Or.inr rfl
    · cases hr : recv_packet (arriving (n.wire.headD Wire.whole)
          (jbod_server n.server (n.refuse.headD false) (send_packet op blk)).2) (fun _ => 0) with
      | none => rw [client_recv_none n op blk hc hs hr]; exact Or.inr rfl
      | some x =>
        obtain ⟨op1, ret, tb⟩ := x
        rw [client_recv_some n op blk hc hs op1 ret tb hr]
        dsimp only
        split
        · exact Or.inr rfl
        · exact Or.inl rfl

/-- A call of `jbod_client_operation` that returns 0: there is a connection, the server
did not refuse, the whole reply arrived, and the call did what it does on a faithful
connection. -/
theorem client_zero (n : Net) (op : Nat) (blk : Option Bytes)
    (h : (jbod_client_operation n op blk).2.1 = 0) :
    n.cli_sd ≠ -1 ∧ n.refuse.headD false = false ∧
    jbod_client_operation n op blk =
      ({ (jbod_client_operation { n with refuse := [], wire := [] } op blk).1 with
          refuse := n.refuse.tail, wire := n.wire.tail },
       (jbod_client_operation { n with refuse := [], wire := [] } op blk).2) := by
  have hc : n.cli_sd ≠ -1 := by
    intro hc
    rw [client_offline n op blk hc] at h
    simp at h
  have hs : ¬ send_ok (n.wire.headD Wire.whole) = false := by
    intro hs
    rw [client_unsent n op blk hc hs] at h
    simp at h
  have harr : arriving (n.wire.headD Wire.whole)
      (jbod_server n.server (n.refuse.headD false) (send_packet op blk)).2 =
      (jbod_server n.server (n.refuse.headD false) (send_packet op blk)).2 := by
    rcases recv_packet_arriving (n.wire.headD Wire.whole) n.server (n.refuse.headD false)
      (send_packet op blk) (fun _ => 0) with hnone | hwhole
    · rw [client_recv_none n op blk hc hs hnone] at h
      simp at h
    · exact hwhole
  have hrf : n.refuse.headD false = false := by
    cases hr : n.refuse.headD false with
    | false => rfl
    | true =>
      exfalso
      obtain ⟨op1, hrecv⟩ := recv_packet_header (ntohl ((send_packet op blk).take 4)) 1
        (by decide) (fun _ => 0)
      rw [hr] at harr
      have hsome := client_recv_some n op blk hc hs op1 1 (fun _ => 0)
        (by rw [hr, harr, jbod_server_refused]; exact hrecv)
      rw [hsome] at h
      have h1 : (1 &&& 1 ≠ 0) = True := by decide
      simp only [h1, if_true] at h
      simp at h
  refine ⟨hc, hrf, ?_⟩
  rw [hrf] at harr
  unfold jbod_client_operation
  rw [if_neg hc, if_neg hs,
    if_neg (show ¬ ({ n with refuse := [], wire := [] } : Net).cli_sd = -1 from hc)]
  simp only [hrf]
  rw [harr]
  simp only [List.headD_nil, send_ok, arriving, Bool.true_eq_false, if_false]
  cases recv_packet (jbod_server n.server false (send_packet op blk)).2 (fun _ => 0) with
  | none => rfl
  | some r => rfl

/-- The server after a call is the server before it or the server after the request. -/
theorem client_server (n : Net) (op : Nat) (blk : Option Bytes) :
    (jbod_client_operation n op blk).1.server = n.server ∨
    (jbod_client_operation n op blk).1.server =
      (jbod_server n.server (n.refuse.headD false) (send_packet op blk)).1 := by
  by_cases hc : n.cli_sd = -1
  · rw [client_offline n op blk hc]; exact Or.inl rfl
  · by_cases hs : send_ok (n.wire.headD Wire.whole) = false
    · rw [client_unsent n op blk hc hs]; exact Or.inl rfl
    · cases hr : recv_packet (arriving (n.wire.headD Wire.whole)
          (jbod_server n.server (n.refuse.headD false) (send_packet op blk)).2) (fun _ => 0) with
      | none => rw [client_recv_none n op blk hc hs hr]; exact Or.inr rfl
      | some x =>
        obtain ⟨op1, ret, tb⟩ := x
        rw [client_recv_some n op blk hc hs op1 ret tb hr]; exact Or.inr rfl

theorem read_fetch_written (s : State) (l : ReadLocals) (w : Int) :
    read_fetch { s with is_written := w } l =
      ({ (read_fetch s l).1 with is_written := w }, (read_fetch s l).2) := by
  unfold read_fetch
  dsimp only
  split
  · split <;> rfl
  · rfl

theorem mdadm_read_loop_written (k : Nat) : ∀ (s : State) (l : ReadLocals) (w : Int),
    mdadm_read_loop k { s with is_written := w } l =
      ({ (mdadm_read_loop k s l).1 with is_written := w }, (mdadm_read_loop k s l).2) := by
  induction k with
  | zero => intro s l w; rfl
  | succ k ih =>
    intro s l w
    cases hrf : (read_fetch s l).2 with
    | none =>
      have heq : read_fetch s l = ((read_fetch s l).1, none) := Prod.ext rfl hrf
      have heq2 : read_fetch { s with is_written := w } l =
          ({ (read_fetch s l).1 with is_written := w }, none) := by
        rw [read_fetch_written, hrf]
      rw [mdadm_read_loop, heq2, mdadm_read_loop, heq]
    | some temp =>
      have heq2 : (read_fetch { s with is_written := w } l).2 = some temp := by
        rw [read_fetch_written, hrf]
      rw [mdadm_read_loop_succ k s l temp hrf, mdadm_read_loop_succ k _ l temp heq2,
        read_fetch_written]
      exact ih _ _ w

/-- The function `mdadm_read` does not read `is_written`. -/
theorem mdadm_read_written (s : State) (start_addr read_len : Nat) (buf : Option Bytes)
    (w : Int) :
    mdadm_read { s with is_written := w } start_addr read_len buf =
      ({ (mdadm_read s start_addr read_len buf).1 with is_written := w },
       (mdadm_read s start_addr read_len buf).2) := by
  unfold mdadm_read
  dsimp only
  split
  · rfl
  · split
    · rfl
    · split
      · rfl
      · split
        · rfl
        · split
          · rfl
          · cases buf with
            | none => rfl
            | some b =>
              dsimp only
              rw [mdadm_read_loop_written]

/-- C11. Mount and permission gates. For every `start_addr`, length and buffer:
`mdadm_read` returns -1 whenever `is_mounted` is 0, and `mdadm_write` returns -1 whenever
`is_mounted` is 0 or `is_written` is 0; in both cases the whole state is unchanged, so no
remote operation is issued and the cache and both flags are as before. The result of
`mdadm_read` does not depend on `is_written`: from two states that differ only in
`is_written` it returns the same value and the same bytes, and leaves states that again
differ only in `is_written`. -/
theorem mdadm_gates (s : State) (start_addr len : Nat) (buf : Option Bytes) :
    (s.is_mounted = 0 → mdadm_read s start_addr len buf = (s, -1, buf)) ∧
    ((s.is_mounted = 0 ∨ s.is_written = 0) → mdadm_write s start_addr len buf = (s, -1)) ∧
    (∀ w : Int,
      (mdadm_read { s with is_written := w } start_addr len buf).2.1 =
        (mdadm_read s start_addr len buf).2.1 ∧
      (mdadm_read { s with is_written := w } start_addr len buf).2.2 =
        (mdadm_read s start_addr len buf).2.2 ∧
      (mdadm_read { s with is_written := w } start_addr len buf).1 =
        { (mdadm_read s start_addr len buf).1 with is_written := w }) := by
  refine ⟨?_, ?_, ?_⟩
  · intro h
    unfold mdadm_read
    rw [if_pos h]
  · intro h
    unfold mdadm_write
    rw [if_pos h]
  · intro w
    rw [mdadm_read_written]
    exact ⟨rfl, rfl, rfl⟩

set_option maxRecDepth 100000 in
theorem mdadm_gates_witness :
    mdadm_read { demo_session with is_mounted := 0 } 100 600 (some demo_bytes) =
      ({ demo_session with is_mounted := 0 }, -1, some demo_bytes) ∧
    mdadm_write { demo_session with is_written := 0 } 100 600 (some demo_bytes) =
      ({ demo_session with is_written := 0 }, -1) ∧
    (mdadm_read { demo_session with is_written := 0 } 100 600 (some demo_bytes)).2.1 =
      (mdadm_read demo_session 100 600 (some demo_bytes)).2.1 :=
  ⟨(mdadm_gates { demo_session with is_mounted := 0 } 100 600 (some demo_bytes)).1 rfl,
   (mdadm_gates { demo_session with is_written := 0 } 100 600 (some demo_bytes)).2.1
      (Or.inr rfl),
   ((mdadm_gates demo_session 100 600 (some demo_bytes)).2.2 0).1⟩

theorem jbod_server_control (sv : Server) (op : Nat) (hop : op < 4) (refuse : Bool) :
    jbod_server sv refuse (send_packet op none) =
      (sv, htonl op ++ [if refuse = true then 1 else 0]) := by
  have h1 : ntohl (List.take 4 (htonl op ++ [0])) = op := ntohl_htonl op (by omega) _
  have h2 : op % 64 = op := by omega
  cases refuse
  · simp only [send_packet, jbod_server, h1, h2, JBOD_SEEK_TO_DISK, JBOD_SEEK_TO_BLOCK,
      JBOD_READ_BLOCK, JBOD_WRITE_BLOCK, Bool.false_eq_true, if_false]
    rw [if_neg (by omega), if_neg (by omega), if_neg (by omega), if_neg (by omega)]
  · simp only [send_packet, jbod_server, h1, if_true]

/-- A call of `jbod_client_operation` for mount, unmount, grant or revoke: it returns -1
without a connection, when the request is not sent, when the header of the reply does not
arrive, and when the server refuses; it returns 0 when the request goes through and the
server does not refuse; the server's state is as before in every case. -/
theorem client_control (n : Net) (op : Nat) (hop : op < 4) :
    (jbod_client_operation n op none).1.oplog = n.oplog ++ [op] ∧
    (jbod_client_operation n op none).1.server = n.server ∧
    (n.cli_sd = -1 → (jbod_client_operation n op none).2.1 = -1) ∧
    (n.cli_sd ≠ -1 → n.wire.headD Wire.whole = Wire.send_fails →
      (jbod_client_operation n op none).2.1 = -1) ∧
    (n.cli_sd ≠ -1 → ∀ k : Nat, k < 5 → n.wire.headD Wire.whole = Wire.reply_cut k →
      (jbod_client_operation n op none).2.1 = -1) ∧
    (n.cli_sd ≠ -1 → n.refuse.headD false = true →
      (jbod_client_operation n op none).2.1 = -1) ∧
    (n.cli_sd ≠ -1 → n.wire.headD Wire.whole = Wire.whole → n.refuse.headD false = false →
      (jbod_client_operation n op none).2.1 = 0) := by
  refine ⟨jbod_client_operation_oplog _ _ _, ?_, ?_, ?_, ?_, ?_, ?_⟩
  · rcases client_server n op none with e | e
    · exact e
    · rw [e, jbod_server_control n.server op hop]
  · intro hc
    rw [client_offline n op none hc]
  · intro hc hw
    rw [client_unsent n op none hc (by rw [hw]; rfl)]
  · intro hc k hk hw
    have hlen : ((htonl op ++ [if n.refuse.headD false = true then 1 else 0]).take k).length
        < 5 := by
      simp [htonl]; omega
    rw [client_recv_none n op none hc (by rw [hw]; simp [send_ok])
      (by rw [hw, jbod_server_control n.server op hop]
          simp only [arriving, recv_packet, nread, HEADER_LEN, hlen, if_true])]
  · intro _ hr
    rcases client_result n op none with h0 | h1
    · have := (client_zero n op none h0).2.1
      rw [hr] at this
      exact absurd this (by simp)
    · exact h1
  · intro hc hw hr
    obtain ⟨op1, hrecv⟩ := recv_packet_header op 0 (by decide) (fun _ => 0)
    rw [jbod_client_operation_reply n hc hw op none n.server (htonl op ++ [0])
      (by rw [hr]; exact jbod_server_control n.server op hop false) op1 0 _ hrecv]
    have h0 : (0 &&& 1 ≠ 0) = False := by decide
    simp only [h0, if_false]

/-- C12. Session state machine. Each of `mdadm_mount`, `mdadm_unmount`,
`mdadm_write_permission` and `mdadm_revoke_write_permission`, from every prior state,
calls `jbod_client_operation` exactly once, with its own operation code, and leaves the
cache alone. If that operation reports failure (as it does without a connection, when
the request is not sent, when the reply does not arrive, or when the server refuses) the
call returns -1 and leaves `is_mounted` and `is_written`
unchanged; if it reports success the call returns 1 and sets its own flag (mount:
`is_mounted = 1`, unmount: `is_mounted = 0`, grant: `is_written = 1`, revoke:
`is_written = 0`) and leaves the other flag unchanged. -/
theorem session_state_machine (s : State) :
    ((mdadm_mount s).1.net.oplog = s.net.oplog ++ [JBOD_MOUNT] ∧
      (mdadm_mount s).1.net = (jbod_client_operation s.net JBOD_MOUNT none).1 ∧
      (mdadm_mount s).1.cache = s.cache ∧
      ((jbod_client_operation s.net JBOD_MOUNT none).2.1 ≠ 0 →
        (mdadm_mount s).2 = -1 ∧ (mdadm_mount s).1.is_mounted = s.is_mounted ∧
        (mdadm_mount s).1.is_written = s.is_written) ∧
      ((jbod_client_operation s.net JBOD_MOUNT none).2.1 = 0 →
        (mdadm_mount s).2 = 1 ∧ (mdadm_mount s).1.is_mounted = 1 ∧
        (mdadm_mount s).1.is_written = s.is_written)) ∧
    ((mdadm_unmount s).1.net.oplog = s.net.oplog ++ [JBOD_UNMOUNT] ∧
      (mdadm_unmount s).1.net = (jbod_client_operation s.net JBOD_UNMOUNT none).1 ∧
      (mdadm_unmount s).1.cache = s.cache ∧
      ((jbod_client_operation s.net JBOD_UNMOUNT none).2.1 ≠ 0 →
        (mdadm_unmount s).2 = -1 ∧ (mdadm_unmount s).1.is_mounted = s.is_mounted ∧
        (mdadm_unmount s).1.is_written = s.is_written) ∧
      ((jbod_client_operation s.net JBOD_UNMOUNT none).2.1 = 0 →
        (mdadm_unmount s).2 = 1 ∧ (mdadm_unmount s).1.is_mounted = 0 ∧
        (mdadm_unmount s).1.is_written = s.is_written)) ∧
    ((mdadm_write_permission s).1.net.oplog = s.net.oplog ++ [JBOD_WRITE_PERMISSION] ∧
      (mdadm_write_permission s).1.net =
        (jbod_client_operation s.net JBOD_WRITE_PERMISSION none).1 ∧
      (mdadm_write_permission s).1.cache = s.cache ∧
      ((jbod_client_operation s.net JBOD_WRITE_PERMISSION none).2.1 ≠ 0 →
        (mdadm_write_permission s).2 = -1 ∧
        (mdadm_write_permission s).1.is_mounted = s.is_mounted ∧
        (mdadm_write_permission s).1.is_written = s.is_written) ∧
      ((jbod_client_operation s.net JBOD_WRITE_PERMISSION none).2.1 = 0 →
        (mdadm_write_permission s).2 = 1 ∧
        (mdadm_write_permission s).1.is_mounted = s.is_mounted ∧
        (mdadm_write_permission s).1.is_written = 1)) ∧
    ((mdadm_revoke_write_permission s).1.net.oplog =
        s.net.oplog ++ [JBOD_REVOKE_WRITE_PERMISSION] ∧
      (mdadm_revoke_write_permission s).1.net =
        (jbod_client_operation s.net JBOD_REVOKE_WRITE_PERMISSION none).1 ∧
      (mdadm_revoke_write_permission s).1.cache = s.cache ∧
      ((jbod_client_operation s.net JBOD_REVOKE_WRITE_PERMISSION none).2.1 ≠ 0 →
        (mdadm_revoke_write_permission s).2 = -1 ∧
        (mdadm_revoke_write_permission s).1.is_mounted = s.is_mounted ∧
        (mdadm_revoke_write_permission s).1.is_written = s.is_written) ∧
      ((jbod_client_operation s.net JBOD_REVOKE_WRITE_PERMISSION none).2.1 = 0 →
        (mdadm_revoke_write_permission s).2 = 1 ∧
        (mdadm_revoke_write_permission s).1.is_mounted = s.is_mounted ∧
        (mdadm_revoke_write_permission s).1.is_written = 0)) ∧
    (∀ op : Nat, op < 4 →
      (s.net.cli_sd = -1 → (jbod_client_operation s.net op none).2.1 = -1) ∧
      (s.net.cli_sd ≠ -1 → s.net.wire.headD Wire.whole = Wire.send_fails →
        (jbod_client_operation s.net op none).2.1 = -1) ∧
      (s.net.cli_sd ≠ -1 → ∀ k : Nat, k < 5 →
        s.net.wire.headD Wire.whole = Wire.reply_cut k →
        (jbod_client_operation s.net op none).2.1 = -1) ∧
      (s.net.cli_sd ≠ -1 → s.net.refuse.headD false = true →
        (jbod_client_operation s.net op none).2.1 = -1) ∧
      (s.net.cli_sd ≠ -1 → s.net.wire.headD Wire.whole = Wire.whole →
        s.net.refuse.headD false = false →
        (jbod_client_operation s.net op none).2.1 = 0)) := by
  refine ⟨?_, ?_, ?_, ?_, ?_⟩
  · unfold mdadm_mount
    dsimp only
    by_cases h : (jbod_client_operation s.net JBOD_MOUNT none).2.1 = 0
    · rw [if_pos h]
      exact ⟨jbod_client_operation_oplog _ _ _, rfl, rfl, fun h2 => absurd h h2,
        fun _ => ⟨rfl, rfl, rfl⟩⟩
    · rw [if_neg h]
      exact ⟨jbod_client_operation_oplog _ _ _, rfl, rfl, fun _ => ⟨rfl, rfl, rfl⟩,
        fun h2 => absurd h2 h⟩
  · unfold mdadm_unmount
    dsimp only
    by_cases h : (jbod_client_operation s.net JBOD_UNMOUNT none).2.1 = 0
    · rw [if_pos h]
      exact ⟨jbod_client_operation_oplog _ _ _, rfl, rfl, fun h2 => absurd h h2,
        fun _ => ⟨rfl, rfl, rfl⟩⟩
    · rw [if_neg h]
      exact ⟨jbod_client_operation_oplog _ _ _, rfl, rfl, fun _ => ⟨rfl, rfl, rfl⟩,
        fun h2 => absurd h2 h⟩
  · unfold mdadm_write_permission
    dsimp only
    by_cases h : (jbod_client_operation s.net JBOD_WRITE_PERMISSION none).2.1 = 0
    · rw [if_pos h]
      exact ⟨jbod_client_operation_oplog _ _ _, rfl, rfl, fun h2 => absurd h h2,
        fun _ => ⟨rfl, rfl, rfl⟩⟩
    · rw [if_neg h]
      exact ⟨jbod_client_operation_oplog _ _ _, rfl, rfl, fun _ => ⟨rfl, rfl, rfl⟩,
        fun h2 => absurd h2 h⟩
  · unfold mdadm_revoke_write_permission
    dsimp only
    by_cases h : (jbod_client_operation s.net JBOD_REVOKE_WRITE_PERMISSION none).2.1 = 0
    · rw [if_pos h]
      exact ⟨jbod_client_operation_oplog _ _ _, rfl, rfl, fun h2 => absurd h h2,
        fun _ => ⟨rfl, rfl, rfl⟩⟩
    · rw [if_neg h]
      exact ⟨jbod_client_operation_oplog _ _ _, rfl, rfl, fun _ => ⟨rfl, rfl, rfl⟩,
        fun h2 => absurd h2 h⟩
  · intro op hop
    exact (client_control s.net op hop).2.2

theorem session_state_machine_witness :
    (mdadm_mount { demo_session with is_mounted := 0 }).2 = 1 ∧
    (mdadm_mount { demo_session with is_mounted := 0 }).1.is_mounted = 1 ∧
    (mdadm_unmount demo_refusing).2 = -1 ∧
    (mdadm_unmount demo_refusing).1.is_mounted = demo_refusing.is_mounted ∧
    (mdadm_write_permission demo_offline).2 = -1 ∧
    (mdadm_write_permission demo_offline).1.net.oplog = [JBOD_WRITE_PERMISSION] :=
  ⟨((session_state_machine { demo_session with is_mounted := 0 }).1.2.2.2.2 (by decide)).1,
   ((session_state_machine { demo_session with is_mounted := 0 }).1.2.2.2.2 (by decide)).2.1,
   ((session_state_machine demo_refusing).2.1.2.2.2.1 (by decide)).1,
   ((session_state_machine demo_refusing).2.1.2.2.2.1 (by decide)).2.1,
   ((session_state_machine demo_offline).2.2.1.2.2.2.1 (by decide)).1,
   (session_state_machine demo_offline).2.2.1.1⟩

/-- C13, as stated, fails: the client functions do not look at their own flag. In a
mounted session on a server that accepts the request, `mdadm_mount` returns 1; in a
session without write permission, `mdadm_revoke_write_permission` returns 1. -/
theorem repeated_transition_counterexample :
    demo_session.is_mounted = 1 ∧
    (jbod_client_operation demo_session.net JBOD_MOUNT none).2.1 = 0 ∧
    (mdadm_mount demo_session).2 = 1 ∧
    ({ demo_session with is_written := 0 } : State).is_written = 0 ∧
    (mdadm_revoke_write_permission { demo_session with is_written := 0 }).2 = 1 := by
  refine ⟨by decide, by decide, by decide, by decide, by decide⟩

/-- C13, amended. For every session state with `is_mounted = 1`, a call of `mdadm_mount`
leaves `is_mounted` and `is_written` unchanged whatever the server replies, and it returns
-1 exactly when the remote operation reports failure and 1 exactly when it reports
success. For every session state with `is_written = 0` the same holds of
`mdadm_revoke_write_permission`. The client makes no check of its own. -/
theorem repeated_transition (s : State) :
    (s.is_mounted = 1 →
      (mdadm_mount s).1.is_mounted = s.is_mounted ∧
      (mdadm_mount s).1.is_written = s.is_written ∧
      ((mdadm_mount s).2 = -1 ↔ (jbod_client_operation s.net JBOD_MOUNT none).2.1 ≠ 0) ∧
      ((mdadm_mount s).2 = 1 ↔ (jbod_client_operation s.net JBOD_MOUNT none).2.1 = 0)) ∧
    (s.is_written = 0 →
      (mdadm_revoke_write_permission s).1.is_mounted = s.is_mounted ∧
      (mdadm_revoke_write_permission s).1.is_written = s.is_written ∧
      ((mdadm_revoke_write_permission s).2 = -1 ↔
        (jbod_client_operation s.net JBOD_REVOKE_WRITE_PERMISSION none).2.1 ≠ 0) ∧
      ((mdadm_revoke_write_permission s).2 = 1 ↔
        (jbod_client_operation s.net JBOD_REVOKE_WRITE_PERMISSION none).2.1 = 0)) := by
  constructor
  · intro hm
    unfold mdadm_mount
    dsimp only
    by_cases h : (jbod_client_operation s.net JBOD_MOUNT none).2.1 = 0
    · rw [if_pos h]
      refine ⟨hm.symm, rfl, ?_, ?_⟩ <;> simp [h]
    · rw [if_neg h]
      refine ⟨rfl, rfl, ?_, ?_⟩ <;> simp [h]
  · intro hw
    unfold mdadm_revoke_write_permission
    dsimp only
    by_cases h : (jbod_client_operation s.net JBOD_REVOKE_WRITE_PERMISSION none).2.1 = 0
    · rw [if_pos h]
      refine ⟨rfl, hw.symm, ?_, ?_⟩ <;> simp [h]
    · rw [if_neg h]
      refine ⟨rfl, rfl, ?_, ?_⟩ <;> simp [h]

theorem repeated_transition_witness :
    (mdadm_mount demo_session).1.is_mounted = demo_session.is_mounted ∧
    (mdadm_mount demo_session).2 = 1 ∧
    (mdadm_mount demo_refusing).2 = -1 ∧
    (mdadm_revoke_write_permission { demo_refusing with is_written := 0 }).2 = -1 :=
  ⟨((repeated_transition demo_session).1 (by decide)).1,
   ((repeated_transition demo_session).1 (by decide)).2.2.2.2 (by decide),
   ((repeated_transition demo_refusing).1 (by decide)).2.2.1.2 (by decide),
   ((repeated_transition { demo_refusing with is_written := 0 }).2 (by decide)).2.2.1.2
      (by decide)⟩

/-! ## The opcode word and the request frame -/

theorem or_eq_add_of_lt (i a x : Nat) (hx : x < 2 ^ i) : x ||| 2 ^ i * a = 2 ^ i * a + x := by
  rw [Nat.or_comm, ← Nat.mul_add_lt_is_or hx]

/-- The opcode word in arithmetic: the four masked fields at their positions. -/
theorem jbod_construct_opcode_eq (op disk block padding : Nat) :
    jbod_construct_opcode op disk block padding =
      op % 64 + 64 * (disk % 16) + 1024 * (block % 256) + 262144 * (padding % 16384) := by
  have m1 : op &&& 0x3F = op % 64 := Nat.and_pow_two_sub_one_eq_mod op 6
  have m2 : disk &&& 0xF = disk % 16 := Nat.and_pow_two_sub_one_eq_mod disk 4
  have m3 : block &&& 0xFF = block % 256 := Nat.and_pow_two_sub_one_eq_mod block 8
  have m4 : padding &&& 0x3FFF = padding % 16384 := Nat.and_pow_two_sub_one_eq_mod padding 14
  unfold jbod_construct_opcode
  rw [m1, m2, m3, m4, Nat.shiftLeft_eq, Nat.shiftLeft_eq, Nat.shiftLeft_eq,
    Nat.mul_comm (disk % 16), Nat.mul_comm (block % 256), Nat.mul_comm (padding % 16384)]
  rw [or_eq_add_of_lt 6 (disk % 16) (op % 64) (by omega)]
  rw [or_eq_add_of_lt 10 (block % 256) (2 ^ 6 * (disk % 16) + op % 64) (by omega)]
  rw [or_eq_add_of_lt 18 (padding % 16384)
    (2 ^ 10 * (block % 256) + (2 ^ 6 * (disk % 16) + op % 64)) (by omega)]
  omega

/-- The fields of an opcode word, taken out with the shifts and masks of the layout. -/
theorem opcode_fields (w : Nat) :
    w &&& 0x3F = w % 64 ∧ (w >>> 6) &&& 0xF = w / 64 % 16 ∧
    (w >>> 10) &&& 0xFF = w / 1024 % 256 ∧ w >>> 18 = w / 262144 := by
  refine ⟨Nat.and_pow_two_sub_one_eq_mod w 6, ?_, ?_, ?_⟩
  · rw [Nat.shiftRight_eq_div_pow]
    exact Nat.and_pow_two_sub_one_eq_mod _ 4
  · rw [Nat.shiftRight_eq_div_pow]
    exact Nat.and_pow_two_sub_one_eq_mod _ 8
  · rw [Nat.shiftRight_eq_div_pow]

/-- C14. Opcode pack/unpack round trip. For `op < 64`, `disk < 16`, `block < 256` and
`padding < 16384` the word `w = jbod_construct_opcode(op, disk, block, padding)` is a
`uint32_t` with `w & 0x3F = op`, `(w >> 6) & 0xF = disk`, `(w >> 10) & 0xFF = block` and
`w >> 18 = padding`, so the encoding is injective on in-range fields. For arbitrary fields
the word is the encoding of the fields reduced modulo 64, 16, 256 and 16384. -/
theorem opcode_roundtrip (op disk block padding : Nat) :
    (op < 64 → disk < 16 → block < 256 → padding < 16384 →
      jbod_construct_opcode op disk block padding < 4294967296 ∧
      jbod_construct_opcode op disk block padding &&& 0x3F = op ∧
      (jbod_construct_opcode op disk block padding >>> 6) &&& 0xF = disk ∧
      (jbod_construct_opcode op disk block padding >>> 10) &&& 0xFF = block ∧
      jbod_construct_opcode op disk block padding >>> 18 = padding ∧
      ∀ op1 disk1 block1 padding1 : Nat,
        op1 < 64 → disk1 < 16 → block1 < 256 → padding1 < 16384 →
        jbod_construct_opcode op1 disk1 block1 padding1 =
          jbod_construct_opcode op disk block padding →
        op1 = op ∧ disk1 = disk ∧ block1 = block ∧ padding1 = padding) ∧
    jbod_construct_opcode op disk block padding =
      jbod_construct_opcode (op % 64) (disk % 16) (block % 256) (padding % 16384) := by
  constructor
  · intro h1 h2 h3 h4
    obtain ⟨f1, f2, f3, f4⟩ := opcode_fields (jbod_construct_opcode op disk block padding)
    rw [f1, f2, f3, f4, jbod_construct_opcode_eq]
    refine ⟨by omega, by omega, by omega, by omega, by omega, ?_⟩
    intro op1 disk1 block1 padding1 g1 g2 g3 g4 heq
    rw [jbod_construct_opcode_eq] at heq
    omega
  · rw [jbod_construct_opcode_eq, jbod_construct_opcode_eq (op % 64)]
    omega

theorem opcode_roundtrip_witness :
    jbod_construct_opcode JBOD_WRITE_BLOCK 5 200 0 = 205127 ∧
    (jbod_construct_opcode JBOD_WRITE_BLOCK 5 200 0 >>> 6) &&& 0xF = 5 ∧
    (jbod_construct_opcode JBOD_WRITE_BLOCK 5 200 0 >>> 10) &&& 0xFF = 200 ∧
    jbod_construct_opcode JBOD_WRITE_BLOCK 5 200 0 &&& 0x3F = JBOD_WRITE_BLOCK ∧
    jbod_construct_opcode 71 21 456 16384 = jbod_construct_opcode 7 5 200 0 :=
  ⟨by decide,
   ((opcode_roundtrip JBOD_WRITE_BLOCK 5 200 0).1 (by decide) (by decide) (by decide)
      (by decide)).2.2.1,
   ((opcode_roundtrip JBOD_WRITE_BLOCK 5 200 0).1 (by decide) (by decide) (by decide)
      (by decide)).2.2.2.1,
   ((opcode_roundtrip JBOD_WRITE_BLOCK 5 200 0).1 (by decide) (by decide) (by decide)
      (by decide)).2.1,
   (opcode_roundtrip 71 21 456 16384).2⟩

theorem recv_packet_decodes (op ret : Nat) (hop : op < 4294967296) (rest : List Nat)
    (blk : Bytes) (h : ret &&& 2 = 0 ∨ rest.length = 256) :
    ∃ blk1 : Bytes, recv_packet (htonl op ++ [ret] ++ rest) blk = some (op, ret, blk1) := by
  have h1 : ntohl (List.take 4 (htonl op ++ [ret])) = op := ntohl_htonl op hop _
  have h5 : (htonl op ++ [ret]).getD 4 0 = ret := by simp [htonl]
  unfold recv_packet
  simp only [nread_header, h1, h5]
  by_cases hr : ret &&& 2 = 0
  · exact ⟨blk, by simp [hr]⟩
  · have hlen : rest.length = 256 := by
      rcases h with h | h
      · exact absurd h hr
      · exact h
    have h2 : nread rest JBOD_BLOCK_SIZE = some (rest, []) := by
      have h3 : ¬ (rest.length < 256) := by omega
      have h4 : rest.length ≤ 256 := by omega
      simp [nread, JBOD_BLOCK_SIZE, h3, List.take_of_length_le h4, List.drop_of_length_le h4]
    exact ⟨memcpy blk 0 (bytes_of rest) 0 JBOD_BLOCK_SIZE, by simp [hr, h2]⟩

/-- C15. Request framing of `send_packet`, as a function from the opcode and the optional
block to the byte sequence handed to the stream. For every 32-bit `op`: the first four
bytes are `op` in big-endian order; the fifth byte is 2 (bit 1 set, all other bits 0) if
a block is supplied and the low 6 bits of `op` are the write-block code, and 0 otherwise;
the frame is the 5-byte header followed by exactly the 256 block bytes in the first case
and the 5-byte header alone in the second. Decoding the four opcode bytes as `recv_packet`
does gives back `op`. -/
theorem send_packet_frame (op : Nat) (hop : op < 4294967296) (block : Option Bytes) :
    (send_packet op block).take 4 =
      [op / 16777216 % 256, op / 65536 % 256, op / 256 % 256, op % 256] ∧
    (send_packet op block).getD 4 0 =
      (if block.isSome = true ∧ op &&& 0x3F = JBOD_WRITE_BLOCK then 2 else 0) ∧
    ((send_packet op block).getD 4 0 &&& 0x02 ≠ 0 ↔
      (block.isSome = true ∧ op &&& 0x3F = JBOD_WRITE_BLOCK)) ∧
    (send_packet op block).getD 4 0 &&& 0xFD = 0 ∧
    (∀ b : Bytes, block = some b → op &&& 0x3F = JBOD_WRITE_BLOCK →
      (send_packet op block).length = 5 + 256 ∧
      (send_packet op block).drop 5 = (List.range 256).map b) ∧
    (¬ (block.isSome = true ∧ op &&& 0x3F = JBOD_WRITE_BLOCK) →
      (send_packet op block).length = 5) ∧
    ntohl ((send_packet op block).take 4) = op ∧
    (∀ blk : Bytes, ∃ blk1 : Bytes,
      recv_packet (send_packet op block) blk =
        some (op, (send_packet op block).getD 4 0, blk1)) := by
  cases block with
  | none =>
    have hs : send_packet op none = htonl op ++ [0] := rfl
    rw [hs]
    refine ⟨by simp [htonl], by simp [htonl], by simp [htonl], by simp [htonl], ?_, ?_,
      ntohl_htonl op hop _, ?_⟩
    · intro b hb; simp at hb
    · intro _; simp [htonl]
    · intro blk
      have h5 : (htonl op ++ [0]).getD 4 0 = 0 := by simp [htonl]
      rw [h5]
      have := recv_packet_decodes op 0 hop [] blk (Or.inl (by decide))
      simpa using this
  | some b =>
    by_cases hw : op &&& 0x3F = JBOD_WRITE_BLOCK
    · have hs : send_packet op (some b) = htonl op ++ [2] ++ block_bytes b := by
        simp only [send_packet, hw, if_true]
        rfl
      have h5 : (htonl op ++ [2] ++ block_bytes b).getD 4 0 = 2 := by simp [htonl]
      have h6 : (2 &&& 2 ≠ 0) = True := by decide
      have h7 : (2 &&& 0xFD = 0) = True := by decide
      rw [hs, h5]
      refine ⟨by simp [htonl], by simp [hw], by simp [hw, h6], by simp only [h7], ?_, ?_, ?_,
        ?_⟩
      · intro b1 hb1 _
        have hbb : b1 = b := (Option.some.inj hb1).symm
        subst hbb
        refine ⟨by simp [htonl, block_bytes_length], ?_⟩
        simp [htonl, block_bytes, JBOD_BLOCK_SIZE]
      · intro hn
        exact absurd ⟨rfl, hw⟩ hn
      · rw [List.append_assoc]
        exact ntohl_htonl op hop _
      · intro blk
        exact recv_packet_decodes op 2 hop _ blk (Or.inr (block_bytes_length b))
    · have hs : send_packet op (some b) = htonl op ++ [0] := by
        simp only [send_packet, hw, if_false]
      rw [hs]
      refine ⟨by simp [htonl], by simp [htonl, hw], by simp [htonl, hw], by simp [htonl], ?_,
        ?_, ntohl_htonl op hop _, ?_⟩
      · intro b1 _ hw1
        exact absurd hw1 hw
      · intro _; simp [htonl]
      · intro blk
        have h5 : (htonl op ++ [0]).getD 4 0 = 0 := by simp [htonl]
        rw [h5]
        have := recv_packet_decodes op 0 hop [] blk (Or.inl (by decide))
        simpa using this

set_option maxRecDepth 100000 in
theorem send_packet_frame_witness :
    (send_packet 205127 (some demo_bytes)).take 5 = [0, 3, 33, 71, 2] ∧
    (send_packet 205127 (some demo_bytes)).length = 5 + 256 ∧
    (send_packet 205127 (some demo_bytes)).drop 5 = (List.range 256).map demo_bytes ∧
    send_packet 205126 (some demo_bytes) = [0, 3, 33, 70, 0] ∧
    ntohl ((send_packet 205127 (some demo_bytes)).take 4) = 205127 :=
  ⟨by decide,
   ((send_packet_frame 205127 (by decide) (some demo_bytes)).2.2.2.2.1 demo_bytes rfl
      (by decide)).1,
   ((send_packet_frame 205127 (by decide) (some demo_bytes)).2.2.2.2.1 demo_bytes rfl
      (by decide)).2,
   by decide,
   (send_packet_frame 205127 (by decide) (some demo_bytes)).2.2.2.2.2.2.1⟩

/-! ## The outcomes of `cache_lookup` -/

/-- C16, as stated, fails: a miss and a hard failure return the same value. On the
initialised cache `demo_two`, which holds no entry for block `(9, 9)`, `cache_lookup`
returns -1 with a buffer present; it also returns -1 without a cache and without a
buffer. -/
theorem cache_lookup_miss_counterexample :
    demo_two.cache.isSome = true ∧
    (∀ e ∈ slots demo_two, ¬ holds_key e 9 9) ∧
    (cache_lookup demo_two 9 9 (some (fun _ => 0))).2.1 = -1 ∧
    (cache_lookup cache_initial 9 9 (some (fun _ => 0))).2.1 = -1 ∧
    (cache_lookup demo_two 9 9 none).2.1 = -1 ∧
    ¬ ((cache_lookup demo_two 9 9 (some (fun _ => 0))).2.1 ≠
        (cache_lookup cache_initial 9 9 (some (fun _ => 0))).2.1) := by
  refine ⟨by decide, by decide, by decide, by decide, by decide, by decide⟩

/-- C16, amended. `cache_lookup` returns 1 or -1. It returns -1 on a miss (initialised
cache, buffer present, no valid entry holds the key), the same value as when the cache is
uninitialised or the buffer is absent; it returns 1 exactly on a hit. A miss differs from
a hard failure in the state only: it adds one to `num_queries` and leaves everything
else, the buffer included, as it was, while a hard failure changes nothing. -/
theorem cache_lookup_outcomes (g : CacheGlobals) (d b : Int) :
    (∀ buf : Option Bytes,
      (cache_lookup g d b buf).2.1 = 1 ∨ (cache_lookup g d b buf).2.1 = -1) ∧
    (∀ buf : Bytes, g.cache.isSome = true → (∀ e ∈ slots g, ¬ holds_key e d b) →
      cache_lookup g d b (some buf) =
        ({ g with num_queries := int_succ g.num_queries }, -1, some buf)) ∧
    (∀ buf : Option Bytes, g.cache = none → cache_lookup g d b buf = (g, -1, buf)) ∧
    cache_lookup g d b none = (g, -1, none) ∧
    (∀ buf : Option Bytes, (cache_lookup g d b buf).2.1 = 1 ↔
      (buf.isSome = true ∧ ∃ e ∈ slots g, holds_key e d b)) := by
  refine ⟨?_, ?_, ?_, ?_, ?_⟩
  · intro buf
    cases hc : g.cache with
    | none => simp [cache_lookup, hc]
    | some tbl =>
      cases buf with
      | none => simp [cache_lookup, hc]
      | some out =>
        cases hl : cache_lookup_loop d b out tbl with
        | none => simp [cache_lookup, hc, hl]
        | some r => simp [cache_lookup, hc, hl]
  · intro buf hs hno
    cases hc : g.cache with
    | none => rw [hc] at hs; simp at hs
    | some tbl =>
      have hl : cache_lookup_loop d b buf tbl = none :=
        (cache_lookup_loop_none d b buf tbl).2 (by simpa [slots, hc] using hno)
      simp only [cache_lookup, hc, hl]
  · intro buf hc
    simp [cache_lookup, hc]
  · cases hc : g.cache <;> simp [cache_lookup, hc]
  · intro buf
    cases buf with
    | none =>
      cases hc : g.cache <;> simp [cache_lookup, hc]
    | some out =>
      constructor
      · intro h
        obtain ⟨tbl, i, hi, hc, hk, _⟩ := cache_lookup_hit g d b out h
        refine ⟨rfl, tbl[i], ?_, hk⟩
        simp only [slots, hc, Option.getD_some]
        exact List.getElem_mem hi
      · rintro ⟨_, e, he, hk⟩
        by_contra hne
        exact (cache_lookup_miss g d b out hne).2.2 e he hk

theorem cache_lookup_outcomes_witness :
    cache_lookup demo_two 9 9 (some (fun _ => 0)) =
      ({ demo_two with num_queries := int_succ demo_two.num_queries }, -1,
        some (fun _ => 0)) ∧
    cache_lookup cache_initial 9 9 (some (fun _ => 0)) =
      (cache_initial, -1, some (fun _ => 0)) ∧
    (cache_lookup demo_two 1 2 (some (fun _ => 0))).2.1 = 1 :=
  ⟨(cache_lookup_outcomes demo_two 9 9).2.1 (fun _ => 0) (by decide) (by decide),
   (cache_lookup_outcomes cache_initial 9 9).2.2.1 (some (fun _ => 0)) rfl,
   ((cache_lookup_outcomes demo_two 1 2).2.2.2.2 (some (fun _ => 0))).2
     ⟨rfl, by decide⟩⟩

/-! ## `mdadm_write` and the occupancy of the cache -/

theorem ChangedOnly_refl (P : Int → Int → Prop) (t : List cache_entry_t) :
    ChangedOnly P t t :=
  ⟨rfl, fun _ _ _ => Or.inl rfl⟩

theorem ChangedOnly_trans (P Q R : Int → Int → Prop) (t1 t2 t3 : List cache_entry_t)
    (hP : ∀ d b, P d b → R d b) (hQ : ∀ d b, Q d b → R d b)
    (h12 : ChangedOnly P t1 t2) (h23 : ChangedOnly Q t2 t3) : ChangedOnly R t1 t3 := by
  obtain ⟨k12, c12⟩ := h12
  obtain ⟨k23, c23⟩ := h23
  refine ⟨k23.trans k12, ?_⟩
  intro j h1 h3
  obtain ⟨hlen, hk⟩ := keys_getElem t2 t1 k12
  have h2 : j < t2.length := by omega
  obtain ⟨a1, a2, a3⟩ := hk j h2 h1
  rcases c23 j h2 h3 with e23 | ⟨v2, q2⟩
  · rcases c12 j h1 h2 with e12 | ⟨v1, p1⟩
    · exact Or.inl (e23.trans e12)
    · exact Or.inr ⟨v1, hP _ _ p1⟩
  · refine Or.inr ⟨by rw [← a1]; exact v2, ?_⟩
    rw [← a2, ← a3]
    exact hQ _ _ q2

theorem ChangedOnly_set (P : Int → Int → Prop) (t : List cache_entry_t) (i : Nat)
    (hi : i < t.length) (e : cache_entry_t)
    (hk : e.valid = t[i].valid ∧ e.disk_num = t[i].disk_num ∧ e.block_num = t[i].block_num)
    (hP : t[i].valid = true ∧ P t[i].disk_num t[i].block_num) :
    ChangedOnly P t (t.set i e) := by
  constructor
  · apply List.ext_getElem
    · simp [keys]
    · intro j h1 h2
      simp only [keys, List.getElem_map, List.getElem_set]
      by_cases hij : i = j
      · subst hij
        simp [hk.1, hk.2.1, hk.2.2]
      · simp [hij]
  · intro j h1 h2
    rw [List.getElem_set]
    by_cases hij : i = j
    · subst hij
      exact Or.inr hP
    · rw [if_neg hij]
      exact Or.inl rfl

theorem ChangedOnly_lookup (g : CacheGlobals) (d b : Int) (buf : Option Bytes) :
    (cache_lookup g d b buf).1.cache.isSome = g.cache.isSome ∧
    ChangedOnly (fun d1 b1 => d1 = d ∧ b1 = b) (slots g) (slots (cache_lookup g d b buf).1) := by
  cases buf with
  | none =>
    have h : cache_lookup g d b none = (g, -1, none) := by
      cases hc : g.cache <;> simp [cache_lookup, hc]
    rw [h]
    exact ⟨rfl, ChangedOnly_refl _ _⟩
  | some out =>
    by_cases hr : (cache_lookup g d b (some out)).2.1 = 1
    · obtain ⟨tbl, i, hi, hc, hk, _, _, hres⟩ := cache_lookup_hit g d b out hr
      refine ⟨by rw [hres, hc]; rfl, ?_⟩
      simp only [slots, hres, hc, Option.getD_some]
      exact ChangedOnly_set _ tbl i hi _ ⟨rfl, rfl, rfl⟩ ⟨hk.1, hk.2.1, hk.2.2⟩
    · have h2 := (cache_lookup_miss g d b out hr).2.1
      refine ⟨by rw [h2], ?_⟩
      simp only [slots, h2]
      exact ChangedOnly_refl _ _

theorem ChangedOnly_update (g : CacheGlobals) (d b : Int) (buf : Bytes) :
    (cache_update g d b buf).cache.isSome = g.cache.isSome ∧
    ChangedOnly (fun d1 b1 => d1 = d ∧ b1 = b) (slots g) (slots (cache_update g d b buf)) := by
  constructor
  · unfold cache_update
    cases hc : g.cache <;> simp [hc]
  · rw [slots_cache_update]
    by_cases hex : ∀ e ∈ slots g, ¬ holds_key e d b
    · rw [cache_update_loop_miss _ _ _ _ hex]
      exact ChangedOnly_refl _ _
    · have hne : cache_lookup_loop d b (fun _ => 0) (slots g) ≠ none := by
        intro hn
        exact hex ((cache_lookup_loop_none _ _ _ _).1 hn)
      cases hl : cache_lookup_loop d b (fun _ => 0) (slots g) with
      | none => exact absurd hl hne
      | some r =>
        obtain ⟨o1, t1⟩ := r
        obtain ⟨j, hj, hm, hfirst, _, _⟩ := cache_lookup_loop_some _ _ _ _ o1 t1 hl
        rw [cache_update_loop_hit _ _ buf _ j hj hm hfirst]
        exact ChangedOnly_set _ _ j hj _ ⟨rfl, rfl, rfl⟩ ⟨hm.1, hm.2.1, hm.2.2⟩

theorem write_fetch_cache (s : State) (l : WriteLocals) :
    (write_fetch s l).1.cache =
      (cache_lookup s.cache ((l.current_block / JBOD_NUM_BLOCKS_PER_DISK : Nat) : Int)
        ((l.current_block % JBOD_NUM_BLOCKS_PER_DISK : Nat) : Int) (some l.temp_buf)).1 := by
  unfold write_fetch
  dsimp only
  split
  · split <;> rfl
  · rfl

theorem write_through_cache (s : State) (l : WriteLocals) :
    ((write_through s l).1.cache = s.cache ∨
      ∃ blk, (write_through s l).1.cache =
        cache_update s.cache ((l.current_block / JBOD_NUM_BLOCKS_PER_DISK : Nat) : Int)
          ((l.current_block % JBOD_NUM_BLOCKS_PER_DISK : Nat) : Int) blk) ∧
    ∀ l2, (write_through s l).2 = some l2 → l2.current_block = l.current_block + 1 := by
  unfold write_through
  dsimp only
  split
  · exact ⟨Or.inl rfl, fun l2 h => by simp at h⟩
  · refine ⟨Or.inr ⟨_, rfl⟩, ?_⟩
    intro l2 h
    simp only [Option.some.injEq] at h
    rw [← h]

/-- One iteration of the loop of `mdadm_write` leaves the valid flags and keys of the cache
as they were and changes at most the slots that hold the block of the iteration. -/
theorem write_body_changed (s : State) (l : WriteLocals) (temp : Bytes) :
    let s1 := (write_fetch s l).1
    let r := write_through s1 { l with temp_buf := temp }
    (s1.cache.cache.isSome = s.cache.cache.isSome ∧
      ChangedOnly (fun d b => d = ((l.current_block / JBOD_NUM_BLOCKS_PER_DISK : Nat) : Int) ∧
        b = ((l.current_block % JBOD_NUM_BLOCKS_PER_DISK : Nat) : Int))
        (slots s.cache) (slots s1.cache)) ∧
    (r.1.cache.cache.isSome = s.cache.cache.isSome ∧
      ChangedOnly (fun d b => d = ((l.current_block / JBOD_NUM_BLOCKS_PER_DISK : Nat) : Int) ∧
        b = ((l.current_block % JBOD_NUM_BLOCKS_PER_DISK : Nat) : Int))
        (slots s.cache) (slots r.1.cache)) := by
  intro s1 r
  have h1 : s1.cache.cache.isSome = s.cache.cache.isSome ∧
      ChangedOnly (fun d b => d = ((l.current_block / JBOD_NUM_BLOCKS_PER_DISK : Nat) : Int) ∧
        b = ((l.current_block % JBOD_NUM_BLOCKS_PER_DISK : Nat) : Int))
        (slots s.cache) (slots s1.cache) := by
    show (write_fetch s l).1.cache.cache.isSome = _ ∧ ChangedOnly _ _ (slots (write_fetch s l).1.cache)
    rw [write_fetch_cache]
    exact ChangedOnly_lookup _ _ _ _
  refine ⟨h1, ?_⟩
  rcases (write_through_cache s1 { l with temp_buf := temp }).1 with h | ⟨blk, h⟩
  · show (write_through s1 { l with temp_buf := temp }).1.cache.cache.isSome = _ ∧
      ChangedOnly _ _ (slots (write_through s1 { l with temp_buf := temp }).1.cache)
    rw [h]
    exact h1
  · show (write_through s1 { l with temp_buf := temp }).1.cache.cache.isSome = _ ∧
      ChangedOnly _ _ (slots (write_through s1 { l with temp_buf := temp }).1.cache)
    rw [h]
    have h2 := ChangedOnly_update s1.cache ((l.current_block / JBOD_NUM_BLOCKS_PER_DISK : Nat) : Int)
      ((l.current_block % JBOD_NUM_BLOCKS_PER_DISK : Nat) : Int) blk
    exact ⟨h2.1.trans h1.1,
      ChangedOnly_trans _ _ _ _ _ _ (fun _ _ h => h) (fun _ _ h => h) h1.2 h2.2⟩

/-- The loop of `mdadm_write`, however it ends, leaves the valid flags and keys of the
cache as they were and changes at most slots holding one of the blocks it visits. -/
theorem mdadm_write_loop_changed (k : Nat) : ∀ (s : State) (l : WriteLocals),
    (mdadm_write_loop k s l).1.cache.cache.isSome = s.cache.cache.isSome ∧
    ChangedOnly (fun d b => ∃ c : Nat, l.current_block ≤ c ∧ c < l.current_block + k ∧
        d = ((c / JBOD_NUM_BLOCKS_PER_DISK : Nat) : Int) ∧
        b = ((c % JBOD_NUM_BLOCKS_PER_DISK : Nat) : Int))
      (slots s.cache) (slots (mdadm_write_loop k s l).1.cache) := by
  induction k with
  | zero =>
    intro s l
    exact ⟨rfl, ChangedOnly_refl _ _⟩
  | succ k ih =>
    intro s l
    have hmono : ∀ d b : Int,
        (d = ((l.current_block / JBOD_NUM_BLOCKS_PER_DISK : Nat) : Int) ∧
          b = ((l.current_block % JBOD_NUM_BLOCKS_PER_DISK : Nat) : Int)) →
        ∃ c : Nat, l.current_block ≤ c ∧ c < l.current_block + (k + 1) ∧
          d = ((c / JBOD_NUM_BLOCKS_PER_DISK : Nat) : Int) ∧
          b = ((c % JBOD_NUM_BLOCKS_PER_DISK : Nat) : Int) :=
      fun d b h => ⟨l.current_block, le_refl _, by omega, h.1, h.2⟩
    unfold mdadm_write_loop
    cases hf : write_fetch s l with
    | mk s1 o =>
      cases o with
      | none =>
        have hb := (write_body_changed s l l.temp_buf).1
        rw [hf] at hb
        exact ⟨hb.1, ChangedOnly_trans _ _ _ _ _ _ hmono hmono hb.2 (ChangedOnly_refl _ _)⟩
      | some temp =>
        have hb := (write_body_changed s l temp).2
        rw [hf] at hb
        dsimp only at hb ⊢
        cases ht : write_through s1 { l with temp_buf := temp } with
        | mk s2 o2 =>
          rw [ht] at hb
          cases o2 with
          | none =>
            exact ⟨hb.1, ChangedOnly_trans _ _ _ _ _ _ hmono hmono hb.2 (ChangedOnly_refl _ _)⟩
          | some l2 =>
            have hcur := (write_through_cache s1 { l with temp_buf := temp }).2 l2
              (by rw [ht])
            dsimp only at hcur
            obtain ⟨i1, i2⟩ := ih s2 l2
            refine ⟨i1.trans hb.1, ChangedOnly_trans _ _ _ _ _ _ hmono ?_ hb.2 i2⟩
            rintro d b ⟨c, c1, c2, c3, c4⟩
            exact ⟨c, by omega, by omega, c3, c4⟩

/-- A call of `mdadm_write` either returns before its loop with the state untouched, or
has passed every check and runs the loop. -/
theorem mdadm_write_cases (s : State) (start_addr write_len : Nat) (write_buf : Option Bytes) :
    (mdadm_write s start_addr write_len write_buf).1 = s ∨
    (1 ≤ write_len ∧ write_len ≤ 1024 ∧ start_addr + write_len ≤ 1048576 ∧
      ∃ buf, write_buf = some buf ∧
        (mdadm_write s start_addr write_len write_buf).1 =
          (mdadm_write_loop (block_span start_addr write_len) s
            (write_locals start_addr write_len buf)).1) := by
  unfold mdadm_write
  split
  · exact Or.inl rfl
  · split
    · exact Or.inl rfl
    · split
      · exact Or.inl rfl
      · split
        · exact Or.inl rfl
        · split
          · exact Or.inl rfl
          · rename_i h3 h4 h5
            cases write_buf with
            | none => exact Or.inl rfl
            | some buf =>
              right
              have hs : start_addr ≤ 1048575 := by
                have : ¬ start_addr > last_possible_addr := fun h => h5 (Or.inl h)
                simp only [last_possible_addr, JBOD_NUM_DISKS, JBOD_DISK_SIZE] at this
                omega
              have hl : ¬ last_addr start_addr write_len > 1048575 := by
                intro h
                apply h5
                right
                simp only [last_possible_addr, JBOD_NUM_DISKS, JBOD_DISK_SIZE]
                exact h
              have hla : last_addr start_addr write_len = start_addr + write_len - 1 := by
                unfold last_addr UINT32_MOD
                omega
              refine ⟨by omega, by omega, by omega, buf, rfl, rfl⟩

/-- C18 (writes never fill the cache): `mdadm_write`, whatever its arguments and however
it ends (rejected, aborted by a failed remote operation, or successful), never inserts
into the cache. The table exists afterwards exactly when it existed before, every slot
keeps its valid flag and its key, so a block is cached afterwards exactly when it was
cached before (a block fetched from the backing store on a miss is not kept), and the only
slots whose contents or access count may differ afterwards are slots that were already
valid for a block of the written range. -/
theorem mdadm_write_never_fills (s : State) (start_addr write_len : Nat)
    (write_buf : Option Bytes) :
    (mdadm_write s start_addr write_len write_buf).1.cache.cache.isSome = s.cache.cache.isSome ∧
    keys (slots (mdadm_write s start_addr write_len write_buf).1.cache) = keys (slots s.cache) ∧
    (∀ d b : Int,
      (∃ e ∈ slots (mdadm_write s start_addr write_len write_buf).1.cache, holds_key e d b) ↔
      (∃ e ∈ slots s.cache, holds_key e d b)) ∧
    (∀ (j : Nat) (h1 : j < (slots s.cache).length)
        (h2 : j < (slots (mdadm_write s start_addr write_len write_buf).1.cache).length),
      (slots (mdadm_write s start_addr write_len write_buf).1.cache)[j] = (slots s.cache)[j] ∨
      ((slots s.cache)[j].valid = true ∧
        ∃ c : Nat, start_addr / 256 ≤ c ∧ c ≤ (start_addr + write_len - 1) / 256 ∧
          (slots s.cache)[j].disk_num = ((c / 256 : Nat) : Int) ∧
          (slots s.cache)[j].block_num = ((c % 256 : Nat) : Int))) := by
  have key : (mdadm_write s start_addr write_len write_buf).1.cache.cache.isSome
        = s.cache.cache.isSome ∧
      ChangedOnly (fun d b => ∃ c : Nat, start_addr / 256 ≤ c ∧
          c ≤ (start_addr + write_len - 1) / 256 ∧
          d = ((c / 256 : Nat) : Int) ∧ b = ((c % 256 : Nat) : Int))
        (slots s.cache) (slots (mdadm_write s start_addr write_len write_buf).1.cache) := by
    rcases mdadm_write_cases s start_addr write_len write_buf with h | ⟨h1, h2, h3, buf, _, h⟩
    · rw [h]
      exact ⟨rfl, ChangedOnly_refl _ _⟩
    · rw [h]
      obtain ⟨i1, i2⟩ := mdadm_write_loop_changed (block_span start_addr write_len) s
        (write_locals start_addr write_len buf)
      refine ⟨i1, ChangedOnly_trans _ _ _ _ _ _ ?_ (fun _ _ h => h) i2 (ChangedOnly_refl _ _)⟩
      rintro d b ⟨c, c1, c2, c3, c4⟩
      have hla := last_addr_eq start_addr write_len h1 h3
      simp only [write_locals, block_span, hla, JBOD_BLOCK_SIZE] at c1 c2
      simp only [JBOD_NUM_BLOCKS_PER_DISK] at c3 c4
      have hle : start_addr / 256 ≤ (start_addr + write_len - 1) / 256 :=
        Nat.div_le_div_right (by omega)
      exact ⟨c, c1, by omega, c3, c4⟩
  obtain ⟨k1, k2, k3⟩ := key
  refine ⟨k1, k2, ?_, k3⟩
  obtain ⟨hlen, hk⟩ := keys_getElem _ _ k2
  intro d b
  constructor
  · rintro ⟨e, he, hh⟩
    obtain ⟨j, hj, rfl⟩ := List.getElem_of_mem he
    obtain ⟨a1, a2, a3⟩ := hk j hj (by omega)
    exact ⟨_, List.getElem_mem (by omega : j < (slots s.cache).length),
      by rw [← a1]; exact hh.1, by rw [← a2]; exact hh.2.1, by rw [← a3]; exact hh.2.2⟩
  · rintro ⟨e, he, hh⟩
    obtain ⟨j, hj, rfl⟩ := List.getElem_of_mem he
    obtain ⟨a1, a2, a3⟩ := hk j (by omega) hj
    exact ⟨_, List.getElem_mem (by omega :
        j < (slots (mdadm_write s start_addr write_len write_buf).1.cache).length),
      by rw [a1]; exact hh.1, by rw [a2]; exact hh.2.1, by rw [a3]; exact hh.2.2⟩

/-! ## The choice of `cache_insert` among entries of equal count -/

set_option maxRecDepth 100000 in
/-- C19 (tie-break by insertion age), evaluated on a reachable full table. After
`cache_create(2)` and the insertions of `(0, 0)`, `(0, 1)` and `(0, 2)`, slot 0 holds
`(0, 2)`, inserted last, and slot 1 holds `(0, 1)`, inserted before it; both have access
count 1. The insertion of `(0, 3)` succeeds and overwrites slot 0: the entry evicted is
`(0, 2)`, the one inserted latest among the entries at the minimum, and `(0, 1)`, the
one inserted earliest, stays. -/
theorem cache_insert_tie_break_by_index :
    CacheReachable demo_tie_three ∧
    keys (slots demo_tie_two) = [(true, 0, 0), (true, 0, 1)] ∧
    keys (slots demo_tie_three) = [(true, 0, 2), (true, 0, 1)] ∧
    (slots demo_tie_three).map (fun e => e.num_accesses) = [1, 1] ∧
    (cache_insert demo_tie_three 0 3 (some (fun _ => 13))).2 = 1 ∧
    keys (slots (cache_insert demo_tie_three 0 3 (some (fun _ => 13))).1)
      = [(true, 0, 3), (true, 0, 1)] :=
  ⟨CacheReachable.insert _ 0 2 _
      (CacheReachable.insert _ 0 1 _
        (CacheReachable.insert _ 0 0 _
          (CacheReachable.create cache_initial 2 true (by decide)))),
    by decide, by decide, by decide, by decide, by decide⟩

/-! ## The valid slots as a front segment -/

theorem FrontAt_exists (tbl : List cache_entry_t) (h : ValidFront tbl) :
    ∃ k, FrontAt tbl k := by
  by_cases hall : ∀ (j : Nat) (hj : j < tbl.length), tbl[j].valid = true
  · exact ⟨tbl.length, le_refl _, fun j hj => ⟨fun _ => hj, fun _ => hall j hj⟩⟩
  · have hex : ∃ j : Nat, ∃ hj : j < tbl.length, tbl[j].valid = false := by
      by_contra hcon
      apply hall
      intro j hj
      by_contra hjv
      exact hcon ⟨j, hj, by simpa using hjv⟩
    classical
    obtain ⟨hk, hkv⟩ := Nat.find_spec hex
    refine ⟨Nat.find hex, le_of_lt hk, ?_⟩
    intro j hj
    constructor
    · intro hv
      by_contra hlt
      have := h (Nat.find hex) j hk hj (by omega) hv
      rw [hkv] at this
      exact absurd this (by simp)
    · intro hlt
      by_contra hjv
      exact Nat.find_min hex hlt ⟨hj, by simpa using hjv⟩

theorem FrontAt_unique (tbl : List cache_entry_t) (k1 k2 : Nat)
    (h1 : FrontAt tbl k1) (h2 : FrontAt tbl k2) : k1 = k2 := by
  obtain ⟨a1, b1⟩ := h1
  obtain ⟨a2, b2⟩ := h2
  by_contra hne
  rcases Nat.lt_or_gt_of_ne hne with hlt | hlt
  · have hj : k1 < tbl.length := by omega
    have := (b1 k1 hj).1 ((b2 k1 hj).2 hlt)
    omega
  · have hj : k2 < tbl.length := by omega
    have := (b2 k2 hj).1 ((b1 k2 hj).2 hlt)
    omega

/-- A successful `cache_insert` on a table whose valid slots are those below `k` fills
slot `k` when `k` is below the capacity, and otherwise overwrites a valid slot. -/
theorem FrontAt_insert (g : CacheGlobals) (d b : Int) (buf : Option Bytes) (k : Nat)
    (hk : FrontAt (slots g) k) (h : (cache_insert g d b buf).2 = 1) :
    FrontAt (slots (cache_insert g d b buf).1) (if k < (slots g).length then k + 1 else k) := by
  obtain ⟨tbl, src, v, hv, hc, _, _, hres, hvict, _, _⟩ := cache_insert_ok g d b buf h
  have hs : slots g = tbl := by simp [slots, hc]
  rw [hs] at hk
  rw [hs, hres]
  simp only [slots, Option.getD_some]
  obtain ⟨hkl, hkv⟩ := hk
  obtain ⟨_, hinv, _⟩ := hvict
  by_cases hlt : k < tbl.length
  · rw [if_pos hlt]
    have hkinv : tbl[k].valid = false := by
      have := (hkv k hlt).not.2 (by omega)
      simpa using this
    obtain ⟨hvinv, hbefore⟩ := hinv ⟨k, hlt, hkinv⟩
    have hvk : v = k := by
      have h1 : ¬ v < k := by
        intro hvk
        have := (hkv v hv).2 hvk
        rw [hvinv] at this
        exact absurd this (by simp)
      have h2 : ¬ k < v := by
        intro hkv2
        have := hbefore k hlt hkv2
        rw [hkinv] at this
        exact absurd this (by simp)
      omega
    subst hvk
    refine ⟨by simp only [List.length_set]; omega, ?_⟩
    intro j hj
    simp only [List.length_set] at hj
    rw [List.getElem_set]
    by_cases hvj : v = j
    · rw [if_pos hvj]
      simp only [fill_entry, true_iff]
      omega
    · rw [if_neg hvj, hkv j hj]
      omega
  · rw [if_neg hlt]
    refine ⟨by simp only [List.length_set]; omega, ?_⟩
    intro j hj
    simp only [List.length_set] at hj
    rw [List.getElem_set]
    by_cases hvj : v = j
    · rw [if_pos hvj]
      simp only [fill_entry, true_iff]
      omega
    · rw [if_neg hvj]
      exact hkv j hj

/-- On a table whose valid slots form a front segment, the scan of `cache_insert` ends
without the early `return -1` exactly when no valid entry holds the key. -/
theorem cache_insert_loop_complete (d b : Int) (tbl : List cache_entry_t)
    (hvf : ValidFront tbl) :
    (cache_insert_loop d b tbl 0 (-1) INT_MAX (-1) = none ↔
      ∃ (j : Nat) (hj : j < tbl.length), holds_key tbl[j] d b) := by
  constructor
  · intro hn
    by_contra hcon
    obtain ⟨r, hr⟩ := cache_insert_loop_total d b tbl 0 (-1) INT_MAX (-1)
      (fun e he _ hh => by
        obtain ⟨j, hj, rfl⟩ := List.getElem_of_mem he
        exact hcon ⟨j, hj, hh⟩)
    rw [hn] at hr
    exact absurd hr (by simp)
  · rintro ⟨j, hj, hh⟩
    cases hl : cache_insert_loop d b tbl 0 (-1) INT_MAX (-1) with
    | none => rfl
    | some r =>
      exfalso
      have hspec := cache_insert_loop_spec d b tbl tbl 0 (-1) INT_MAX (-1) r (by simp)
        (fun j _ hj => absurd hj (by omega)) (LfuAcc_initial tbl) hl
      rcases hspec with ⟨k, hk, _, hinv, hbefore⟩ | ⟨hall, _⟩
      · by_cases hjk : j < k
        · exact (hbefore j hj hjk).2 hh
        · have := hvf k j hk hj (by omega) hh.1
          rw [hinv] at this
          exact absurd this (by simp)
      · exact (hall j hj).2 hh

theorem slots_length (g : CacheGlobals) : (slots g).length = cache_size g := by
  unfold slots cache_size
  cases g.cache <;> rfl

/-- C20 (valid entries form a front segment of the table). In every state reachable from
a successful `cache_create` by any sequence of `cache_insert`, `cache_lookup` and
`cache_update` calls there is exactly one `k` with `k <= cache_size` such that the valid
slots are exactly those of index below `k`; a successful `cache_insert` keeps the capacity
and turns `k` into `k + 1` when `k` is below the capacity and leaves it unchanged when
`k` is the capacity. Consequently the scan of `cache_insert` has compared the key with
every valid entry: it takes its early `return -1` exactly when some valid entry of the
whole table holds the key, and whenever `cache_insert` returns 1 no valid entry held the
key. -/
theorem valid_front_segment (g : CacheGlobals) (h : CacheReachable g) :
    (∃ k, FrontAt (slots g) k ∧ k ≤ cache_size g ∧ ∀ k2, FrontAt (slots g) k2 → k2 = k) ∧
    (∀ (k : Nat) (d b : Int) (buf : Option Bytes), FrontAt (slots g) k →
      (cache_insert g d b buf).2 = 1 →
      cache_size (cache_insert g d b buf).1 = cache_size g ∧
      FrontAt (slots (cache_insert g d b buf).1) (if k < cache_size g then k + 1 else k)) ∧
    (∀ d b : Int, cache_insert_loop d b (slots g) 0 (-1) INT_MAX (-1) = none ↔
      ∃ e ∈ slots g, holds_key e d b) ∧
    (∀ (d b : Int) (buf : Option Bytes), (cache_insert g d b buf).2 = 1 →
      ∀ e ∈ slots g, ¬ holds_key e d b) := by
  obtain ⟨tbl, hc, _, hvf, _, _⟩ := CacheReachable_inv g h
  have hs : slots g = tbl := by simp [slots, hc]
  have hvf2 : ValidFront (slots g) := by rw [hs]; exact hvf
  have hloop : ∀ d b : Int, cache_insert_loop d b (slots g) 0 (-1) INT_MAX (-1) = none ↔
      ∃ e ∈ slots g, holds_key e d b := by
    intro d b
    rw [cache_insert_loop_complete d b (slots g) hvf2]
    constructor
    · rintro ⟨j, hj, hh⟩
      exact ⟨_, List.getElem_mem hj, hh⟩
    · rintro ⟨e, he, hh⟩
      obtain ⟨j, hj, rfl⟩ := List.getElem_of_mem he
      exact ⟨j, hj, hh⟩
  refine ⟨?_, ?_, hloop, ?_⟩
  · obtain ⟨k, hk⟩ := FrontAt_exists (slots g) hvf2
    refine ⟨k, hk, ?_, fun k2 hk2 => FrontAt_unique _ _ _ hk2 hk⟩
    rw [← slots_length]
    exact hk.1
  · intro k d b buf hk hr
    have hf := FrontAt_insert g d b buf k hk hr
    rw [slots_length] at hf
    refine ⟨?_, hf⟩
    rw [← slots_length, ← slots_length]
    have h1 := hf.1
    obtain ⟨tbl2, src, v, hv, hc2, _, _, hres, _⟩ := cache_insert_ok g d b buf hr
    rw [hres]
    simp [slots, hc2]
  · intro d b buf hr e he hh
    obtain ⟨tbl2, src, v, hv, hc2, _, _, hres, hvict, hbefore, hall⟩ :=
      cache_insert_ok g d b buf hr
    have htt : tbl2 = tbl := by rw [hc] at hc2; exact (Option.some.inj hc2).symm
    subst htt
    rw [hs] at he
    obtain ⟨j, hj, rfl⟩ := List.getElem_of_mem he
    exact victim_no_other_holder d b tbl2 v hvf hvict hbefore hall j hj hh

set_option maxRecDepth 100000 in
theorem valid_front_segment_witness :
    CacheReachable demo_tie_two ∧ FrontAt (slots demo_tie_two) 2 ∧ cache_size demo_tie_two = 2 ∧
    FrontAt (slots (cache_insert demo_tie_two 0 2 (some (fun _ => 12))).1) 2 ∧
    ¬ (∃ e ∈ slots demo_tie_two, holds_key e 0 2) :=
  have hr : CacheReachable demo_tie_two :=
    CacheReachable.insert _ 0 1 _
      (CacheReachable.insert _ 0 0 _
        (CacheReachable.create cache_initial 2 true (by decide)))
  have hf : FrontAt (slots demo_tie_two) 2 :=
    ⟨by decide, fun j hj => by
      have h2 : (slots demo_tie_two).length = 2 := by decide
      have hj2 : j < 2 := by omega
      refine ⟨fun _ => hj2, fun _ => ?_⟩
      have h0 : ∀ i : Fin (slots demo_tie_two).length, (slots demo_tie_two)[i.1].valid = true := by
        decide
      exact h0 ⟨j, hj⟩⟩
  ⟨hr, hf, by decide,
    ((valid_front_segment demo_tie_two hr).2.1 2 0 2 (some (fun _ => 12)) hf (by decide)).2,
    fun hex => by
      have hn := ((valid_front_segment demo_tie_two hr).2.2.1 0 2).2 hex
      exact absurd hn (by decide)⟩

/-! ## The invariant of the translator -/

end Jbod
